import Mathlib

/-!
# KASUMI block cipher (package `kasumi`, file `kasumi.go`)

A shallow embedding of the Go implementation and theorems about it.

Conventions of the embedding.

* Go machine integers are natural numbers; every place where the Go type
  truncates (a conversion to a narrower type, a left shift, an addition) has
  an explicit `% 2 ^ w`.  A `[]byte` is a `List Nat` whose entries are below
  `256`; a `uint16` table or array is a `List Nat`.
* A Go run-time panic (index out of range) is the result `none`.  Every
  indexing expression of the source is a look-up `a[i]?`, so a result
  `some _` says that no index left its array.
* The substitution tables `s7` and `s9` are read by `_FI` but declared outside
  `kasumi.go`; every function that reaches them takes them as parameters, and
  `S7`, `S9` below are the tables of the published algorithm.
* A method that writes into `dst` returns the new contents of `dst`.
-/

namespace Kasumi

/-! ## Constants and types -/

/-- Constant `BlockSize` of the package. -/
def BlockSize : Nat := 8

/-- Constant `KeySize` of the package. -/
def KeySize : Nat := 16

/-- Type `KeySizeError`: an `int` holding the rejected key length. -/
structure KeySizeError where
  size : Int
deriving DecidableEq, Repr

/-- Struct `kasumi`: the key and the eight round-key arrays (`[8]uint32`). -/
structure kasumi where
  key : List Nat
  kli1 : List Nat
  koi1 : List Nat
  kii1 : List Nat
  kli2 : List Nat
  koi2 : List Nat
  kii2 : List Nat
  koi3 : List Nat
  kii3 : List Nat
deriving DecidableEq, Repr

/-- Conversion `uint32(n)` of a Go `int`. -/
def uint32 (n : Int) : Nat := (n % 4294967296).toNat

/-- Conversion `uint16(x)` of an unsigned value. -/
def uint16 (x : Nat) : Nat := x % 65536

/-- Assignment `a[i] = v` into a Go array or slice; panics when `i` is out of range. -/
def store (a : List Nat) (i v : Nat) : Option (List Nat) :=
  if i < a.length then some (a.set i v) else none

/-- Builtin `copy(dst, src)`: the first `min (len dst) (len src)` elements are overwritten. -/
def copy (dst src : List Nat) : List Nat :=
  src.take dst.length ++ dst.drop src.length

/-! ## `encoding/binary`, big endian -/

/-- Function `binary.BigEndian.Uint16`. -/
def BigEndian.Uint16 (b : List Nat) : Option Nat :=
  match b with
  | b0 :: b1 :: _ => some (b1 ||| (b0 <<< 8) % 65536)
  | _ => none

/-- Function `binary.BigEndian.Uint32`. -/
def BigEndian.Uint32 (b : List Nat) : Option Nat :=
  match b with
  | b0 :: b1 :: b2 :: b3 :: _ =>
    some (b3 ||| (b2 <<< 8) % 4294967296 ||| (b1 <<< 16) % 4294967296
      ||| (b0 <<< 24) % 4294967296)
  | _ => none

/-- Function `binary.BigEndian.PutUint32`: the new contents of the slice. -/
def BigEndian.PutUint32 (b : List Nat) (v : Nat) : Option (List Nat) :=
  match b with
  | _ :: _ :: _ :: _ :: rest =>
    some ((v >>> 24) % 256 :: (v >>> 16) % 256 :: (v >>> 8) % 256 :: v % 256 :: rest)
  | _ => none

/-! ## Rotations and the round functions -/

/-- Function `_ROL16(n uint16, c uint8)`: `(n << c) | (n >> (16 - c))`;
the subtraction is a `uint8` subtraction. -/
def _ROL16 (n c : Nat) : Nat :=
  (n <<< c) % 65536 ||| n >>> ((16 + 256 - c) % 256)

/-- Function `_ROR16(n uint16, c uint8)`: `(n >> c) | (n << (16 - c))`. -/
def _ROR16 (n c : Nat) : Nat :=
  n >>> c ||| (n <<< ((16 + 256 - c) % 256)) % 65536

/-- Function `_FI(in uint16, subkey uint16) uint16`. -/
def _FI (s7 s9 : List Nat) (input subkey : Nat) : Option Nat := do
  let nine := (input >>> 7) &&& 0x1FF
  let seven := input &&& 0x7F
  let t ← s9[nine]?
  let nine := t ^^^ seven
  let t ← s7[seven]?
  let seven := t ^^^ (nine &&& 0x7F)
  let seven := seven ^^^ (subkey >>> 9)
  let nine := nine ^^^ (subkey &&& 0x1FF)
  let t ← s9[nine]?
  let nine := t ^^^ seven
  let t ← s7[seven]?
  let seven := t ^^^ (nine &&& 0x7F)
  pure (((seven <<< 9) % 65536 + nine) % 65536)

/-- Method `(c *kasumi) _FO(in uint32, roundno uint32) uint32`. -/
def kasumi._FO (c : kasumi) (s7 s9 : List Nat) (input roundno : Nat) : Option Nat := do
  let left := uint16 (input >>> 16)
  let right := uint16 (input &&& 0xFFFF)
  let k ← c.koi1[roundno]?
  let left := left ^^^ uint16 k
  let k ← c.kii1[roundno]?
  let left ← _FI s7 s9 left (uint16 k)
  let left := left ^^^ right
  let k ← c.koi2[roundno]?
  let right := right ^^^ uint16 k
  let k ← c.kii2[roundno]?
  let right ← _FI s7 s9 right (uint16 k)
  let right := right ^^^ left
  let k ← c.koi3[roundno]?
  let left := left ^^^ uint16 k
  let k ← c.kii3[roundno]?
  let left ← _FI s7 s9 left (uint16 k)
  let left := left ^^^ right
  pure (((right <<< 16) % 4294967296 + left) % 4294967296)

/-- Method `(c *kasumi) _FL(in uint32, roundno uint32) uint32`. -/
def kasumi._FL (c : kasumi) (input roundno : Nat) : Option Nat := do
  let l := uint16 (input >>> 16)
  let r := uint16 input &&& 0xFFFF
  let k ← c.kli1[roundno]?
  let a := l &&& uint16 k
  let r := r ^^^ _ROL16 a 1
  let k ← c.kli2[roundno]?
  let b := r ||| uint16 k
  let l := l ^^^ _ROL16 b 1
  pure (((l <<< 16) % 4294967296 + r) % 4294967296)

/-! ## Construction: the key schedule -/

/-- The zero value `&kasumi{}`. -/
def kasumi.zero : kasumi :=
  { key := List.replicate 16 0
    kli1 := List.replicate 8 0, koi1 := List.replicate 8 0, kii1 := List.replicate 8 0
    kli2 := List.replicate 8 0, koi2 := List.replicate 8 0, kii2 := List.replicate 8 0
    koi3 := List.replicate 8 0, kii3 := List.replicate 8 0 }

/-- Body of the loop `for n := 0; n < 8; n++ { ukey[n] = e.Uint16(c.key[2*n:]) }`. -/
def ukeyStep (ckey : List Nat) (ukey : List Nat) (n : Nat) : Option (List Nat) := do
  let v ← BigEndian.Uint16 (ckey.drop (2 * n))
  store ukey n v

/-- Body of the loop `for n := 0; n < 8; n++ { kprime[n] = ukey[n] ^ s[n] }`. -/
def kprimeStep (s ukey : List Nat) (kprime : List Nat) (n : Nat) : Option (List Nat) := do
  let u ← ukey[n]?
  let sn ← s[n]?
  store kprime n (u ^^^ sn)

/-- One statement `dst[n] = uint32(f(src[i]))` of the third loop of
`NewCipherWithRounds`: a read of `src[i]` and a write of `dst[n]`. -/
def assignFrom (dst : List Nat) (n : Nat) (f : Nat → Nat) (src : List Nat) (i : Nat) :
    Option (List Nat) := do
  let v ← src[i]?
  store dst n (f v)

/-- Body of the third loop of `NewCipherWithRounds`, which fills entry `n` of
the eight round-key arrays. -/
def scheduleStep (ukey kprime : List Nat) (c : kasumi) (n : Nat) : Option kasumi := do
  let kli1 ← assignFrom c.kli1 n (fun u => _ROL16 u 1) ukey n
  let kli2 ← assignFrom c.kli2 n id kprime ((n + 2) &&& 7)
  let koi1 ← assignFrom c.koi1 n (fun u => _ROL16 u 5) ukey ((n + 1) &&& 7)
  let koi2 ← assignFrom c.koi2 n (fun u => _ROL16 u 8) ukey ((n + 5) &&& 7)
  let koi3 ← assignFrom c.koi3 n (fun u => _ROL16 u 13) ukey ((n + 6) &&& 7)
  let kii1 ← assignFrom c.kii1 n id kprime ((n + 4) &&& 7)
  let kii2 ← assignFrom c.kii2 n id kprime ((n + 3) &&& 7)
  let kii3 ← assignFrom c.kii3 n id kprime ((n + 7) &&& 7)
  pure (kasumi.mk c.key kli1 koi1 kii1 kli2 koi2 kii2 koi3 kii3)

/-- Function `NewCipherWithRounds(key []byte, rounds int) (cipher.Block, error)`.
The inner `Except` is the returned pair: `error l` is `(nil, KeySizeError(l))`
and `ok c` is `(c, nil)`.  The argument `rounds` is not used by the source. -/
def NewCipherWithRounds (key : List Nat) (_rounds : Int) :
    Option (Except KeySizeError kasumi) :=
  let ukey0 : List Nat := List.replicate 8 0
  let kprime0 : List Nat := List.replicate 8 0
  let s : List Nat := [0x0123, 0x4567, 0x89AB, 0xCDEF, 0xFEDC, 0xBA98, 0x7654, 0x3210]
  let l : Nat := key.length
  if l ≠ KeySize then
    some (Except.error (KeySizeError.mk l))
  else do
    let c0 : kasumi := kasumi.zero
    let c : kasumi := kasumi.mk (copy c0.key key) c0.kli1 c0.koi1 c0.kii1 c0.kli2 c0.koi2
      c0.kii2 c0.koi3 c0.kii3
    let ukey ← (List.range 8).foldlM (ukeyStep c.key) ukey0
    let kprime ← (List.range 8).foldlM (kprimeStep s ukey) kprime0
    let c ← (List.range 8).foldlM (scheduleStep ukey kprime) c
    pure (Except.ok c)

/-- Function `NewCipher(key []byte) (cipher.Block, error)`. -/
def NewCipher (key : List Nat) : Option (Except KeySizeError kasumi) :=
  NewCipherWithRounds key 8

/-! ## Encrypt and Decrypt -/

/-- Body of the loop of `Encrypt`, entered with counter `n`: the counter,
`left` and `right` at the end of the iteration. -/
def encBody (c : kasumi) (s7 s9 : List Nat) (n : Int) (left right : Nat) :
    Option (Int × Nat × Nat) := do
  let temp ← c._FL left (uint32 n)
  let temp ← c._FO s7 s9 temp (uint32 n)
  let n := n + 1
  let right := right ^^^ temp
  let temp ← c._FO s7 s9 right (uint32 n)
  let temp ← c._FL temp (uint32 n)
  let n := n + 1
  let left := left ^^^ temp
  pure (n, left, right)

/-- The loop `for n := 0; n <= 7; { ... }` of `Encrypt`, started at counter `n`.
The first argument bounds the number of iterations; the result is the final
`left`, `right` and the number of iterations that ran.  `none` is a panic in
the body or a loop still running when the bound is reached. -/
def encLoop (c : kasumi) (s7 s9 : List Nat) : Nat → Int → Nat → Nat → Option (Nat × Nat × Nat)
  | 0, n, left, right => if n ≤ 7 then none else some (left, right, 0)
  | fuel + 1, n, left, right =>
    if n ≤ 7 then do
      let st ← encBody c s7 s9 n left right
      let res ← encLoop c s7 s9 fuel st.1 st.2.1 st.2.2
      pure (res.1, res.2.1, res.2.2 + 1)
    else some (left, right, 0)

/-- Body of the loop of `Decrypt`, entered with counter `n`. -/
def decBody (c : kasumi) (s7 s9 : List Nat) (n : Int) (left right : Nat) :
    Option (Int × Nat × Nat) := do
  let temp ← c._FO s7 s9 right (uint32 n)
  let temp ← c._FL temp (uint32 n)
  let n := n - 1
  let left := left ^^^ temp
  let temp ← c._FL left (uint32 n)
  let temp ← c._FO s7 s9 temp (uint32 n)
  let n := n - 1
  let right := right ^^^ temp
  pure (n, left, right)

/-- The loop `for n := 7; n >= 0; { ... }` of `Decrypt`, started at counter `n`;
see `encLoop` for the first argument and the result. -/
def decLoop (c : kasumi) (s7 s9 : List Nat) : Nat → Int → Nat → Nat → Option (Nat × Nat × Nat)
  | 0, n, left, right => if n ≥ 0 then none else some (left, right, 0)
  | fuel + 1, n, left, right =>
    if n ≥ 0 then do
      let st ← decBody c s7 s9 n left right
      let res ← decLoop c s7 s9 fuel st.1 st.2.1 st.2.2
      pure (res.1, res.2.1, res.2.2 + 1)
    else some (left, right, 0)

/-- Iteration bound handed to the two loops; any value from `4` on gives the
same result. -/
def loopBound : Nat := 8

/-- Method `(c *kasumi) Encrypt(dst, src []byte)`: the new contents of `dst`. -/
def kasumi.Encrypt (c : kasumi) (s7 s9 : List Nat) (dst src : List Nat) : Option (List Nat) :=
  if dst.length < BlockSize ∨ src.length < BlockSize then
    some dst
  else do
    let left ← BigEndian.Uint32 src
    let right ← BigEndian.Uint32 (src.drop 4)
    let res ← encLoop c s7 s9 loopBound 0 left right
    let left := res.1
    let right := res.2.1
    let dst ← BigEndian.PutUint32 dst left
    let tail ← BigEndian.PutUint32 (dst.drop 4) right
    pure (dst.take 4 ++ tail)

/-- Method `(c *kasumi) Decrypt(dst, src []byte)`: the new contents of `dst`. -/
def kasumi.Decrypt (c : kasumi) (s7 s9 : List Nat) (dst src : List Nat) : Option (List Nat) :=
  if dst.length < BlockSize ∨ src.length < BlockSize then
    some dst
  else do
    let left ← BigEndian.Uint32 src
    let right ← BigEndian.Uint32 (src.drop 4)
    let res ← decLoop c s7 s9 loopBound 7 left right
    let left := res.1
    let right := res.2.1
    let dst ← BigEndian.PutUint32 dst left
    let tail ← BigEndian.PutUint32 (dst.drop 4) right
    pure (dst.take 4 ++ tail)

/-! ## The substitution tables -/

/-- Modelled from the spec: the table `s7` read by `_FI`, whose declaration is
outside `kasumi.go`.  The spec describes it as the fixed table S7 with 128
entries and pins it down through the known-answer vectors; the entries are
those of the published KASUMI algorithm. -/
def S7 : List Nat :=
  [54, 50, 62, 56, 22, 34, 94, 96, 38, 6, 63, 93, 2, 18, 123, 33,
   55, 113, 39, 114, 21, 67, 65, 12, 47, 73, 46, 27, 25, 111, 124, 81,
   53, 9, 121, 79, 52, 60, 58, 48, 101, 127, 40, 120, 104, 70, 71, 43,
   20, 122, 72, 61, 23, 109, 13, 100, 77, 1, 16, 7, 82, 10, 105, 98,
   117, 116, 76, 11, 89, 106, 0, 125, 118, 99, 86, 69, 30, 57, 126, 87,
   112, 51, 17, 5, 95, 14, 90, 84, 91, 8, 35, 103, 32, 97, 28, 66,
   102, 31, 26, 45, 75, 4, 85, 92, 37, 74, 80, 49, 68, 29, 115, 44,
   64, 107, 108, 24, 110, 83, 36, 78, 42, 19, 15, 41, 88, 119, 59, 3]

/-- Modelled from the spec: the table `s9` read by `_FI`, whose declaration is
outside `kasumi.go`.  The spec describes it as the fixed table S9 with 512
entries and pins it down through the known-answer vectors; the entries are
those of the published KASUMI algorithm. -/
def S9 : List Nat :=
  [167, 239, 161, 379, 391, 334, 9, 338, 38, 226, 48, 358, 452, 385, 90, 397,
   183, 253, 147, 331, 415, 340, 51, 362, 306, 500, 262, 82, 216, 159, 356, 177,
   175, 241, 489, 37, 206, 17, 0, 333, 44, 254, 378, 58, 143, 220, 81, 400,
   95, 3, 315, 245, 54, 235, 218, 405, 472, 264, 172, 494, 371, 290, 399, 76,
   165, 197, 395, 121, 257, 480, 423, 212, 240, 28, 462, 176, 406, 507, 288, 223,
   501, 407, 249, 265, 89, 186, 221, 428, 164, 74, 440, 196, 458, 421, 350, 163,
   232, 158, 134, 354, 13, 250, 491, 142, 191, 69, 193, 425, 152, 227, 366, 135,
   344, 300, 276, 242, 437, 320, 113, 278, 11, 243, 87, 317, 36, 93, 496, 27,
   487, 446, 482, 41, 68, 156, 457, 131, 326, 403, 339, 20, 39, 115, 442, 124,
   475, 384, 508, 53, 112, 170, 479, 151, 126, 169, 73, 268, 279, 321, 168, 364,
   363, 292, 46, 499, 393, 327, 324, 24, 456, 267, 157, 460, 488, 426, 309, 229,
   439, 506, 208, 271, 349, 401, 434, 236, 16, 209, 359, 52, 56, 120, 199, 277,
   465, 416, 252, 287, 246, 6, 83, 305, 420, 345, 153, 502, 65, 61, 244, 282,
   173, 222, 418, 67, 386, 368, 261, 101, 476, 291, 195, 430, 49, 79, 166, 330,
   280, 383, 373, 128, 382, 408, 155, 495, 367, 388, 274, 107, 459, 417, 62, 454,
   132, 225, 203, 316, 234, 14, 301, 91, 503, 286, 424, 211, 347, 307, 140, 374,
   35, 103, 125, 427, 19, 214, 453, 146, 498, 314, 444, 230, 256, 329, 198, 285,
   50, 116, 78, 410, 10, 205, 510, 171, 231, 45, 139, 467, 29, 86, 505, 32,
   72, 26, 342, 150, 313, 490, 431, 238, 411, 325, 149, 473, 40, 119, 174, 355,
   185, 233, 389, 71, 448, 273, 372, 55, 110, 178, 322, 12, 469, 392, 369, 190,
   1, 109, 375, 137, 181, 88, 75, 308, 260, 484, 98, 272, 370, 275, 412, 111,
   336, 318, 4, 504, 492, 259, 304, 77, 337, 435, 21, 357, 303, 332, 483, 18,
   47, 85, 25, 497, 474, 289, 100, 269, 296, 478, 270, 106, 31, 104, 433, 84,
   414, 486, 394, 96, 99, 154, 511, 148, 413, 361, 409, 255, 162, 215, 302, 201,
   266, 351, 343, 144, 441, 365, 108, 298, 251, 34, 182, 509, 138, 210, 335, 133,
   311, 352, 328, 141, 396, 346, 123, 319, 450, 281, 429, 228, 443, 481, 92, 404,
   485, 422, 248, 297, 23, 213, 130, 466, 22, 217, 283, 70, 294, 360, 419, 127,
   312, 377, 7, 468, 194, 2, 117, 295, 463, 258, 224, 447, 247, 187, 80, 398,
   284, 353, 105, 390, 299, 471, 470, 184, 57, 200, 348, 63, 204, 188, 33, 451,
   97, 30, 310, 219, 94, 160, 129, 493, 64, 179, 263, 102, 189, 207, 114, 402,
   438, 477, 387, 122, 192, 42, 381, 5, 145, 118, 180, 449, 293, 323, 136, 380,
   43, 66, 60, 455, 341, 445, 202, 432, 8, 237, 15, 376, 436, 464, 59, 461]

/-- Tables of the declared sizes whose entries fit in 7 and 9 bits. -/
def TablesInRange (s7 s9 : List Nat) : Prop :=
  s7.length = 128 ∧ s9.length = 512 ∧ (∀ x ∈ s7, x < 128) ∧ (∀ x ∈ s9, x < 512)

instance (s7 s9 : List Nat) : Decidable (TablesInRange s7 s9) := by
  unfold TablesInRange; infer_instance

/-- A byte slice: every entry is below `256`. -/
def IsBytes (b : List Nat) : Prop := ∀ x ∈ b, x < 256

instance (b : List Nat) : Decidable (IsBytes b) := by
  unfold IsBytes; infer_instance

/-- A cipher whose eight round-key arrays all have eight entries, as the
struct declaration `[8]uint32` prescribes. -/
def kasumi.WellSized (c : kasumi) : Prop :=
  c.kli1.length = 8 ∧ c.koi1.length = 8 ∧ c.kii1.length = 8 ∧ c.kli2.length = 8 ∧
  c.koi2.length = 8 ∧ c.kii2.length = 8 ∧ c.koi3.length = 8 ∧ c.kii3.length = 8

instance (c : kasumi) : Decidable c.WellSized := by
  unfold kasumi.WellSized; infer_instance

/-- The big-endian value of the first four entries of a slice. -/
def word32 (b : List Nat) : Nat :=
  b.getD 0 0 * 16777216 + b.getD 1 0 * 65536 + b.getD 2 0 * 256 + b.getD 3 0

/-- The four big-endian bytes of a 32-bit value. -/
def bytes32 (v : Nat) : List Nat :=
  [v / 16777216 % 256, v / 65536 % 256, v / 256 % 256, v % 256]

/-- Word `ukey[i]` as the source computes it: `e.Uint16(c.key[2*i:])`. -/
def ukeyOf (key : List Nat) (i : Nat) : Nat :=
  key.getD (2 * i + 1) 0 ||| (key.getD (2 * i) 0 <<< 8) % 65536

/-- Word `kprime[i]` as the source computes it. -/
def kprimeOf (key : List Nat) (i : Nat) : Nat :=
  ukeyOf key i ^^^ [0x0123, 0x4567, 0x89AB, 0xCDEF, 0xFEDC, 0xBA98, 0x7654, 0x3210].getD i 0

/-- The cipher that `NewCipherWithRounds` builds from a 16-byte key, in closed form. -/
def scheduleOf (key : List Nat) : kasumi :=
  { key := key
    kli1 := (List.range 8).map fun n => _ROL16 (ukeyOf key n) 1
    kli2 := (List.range 8).map fun n => kprimeOf key ((n + 2) % 8)
    koi1 := (List.range 8).map fun n => _ROL16 (ukeyOf key ((n + 1) % 8)) 5
    koi2 := (List.range 8).map fun n => _ROL16 (ukeyOf key ((n + 5) % 8)) 8
    koi3 := (List.range 8).map fun n => _ROL16 (ukeyOf key ((n + 6) % 8)) 13
    kii1 := (List.range 8).map fun n => kprimeOf key ((n + 4) % 8)
    kii2 := (List.range 8).map fun n => kprimeOf key ((n + 3) % 8)
    kii3 := (List.range 8).map fun n => kprimeOf key ((n + 7) % 8) }

/-- The left rotation of a 16-bit value `x` by `c ≤ 16` places: the low
`16 - c` bits move up by `c` places and the top `c` bits move to the bottom. -/
def rotl16 (x c : Nat) : Nat := x % 2 ^ (16 - c) * 2 ^ c + x / 2 ^ (16 - c)

/-- Spec 4.1, step 1: the big-endian 16-bit word `ukey[i]` formed from the key
bytes `2 i` and `2 i + 1`. -/
def spec_ukey (key : List Nat) (i : Nat) : Nat :=
  key.getD (2 * i) 0 * 256 + key.getD (2 * i + 1) 0

/-- Spec 4.1, step 2: the constants `S`. -/
def spec_S : List Nat := [0x0123, 0x4567, 0x89AB, 0xCDEF, 0xFEDC, 0xBA98, 0x7654, 0x3210]

/-- Spec 4.1, step 2: `kprime[i] = ukey[i] XOR S[i]`. -/
def spec_kprime (key : List Nat) (i : Nat) : Nat :=
  spec_ukey key i ^^^ spec_S.getD i 0

/-- Spec 4.5, Encrypt, one of the four iterations, entered with round counter
`n`: `temp=FL(left,n); temp=FO(temp,n); right^=temp; n+=1;`
`temp=FO(right,n); temp=FL(temp,n); left^=temp; n+=1`.  The state is the pair
`(left, right)`. -/
def spec_encIter (c : kasumi) (s7 s9 : List Nat) (st : Nat × Nat) (n : Nat) :
    Option (Nat × Nat) := do
  let temp ← c._FL st.1 n
  let temp ← c._FO s7 s9 temp n
  let right := st.2 ^^^ temp
  let temp ← c._FO s7 s9 right (n + 1)
  let temp ← c._FL temp (n + 1)
  let left := st.1 ^^^ temp
  pure (left, right)

/-- Spec 4.5, Encrypt: `left`, `right` are the big-endian halves of the block,
the iteration runs for `n = 0, 2, 4, 6` in that order, and the output is the
big-endian encoding of `left` followed by `right`. -/
def spec_Encrypt (c : kasumi) (s7 s9 : List Nat) (block : List Nat) : Option (List Nat) := do
  let left := word32 block
  let right := word32 (block.drop 4)
  let st ← [0, 2, 4, 6].foldlM (spec_encIter c s7 s9) (left, right)
  pure (bytes32 st.1 ++ bytes32 st.2)

/-- Spec 4.2, FI up to its last line: the final pair `(seven, nine)`.  The
tables are read as total functions (an index outside a table reads `0`). -/
def spec_FI_parts (S7 S9 : List Nat) (input subkey : Nat) : Nat × Nat :=
  let nine := (input >>> 7) &&& 0x1FF
  let seven := input &&& 0x7F
  let nine := S9.getD nine 0 ^^^ seven
  let seven := S7.getD seven 0 ^^^ (nine &&& 0x7F)
  let seven := seven ^^^ (subkey >>> 9)
  let nine := nine ^^^ (subkey &&& 0x1FF)
  let nine := S9.getD nine 0 ^^^ seven
  let seven := S7.getD seven 0 ^^^ (nine &&& 0x7F)
  (seven, nine)

/-- Spec 4.2, FI: `result = (seven<<9) + nine`, computed without truncation. -/
def spec_FI (S7 S9 : List Nat) (input subkey : Nat) : Nat :=
  ((spec_FI_parts S7 S9 input subkey).1 <<< 9) + (spec_FI_parts S7 S9 input subkey).2

/-- Spec 4.5, Decrypt, one of the four iterations, entered with round counter
`n`: `temp=FO(right,n); temp=FL(temp,n); left^=temp; n-=1;`
`temp=FL(left,n); temp=FO(temp,n); right^=temp; n-=1`.  The state is the pair
`(left, right)`. -/
def spec_decIter (c : kasumi) (s7 s9 : List Nat) (st : Nat × Nat) (n : Nat) :
    Option (Nat × Nat) := do
  let temp ← c._FO s7 s9 st.2 n
  let temp ← c._FL temp n
  let left := st.1 ^^^ temp
  let temp ← c._FL left (n - 1)
  let temp ← c._FO s7 s9 temp (n - 1)
  let right := st.2 ^^^ temp
  pure (left, right)

/-- A call `c.Encrypt(dst, src)` as a step on the pair of the receiver and
`dst`.  No statement of `Encrypt`, `_FO` or `_FL` assigns to a field of the
receiver, so the receiver after the call is the receiver before it. -/
def kasumi.EncryptCall (c : kasumi) (s7 s9 dst src : List Nat) : Option (kasumi × List Nat) :=
  (c.Encrypt s7 s9 dst src).map fun d => (c, d)

/-- A call `c.Decrypt(dst, src)` as a step on the pair of the receiver and
`dst`; see `kasumi.EncryptCall`. -/
def kasumi.DecryptCall (c : kasumi) (s7 s9 dst src : List Nat) : Option (kasumi × List Nat) :=
  (c.Decrypt s7 s9 dst src).map fun d => (c, d)

/-- Spec 4.3, FO up to the recombination: `left = hi16`, `right = lo16`, then
the three stages `left = FI(left ^ KO1[n], KI1[n]) ^ right`,
`right = FI(right ^ KO2[n], KI2[n]) ^ left`,
`left = FI(left ^ KO3[n], KI3[n]) ^ right`.  The result is the final
`(left, right)`; the round keys are the entries `n` of the arrays. -/
def spec_FO_parts (c : kasumi) (s7 s9 : List Nat) (input n : Nat) : Option (Nat × Nat) := do
  let left := input >>> 16
  let right := input &&& 0xFFFF
  let t ← _FI s7 s9 (left ^^^ c.koi1.getD n 0) (c.kii1.getD n 0)
  let left := t ^^^ right
  let t ← _FI s7 s9 (right ^^^ c.koi2.getD n 0) (c.kii2.getD n 0)
  let right := t ^^^ left
  let t ← _FI s7 s9 (left ^^^ c.koi3.getD n 0) (c.kii3.getD n 0)
  let left := t ^^^ right
  pure (left, right)

/-- Spec 4.3, FO: the output recombines as `(right<<16) | left`. -/
def spec_FO (c : kasumi) (s7 s9 : List Nat) (input n : Nat) : Option Nat :=
  (spec_FO_parts c s7 s9 input n).map fun p => (p.2 <<< 16) ||| p.1

/-- A cipher whose round keys all fit in 16 bits. -/
def kasumi.Keys16 (c : kasumi) : Prop :=
  ∀ x, (x ∈ c.kli1 ∨ x ∈ c.kli2 ∨ x ∈ c.koi1 ∨ x ∈ c.koi2 ∨ x ∈ c.koi3 ∨
    x ∈ c.kii1 ∨ x ∈ c.kii2 ∨ x ∈ c.kii3) → x < 65536

/-- Spec 4.4, FL up to the recombination: `l = hi16`, `r = lo16`,
`a = l & KL1[n]; r ^= rotl16(a,1); b = r | KL2[n]; l ^= rotl16(b,1)`.  The
result is the final `(l, r)`. -/
def spec_FL_parts (c : kasumi) (input n : Nat) : Nat × Nat :=
  let l := input >>> 16
  let r := input &&& 0xFFFF
  let a := l &&& c.kli1.getD n 0
  let r := r ^^^ rotl16 a 1
  let b := r ||| c.kli2.getD n 0
  let l := l ^^^ rotl16 b 1
  (l, r)

/-- Spec 4.4, FL: the output `(l<<16)|r`. -/
def spec_FL (c : kasumi) (input n : Nat) : Nat :=
  ((spec_FL_parts c input n).1 <<< 16) ||| (spec_FL_parts c input n).2

/-- The inverse of FL on an output with halves `(l', r')`:
`l = l' ^ rotl16(r' | KL2[n], 1)`, `r = r' ^ rotl16(l & KL1[n], 1)`, and the input
is `(l<<16)|r`. -/
def spec_FL_inv (c : kasumi) (output n : Nat) : Nat :=
  let l' := output >>> 16
  let r' := output &&& 0xFFFF
  let l := l' ^^^ rotl16 (r' ||| c.kli2.getD n 0) 1
  let r := r' ^^^ rotl16 (l &&& c.kli1.getD n 0) 1
  (l <<< 16) ||| r

/-! # Theorems -/

/-! ## Bytes and words -/

theorem or_shiftLeft_eq_add (a b k K : Nat) (hK : 2 ^ k = K) (h : a < K) :
    a ||| b <<< k = a + b * K := by
  subst hK
  rw [Nat.lor_comm, Nat.shiftLeft_eq, Nat.mul_comm, ← Nat.mul_add_lt_is_or h, Nat.add_comm,
    Nat.mul_comm]

theorem shiftLeft_mod_of_lt (b k K M : Nat) (hK : 2 ^ k = K) (h : b * K < M) :
    (b <<< k) % M = b <<< k := by
  subst hK
  rw [Nat.shiftLeft_eq]; exact Nat.mod_eq_of_lt h

theorem Uint16_val (b0 b1 : Nat) (rest : List Nat) (h0 : b0 < 256) (h1 : b1 < 256) :
    BigEndian.Uint16 (b0 :: b1 :: rest) = some (b0 * 256 + b1) := by
  have e : b1 ||| b0 <<< 8 = b1 + b0 * 256 := or_shiftLeft_eq_add b1 b0 8 256 (by norm_num) h1
  have m : (b0 <<< 8) % 65536 = b0 <<< 8 :=
    shiftLeft_mod_of_lt b0 8 256 65536 (by norm_num) (by omega)
  show some (b1 ||| b0 <<< 8 % 65536) = _
  rewrite [m, e]
  exact congrArg some (by omega)

theorem Uint32_val (b0 b1 b2 b3 : Nat) (rest : List Nat)
    (h0 : b0 < 256) (h1 : b1 < 256) (h2 : b2 < 256) (h3 : b3 < 256) :
    BigEndian.Uint32 (b0 :: b1 :: b2 :: b3 :: rest)
      = some (b0 * 16777216 + b1 * 65536 + b2 * 256 + b3) := by
  have m2 : (b2 <<< 8) % 4294967296 = b2 <<< 8 :=
    shiftLeft_mod_of_lt b2 8 256 _ (by norm_num) (by omega)
  have m1 : (b1 <<< 16) % 4294967296 = b1 <<< 16 :=
    shiftLeft_mod_of_lt b1 16 65536 _ (by norm_num) (by omega)
  have m0 : (b0 <<< 24) % 4294967296 = b0 <<< 24 :=
    shiftLeft_mod_of_lt b0 24 16777216 _ (by norm_num) (by omega)
  have e2 : b3 ||| b2 <<< 8 = b3 + b2 * 256 := or_shiftLeft_eq_add _ _ 8 256 (by norm_num) h3
  have e1 : (b3 + b2 * 256) ||| b1 <<< 16 = (b3 + b2 * 256) + b1 * 65536 :=
    or_shiftLeft_eq_add _ _ 16 65536 (by norm_num) (by omega)
  have e0 : (b3 + b2 * 256 + b1 * 65536) ||| b0 <<< 24
      = (b3 + b2 * 256 + b1 * 65536) + b0 * 16777216 :=
    or_shiftLeft_eq_add _ _ 24 16777216 (by norm_num) (by omega)
  show some (b3 ||| b2 <<< 8 % 4294967296 ||| b1 <<< 16 % 4294967296
    ||| b0 <<< 24 % 4294967296) = _
  rewrite [m0, m1, m2, e2, e1, e0]
  exact congrArg some (by omega)

theorem PutUint32_val (x0 x1 x2 x3 : Nat) (rest : List Nat) (v : Nat) :
    BigEndian.PutUint32 (x0 :: x1 :: x2 :: x3 :: rest) v
      = some (v / 16777216 % 256 :: v / 65536 % 256 :: v / 256 % 256 :: v % 256 :: rest) := by
  simp only [BigEndian.PutUint32, Nat.shiftRight_eq_div_pow]

/-! ## The round functions return, and return 32-bit values -/

theorem lookup_some (t : List Nat) (n B : Nat) (hlen : t.length = n) (hB : ∀ x ∈ t, x < B)
    (i : Nat) (hi : i < n) : ∃ v, t[i]? = some v ∧ v < B := by
  have h : i < t.length := by omega
  exact ⟨t[i], List.getElem?_eq_getElem h, hB _ (List.getElem_mem h)⟩

theorem _FL_lt (c : kasumi) (x n y : Nat) (h : c._FL x n = some y) : y < 4294967296 := by
  simp only [kasumi._FL, Option.bind_eq_bind, Option.bind_eq_some, Option.pure_def,
    Option.some.injEq] at h
  obtain ⟨_, _, _, _, rfl⟩ := h
  exact Nat.mod_lt _ (by norm_num)

theorem _FO_lt (c : kasumi) (s7 s9 : List Nat) (x n y : Nat) (h : c._FO s7 s9 x n = some y) :
    y < 4294967296 := by
  simp only [kasumi._FO, Option.bind_eq_bind, Option.bind_eq_some, Option.pure_def,
    Option.some.injEq] at h
  obtain ⟨_, _, _, _, _, _, _, _, _, _, _, _, _, _, _, _, _, _, rfl⟩ := h
  exact Nat.mod_lt _ (by norm_num)

theorem _FI_total (s7 s9 : List Nat) (ht : TablesInRange s7 s9) (x k : Nat) (hk : k < 65536) :
    ∃ r, _FI s7 s9 x k = some r := by
  obtain ⟨h7, h9, b7, b9⟩ := ht
  have i1 : (x >>> 7) &&& 0x1FF < 2 ^ 9 := Nat.and_lt_two_pow _ (by norm_num)
  obtain ⟨a, ha, la⟩ := lookup_some s9 512 (2 ^ 9) h9 b9 _ i1
  have i2 : x &&& 0x7F < 2 ^ 7 := Nat.and_lt_two_pow _ (by norm_num)
  obtain ⟨b, hb, lb⟩ := lookup_some s7 128 (2 ^ 7) h7 b7 _ i2
  have n1 : a ^^^ (x &&& 0x7F) < 2 ^ 9 :=
    Nat.xor_lt_two_pow la (lt_of_lt_of_le i2 (by norm_num))
  have s1 : b ^^^ ((a ^^^ (x &&& 0x7F)) &&& 0x7F) < 2 ^ 7 :=
    Nat.xor_lt_two_pow lb (Nat.and_lt_two_pow _ (by norm_num))
  have k9 : k >>> 9 < 2 ^ 7 := by
    rw [Nat.shiftRight_eq_div_pow]; norm_num; omega
  have s2 : b ^^^ ((a ^^^ (x &&& 0x7F)) &&& 0x7F) ^^^ (k >>> 9) < 2 ^ 7 :=
    Nat.xor_lt_two_pow s1 k9
  have n2 : a ^^^ (x &&& 0x7F) ^^^ (k &&& 0x1FF) < 2 ^ 9 :=
    Nat.xor_lt_two_pow n1 (Nat.and_lt_two_pow _ (by norm_num))
  obtain ⟨c, hc, _⟩ := lookup_some s9 512 (2 ^ 9) h9 b9 _ n2
  obtain ⟨d, hd, _⟩ := lookup_some s7 128 (2 ^ 7) h7 b7 _ s2
  simp only [_FI, Option.bind_eq_bind, ha, hb, hc, hd, Option.some_bind, Option.pure_def]
  exact ⟨_, rfl⟩


theorem idx_some (t : List Nat) (hlen : t.length = 8) (i : Nat) (hi : i < 8) :
    ∃ v, t[i]? = some v :=
  ⟨t[i], List.getElem?_eq_getElem (by omega)⟩

theorem uint16_lt (x : Nat) : uint16 x < 65536 := Nat.mod_lt _ (by norm_num)

theorem _FL_total (c : kasumi) (hc : c.WellSized) (x n : Nat) (hn : n < 8) :
    ∃ y, c._FL x n = some y := by
  obtain ⟨h1, _, _, h2, _, _, _, _⟩ := hc
  obtain ⟨a, ha⟩ := idx_some _ h1 n hn
  obtain ⟨b, hb⟩ := idx_some _ h2 n hn
  simp only [kasumi._FL, Option.bind_eq_bind, ha, hb, Option.some_bind, Option.pure_def]
  exact ⟨_, rfl⟩

theorem _FO_total (c : kasumi) (s7 s9 : List Nat) (hc : c.WellSized)
    (ht : TablesInRange s7 s9) (x n : Nat) (hn : n < 8) :
    ∃ y, c._FO s7 s9 x n = some y := by
  obtain ⟨_, o1, i1, _, o2, i2, o3, i3⟩ := hc
  obtain ⟨a1, ha1⟩ := idx_some _ o1 n hn
  obtain ⟨b1, hb1⟩ := idx_some _ i1 n hn
  obtain ⟨a2, ha2⟩ := idx_some _ o2 n hn
  obtain ⟨b2, hb2⟩ := idx_some _ i2 n hn
  obtain ⟨a3, ha3⟩ := idx_some _ o3 n hn
  obtain ⟨b3, hb3⟩ := idx_some _ i3 n hn
  simp only [kasumi._FO, Option.bind_eq_bind, ha1, hb1, Option.some_bind]
  obtain ⟨r1, hr1⟩ := _FI_total s7 s9 ht (uint16 (x >>> 16) ^^^ uint16 a1) (uint16 b1)
    (uint16_lt _)
  simp only [hr1, Option.some_bind, ha2, hb2]
  obtain ⟨r2, hr2⟩ := _FI_total s7 s9 ht (uint16 (x &&& 0xFFFF) ^^^ uint16 a2) (uint16 b2)
    (uint16_lt _)
  simp only [hr2, Option.some_bind, ha3, hb3]
  obtain ⟨r3, hr3⟩ := _FI_total s7 s9 ht
    (r1 ^^^ uint16 (x &&& 0xFFFF) ^^^ uint16 a3) (uint16 b3) (uint16_lt _)
  simp only [hr3, Option.some_bind, Option.pure_def]
  exact ⟨_, rfl⟩

/-! ## Lists of known length, words and bytes -/

theorem exists_cons_of_succ_le (l : List Nat) (n : Nat) (h : n + 1 ≤ l.length) :
    ∃ a t, l = a :: t ∧ n ≤ t.length := by
  cases l with
  | nil => simp at h
  | cons a t => exact ⟨a, t, rfl, by simpa using h⟩

theorem exists_four_cons (l : List Nat) (n : Nat) (h : n + 4 ≤ l.length) :
    ∃ a0 a1 a2 a3 t, l = a0 :: a1 :: a2 :: a3 :: t ∧ n ≤ t.length := by
  obtain ⟨a0, t0, rfl, h0⟩ := exists_cons_of_succ_le l (n + 3) h
  obtain ⟨a1, t1, rfl, h1⟩ := exists_cons_of_succ_le t0 (n + 2) h0
  obtain ⟨a2, t2, rfl, h2⟩ := exists_cons_of_succ_le t1 (n + 1) h1
  obtain ⟨a3, t3, rfl, h3⟩ := exists_cons_of_succ_le t2 n h2
  exact ⟨a0, a1, a2, a3, t3, rfl, h3⟩

theorem exists_eight_cons (l : List Nat) (h : 8 ≤ l.length) :
    ∃ a0 a1 a2 a3 a4 a5 a6 a7 t, l = a0 :: a1 :: a2 :: a3 :: a4 :: a5 :: a6 :: a7 :: t := by
  obtain ⟨a0, a1, a2, a3, t, rfl, h1⟩ := exists_four_cons l 4 h
  obtain ⟨a4, a5, a6, a7, t', rfl, _⟩ := exists_four_cons t 0 (by simpa using h1)
  exact ⟨a0, a1, a2, a3, a4, a5, a6, a7, t', rfl⟩

theorem exists_sixteen (l : List Nat) (h : l.length = 16) :
    ∃ a0 a1 a2 a3 a4 a5 a6 a7 a8 a9 a10 a11 a12 a13 a14 a15,
      l = [a0, a1, a2, a3, a4, a5, a6, a7, a8, a9, a10, a11, a12, a13, a14, a15] := by
  obtain ⟨a0, a1, a2, a3, t, rfl, h1⟩ := exists_four_cons l 12 (by omega)
  obtain ⟨a4, a5, a6, a7, t, rfl, h2⟩ := exists_four_cons t 8 h1
  obtain ⟨a8, a9, a10, a11, t, rfl, h3⟩ := exists_four_cons t 4 h2
  obtain ⟨a12, a13, a14, a15, t, rfl, h4⟩ := exists_four_cons t 0 (by simpa using h3)
  have : t = [] := by
    apply List.eq_nil_of_length_eq_zero
    simp only [List.length_cons] at h
    omega
  subst this
  exact ⟨a0, a1, a2, a3, a4, a5, a6, a7, a8, a9, a10, a11, a12, a13, a14, a15, rfl⟩

theorem word32_lt (b : List Nat) (h : IsBytes (b.take 4)) (hl : 4 ≤ b.length) :
    word32 b < 4294967296 := by
  obtain ⟨a0, a1, a2, a3, t, rfl, _⟩ := exists_four_cons b 0 (by simpa using hl)
  have h0 : a0 < 256 := h a0 (by simp)
  have h1 : a1 < 256 := h a1 (by simp)
  have h2 : a2 < 256 := h a2 (by simp)
  have h3 : a3 < 256 := h a3 (by simp)
  show a0 * 16777216 + a1 * 65536 + a2 * 256 + a3 < 4294967296
  omega

theorem word32_bytes32 (v : Nat) (t : List Nat) (h : v < 4294967296) :
    word32 (bytes32 v ++ t) = v := by
  show v / 16777216 % 256 * 16777216 + v / 65536 % 256 * 65536 + v / 256 % 256 * 256
    + v % 256 = v
  omega

theorem bytes32_word32 (a0 a1 a2 a3 : Nat) (t : List Nat)
    (h0 : a0 < 256) (h1 : a1 < 256) (h2 : a2 < 256) (h3 : a3 < 256) :
    bytes32 (word32 (a0 :: a1 :: a2 :: a3 :: t)) = [a0, a1, a2, a3] := by
  show [(a0 * 16777216 + a1 * 65536 + a2 * 256 + a3) / 16777216 % 256,
    (a0 * 16777216 + a1 * 65536 + a2 * 256 + a3) / 65536 % 256,
    (a0 * 16777216 + a1 * 65536 + a2 * 256 + a3) / 256 % 256,
    (a0 * 16777216 + a1 * 65536 + a2 * 256 + a3) % 256] = _
  have e0 : (a0 * 16777216 + a1 * 65536 + a2 * 256 + a3) / 16777216 % 256 = a0 := by omega
  have e1 : (a0 * 16777216 + a1 * 65536 + a2 * 256 + a3) / 65536 % 256 = a1 := by omega
  have e2 : (a0 * 16777216 + a1 * 65536 + a2 * 256 + a3) / 256 % 256 = a2 := by omega
  have e3 : (a0 * 16777216 + a1 * 65536 + a2 * 256 + a3) % 256 = a3 := by omega
  rewrite [e0, e1, e2, e3]
  exact rfl

theorem isBytes_bytes32 (v : Nat) : IsBytes (bytes32 v) := by
  intro x hx
  simp only [bytes32, List.mem_cons, List.mem_singleton, List.not_mem_nil, or_false] at hx
  omega

/-! ## The two loops -/

theorem uint32_ofNat (j : Nat) (h : j < 4294967296) : uint32 (j : Int) = j := by
  unfold uint32
  omega

/-- Shape of a finished iteration of the `Encrypt` loop body. -/
theorem encBody_eq_some (c : kasumi) (s7 s9 : List Nat) (n : Int) (l r : Nat)
    (st : Int × Nat × Nat) :
    encBody c s7 s9 n l r = some st ↔
      ∃ t1 t2 t3 t4, c._FL l (uint32 n) = some t1 ∧ c._FO s7 s9 t1 (uint32 n) = some t2 ∧
        c._FO s7 s9 (r ^^^ t2) (uint32 (n + 1)) = some t3 ∧
        c._FL t3 (uint32 (n + 1)) = some t4 ∧ st = (n + 1 + 1, l ^^^ t4, r ^^^ t2) := by
  simp only [encBody, Option.bind_eq_bind, Option.bind_eq_some, Option.pure_def,
    Option.some.injEq]
  constructor
  · rintro ⟨t1, h1, t2, h2, t3, h3, t4, h4, rfl⟩
    exact ⟨t1, t2, t3, t4, h1, h2, h3, h4, rfl⟩
  · rintro ⟨t1, t2, t3, t4, h1, h2, h3, h4, rfl⟩
    exact ⟨t1, h1, t2, h2, t3, h3, t4, h4, rfl⟩

/-- Shape of a finished iteration of the `Decrypt` loop body. -/
theorem decBody_eq_some (c : kasumi) (s7 s9 : List Nat) (n : Int) (l r : Nat)
    (st : Int × Nat × Nat) :
    decBody c s7 s9 n l r = some st ↔
      ∃ t1 t2 t3 t4, c._FO s7 s9 r (uint32 n) = some t1 ∧ c._FL t1 (uint32 n) = some t2 ∧
        c._FL (l ^^^ t2) (uint32 (n - 1)) = some t3 ∧
        c._FO s7 s9 t3 (uint32 (n - 1)) = some t4 ∧ st = (n - 1 - 1, l ^^^ t2, r ^^^ t4) := by
  simp only [decBody, Option.bind_eq_bind, Option.bind_eq_some, Option.pure_def,
    Option.some.injEq]
  constructor
  · rintro ⟨t1, h1, t2, h2, t3, h3, t4, h4, rfl⟩
    exact ⟨t1, t2, t3, t4, h1, h2, h3, h4, rfl⟩
  · rintro ⟨t1, t2, t3, t4, h1, h2, h3, h4, rfl⟩
    exact ⟨t1, h1, t2, h2, t3, h3, t4, h4, rfl⟩

/-- One iteration of `Decrypt` entered at counter `n + 1` undoes one iteration of
`Encrypt` entered at counter `n`. -/
theorem decBody_encBody (c : kasumi) (s7 s9 : List Nat) (n : Int) (l r : Nat)
    (st : Int × Nat × Nat) (h : encBody c s7 s9 n l r = some st) :
    st.1 = n + 2 ∧ decBody c s7 s9 (n + 1) st.2.1 st.2.2 = some (n - 1, l, r) := by
  obtain ⟨t1, t2, t3, t4, h1, h2, h3, h4, rfl⟩ := (encBody_eq_some ..).1 h
  refine ⟨by ring, (decBody_eq_some ..).2 ⟨t3, t4, t1, t2, h3, h4, ?_, ?_, ?_⟩⟩
  · simpa [Nat.xor_cancel_right] using h1
  · simpa using h2
  · simp [Nat.xor_cancel_right]

/-- One iteration of `Encrypt` entered at counter `n - 1` undoes one iteration of
`Decrypt` entered at counter `n`. -/
theorem encBody_decBody (c : kasumi) (s7 s9 : List Nat) (n : Int) (l r : Nat)
    (st : Int × Nat × Nat) (h : decBody c s7 s9 n l r = some st) :
    st.1 = n - 2 ∧ encBody c s7 s9 (n - 1) st.2.1 st.2.2 = some (n + 1, l, r) := by
  obtain ⟨t1, t2, t3, t4, h1, h2, h3, h4, rfl⟩ := (decBody_eq_some ..).1 h
  refine ⟨by ring, (encBody_eq_some ..).2 ⟨t3, t4, t1, t2, h3, h4, ?_, ?_, ?_⟩⟩
  · simpa [Nat.xor_cancel_right] using h1
  · simpa using h2
  · simp [Nat.xor_cancel_right]

theorem encLoop_succ (c : kasumi) (s7 s9 : List Nat) (f : Nat) (n : Int) (l r : Nat) :
    encLoop c s7 s9 (f + 1) n l r =
      if n ≤ 7 then
        (encBody c s7 s9 n l r).bind fun st =>
          (encLoop c s7 s9 f st.1 st.2.1 st.2.2).bind fun res =>
            some (res.1, res.2.1, res.2.2 + 1)
      else some (l, r, 0) := rfl

theorem decLoop_succ (c : kasumi) (s7 s9 : List Nat) (f : Nat) (n : Int) (l r : Nat) :
    decLoop c s7 s9 (f + 1) n l r =
      if n ≥ 0 then
        (decBody c s7 s9 n l r).bind fun st =>
          (decLoop c s7 s9 f st.1 st.2.1 st.2.2).bind fun res =>
            some (res.1, res.2.1, res.2.2 + 1)
      else some (l, r, 0) := rfl

theorem encLoop_zero (c : kasumi) (s7 s9 : List Nat) (n : Int) (l r : Nat) :
    encLoop c s7 s9 0 n l r = if n ≤ 7 then none else some (l, r, 0) := rfl

theorem decLoop_zero (c : kasumi) (s7 s9 : List Nat) (n : Int) (l r : Nat) :
    decLoop c s7 s9 0 n l r = if n ≥ 0 then none else some (l, r, 0) := rfl

/-- Running the `Decrypt` loop on the result of the `Encrypt` loop first undoes
the `k` iterations the `Encrypt` loop made. -/
theorem decLoop_encLoop (c : kasumi) (s7 s9 : List Nat) :
    ∀ (f : Nat) (n : Int) (l r l' r' k : Nat), 0 ≤ n + 1 →
      encLoop c s7 s9 f n l r = some (l', r', k) →
      ∀ (g : Nat) (res : Nat × Nat × Nat), decLoop c s7 s9 g (n - 1) l r = some res →
        decLoop c s7 s9 (g + k) (n + 2 * k - 1) l' r' = some (res.1, res.2.1, res.2.2 + k) := by
  intro f
  induction f with
  | zero =>
    intro n l r l' r' k _ h g res hd
    rw [encLoop_zero] at h
    split at h
    · cases h
    · cases h
      simpa using hd
  | succ f ih =>
    intro n l r l' r' k hn h g res hd
    rw [encLoop_succ] at h
    split at h
    · simp only [Option.bind_eq_some, Option.some.injEq] at h
      obtain ⟨st, hst, res1, hres1, heq⟩ := h
      obtain ⟨e1, hdb⟩ := decBody_encBody c s7 s9 n l r st hst
      obtain ⟨l1, r1, k1⟩ := res1
      simp only [Prod.mk.injEq] at heq
      obtain ⟨rfl, rfl, rfl⟩ := heq
      rw [e1] at hres1
      have hd1 : decLoop c s7 s9 (g + 1) (n + 2 - 1) st.2.1 st.2.2
          = some (res.1, res.2.1, res.2.2 + 1) := by
        rw [decLoop_succ, if_pos (by omega)]
        have : n + 2 - 1 = n + 1 := by ring
        rw [this, hdb]
        simp [hd]
      have := ih (n + 2) st.2.1 st.2.2 l1 r1 k1 (by omega) hres1 (g + 1) _ hd1
      have e2 : n + 2 + 2 * (k1 : Int) - 1 = n + 2 * ((k1 + 1 : Nat) : Int) - 1 := by
        push_cast; ring
      rw [e2] at this
      have e3 : g + 1 + k1 = g + (k1 + 1) := by ring
      rw [e3] at this
      simpa [Nat.add_assoc, Nat.add_comm 1 k1] using this
    · cases h
      simpa using hd

/-! ## Closed forms of `Encrypt` and `Decrypt`, bounds and termination of the loops -/

theorem Encrypt_eq (c : kasumi) (s7 s9 dst src : List Nat) (hd : 8 ≤ dst.length)
    (hs : 8 ≤ src.length) (hb : IsBytes (src.take 8)) :
    c.Encrypt s7 s9 dst src =
      (encLoop c s7 s9 loopBound 0 (word32 src) (word32 (src.drop 4))).map
        fun res => bytes32 res.1 ++ bytes32 res.2.1 ++ dst.drop 8 := by
  obtain ⟨b0, b1, b2, b3, b4, b5, b6, b7, t, rfl⟩ := exists_eight_cons src hs
  obtain ⟨x0, x1, x2, x3, x4, x5, x6, x7, u, rfl⟩ := exists_eight_cons dst hd
  have h0 : b0 < 256 := hb b0 (by simp)
  have h1 : b1 < 256 := hb b1 (by simp)
  have h2 : b2 < 256 := hb b2 (by simp)
  have h3 : b3 < 256 := hb b3 (by simp)
  have h4 : b4 < 256 := hb b4 (by simp)
  have h5 : b5 < 256 := hb b5 (by simp)
  have h6 : b6 < 256 := hb b6 (by simp)
  have h7 : b7 < 256 := hb b7 (by simp)
  have g : ¬ ((x0 :: x1 :: x2 :: x3 :: x4 :: x5 :: x6 :: x7 :: u).length < BlockSize ∨
      (b0 :: b1 :: b2 :: b3 :: b4 :: b5 :: b6 :: b7 :: t).length < BlockSize) := by
    simp [BlockSize]
  unfold kasumi.Encrypt
  rewrite [if_neg g, Uint32_val b0 b1 b2 b3 _ h0 h1 h2 h3]
  have e : List.drop 4 (b0 :: b1 :: b2 :: b3 :: b4 :: b5 :: b6 :: b7 :: t)
      = b4 :: b5 :: b6 :: b7 :: t := rfl
  rewrite [e, Uint32_val b4 b5 b6 b7 _ h4 h5 h6 h7]
  have w1 : word32 (b0 :: b1 :: b2 :: b3 :: b4 :: b5 :: b6 :: b7 :: t)
      = b0 * 16777216 + b1 * 65536 + b2 * 256 + b3 := rfl
  have w2 : word32 (b4 :: b5 :: b6 :: b7 :: t)
      = b4 * 16777216 + b5 * 65536 + b6 * 256 + b7 := rfl
  rewrite [w1, w2]
  simp only [Option.bind_eq_bind, Option.some_bind]
  cases encLoop c s7 s9 loopBound 0 (b0 * 16777216 + b1 * 65536 + b2 * 256 + b3)
      (b4 * 16777216 + b5 * 65536 + b6 * 256 + b7) with
  | none => rfl
  | some res =>
    simp only [Option.some_bind, Option.map_some', PutUint32_val, List.drop_succ_cons,
      List.drop_zero, List.take_succ_cons, List.take_zero, Option.pure_def, bytes32,
      List.cons_append, List.nil_append, List.drop]

theorem Decrypt_eq (c : kasumi) (s7 s9 dst src : List Nat) (hd : 8 ≤ dst.length)
    (hs : 8 ≤ src.length) (hb : IsBytes (src.take 8)) :
    c.Decrypt s7 s9 dst src =
      (decLoop c s7 s9 loopBound 7 (word32 src) (word32 (src.drop 4))).map
        fun res => bytes32 res.1 ++ bytes32 res.2.1 ++ dst.drop 8 := by
  obtain ⟨b0, b1, b2, b3, b4, b5, b6, b7, t, rfl⟩ := exists_eight_cons src hs
  obtain ⟨x0, x1, x2, x3, x4, x5, x6, x7, u, rfl⟩ := exists_eight_cons dst hd
  have h0 : b0 < 256 := hb b0 (by simp)
  have h1 : b1 < 256 := hb b1 (by simp)
  have h2 : b2 < 256 := hb b2 (by simp)
  have h3 : b3 < 256 := hb b3 (by simp)
  have h4 : b4 < 256 := hb b4 (by simp)
  have h5 : b5 < 256 := hb b5 (by simp)
  have h6 : b6 < 256 := hb b6 (by simp)
  have h7 : b7 < 256 := hb b7 (by simp)
  have g : ¬ ((x0 :: x1 :: x2 :: x3 :: x4 :: x5 :: x6 :: x7 :: u).length < BlockSize ∨
      (b0 :: b1 :: b2 :: b3 :: b4 :: b5 :: b6 :: b7 :: t).length < BlockSize) := by
    simp [BlockSize]
  unfold kasumi.Decrypt
  rewrite [if_neg g, Uint32_val b0 b1 b2 b3 _ h0 h1 h2 h3]
  have e : List.drop 4 (b0 :: b1 :: b2 :: b3 :: b4 :: b5 :: b6 :: b7 :: t)
      = b4 :: b5 :: b6 :: b7 :: t := rfl
  rewrite [e, Uint32_val b4 b5 b6 b7 _ h4 h5 h6 h7]
  have w1 : word32 (b0 :: b1 :: b2 :: b3 :: b4 :: b5 :: b6 :: b7 :: t)
      = b0 * 16777216 + b1 * 65536 + b2 * 256 + b3 := rfl
  have w2 : word32 (b4 :: b5 :: b6 :: b7 :: t)
      = b4 * 16777216 + b5 * 65536 + b6 * 256 + b7 := rfl
  rewrite [w1, w2]
  simp only [Option.bind_eq_bind, Option.some_bind]
  cases decLoop c s7 s9 loopBound 7 (b0 * 16777216 + b1 * 65536 + b2 * 256 + b3)
      (b4 * 16777216 + b5 * 65536 + b6 * 256 + b7) with
  | none => rfl
  | some res =>
    simp only [Option.some_bind, Option.map_some', PutUint32_val, List.drop_succ_cons,
      List.drop_zero, List.take_succ_cons, List.take_zero, Option.pure_def, bytes32,
      List.cons_append, List.nil_append, List.drop]

theorem xor_lt_32 (a b : Nat) (ha : a < 4294967296) (hb : b < 4294967296) :
    a ^^^ b < 4294967296 := by
  have h : (4294967296 : Nat) = 2 ^ 32 := by norm_num
  rw [h] at ha hb ⊢
  exact Nat.xor_lt_two_pow ha hb

theorem encBody_lt (c : kasumi) (s7 s9 : List Nat) (n : Int) (l r : Nat) (st : Int × Nat × Nat)
    (h : encBody c s7 s9 n l r = some st) (hl : l < 4294967296) (hr : r < 4294967296) :
    st.2.1 < 4294967296 ∧ st.2.2 < 4294967296 := by
  obtain ⟨t1, t2, t3, t4, _, h2, _, h4, rfl⟩ := (encBody_eq_some ..).1 h
  exact ⟨xor_lt_32 _ _ hl (_FL_lt _ _ _ _ h4), xor_lt_32 _ _ hr (_FO_lt _ _ _ _ _ _ h2)⟩

theorem decBody_lt (c : kasumi) (s7 s9 : List Nat) (n : Int) (l r : Nat) (st : Int × Nat × Nat)
    (h : decBody c s7 s9 n l r = some st) (hl : l < 4294967296) (hr : r < 4294967296) :
    st.2.1 < 4294967296 ∧ st.2.2 < 4294967296 := by
  obtain ⟨t1, t2, t3, t4, _, h2, _, h4, rfl⟩ := (decBody_eq_some ..).1 h
  exact ⟨xor_lt_32 _ _ hl (_FL_lt _ _ _ _ h2), xor_lt_32 _ _ hr (_FO_lt _ _ _ _ _ _ h4)⟩

theorem encLoop_lt (c : kasumi) (s7 s9 : List Nat) :
    ∀ (f : Nat) (n : Int) (l r : Nat) (res : Nat × Nat × Nat),
      encLoop c s7 s9 f n l r = some res → l < 4294967296 → r < 4294967296 →
      res.1 < 4294967296 ∧ res.2.1 < 4294967296 := by
  intro f
  induction f with
  | zero =>
    intro n l r res h hl hr
    rw [encLoop_zero] at h
    split at h
    · cases h
    · cases h; exact ⟨hl, hr⟩
  | succ f ih =>
    intro n l r res h hl hr
    rw [encLoop_succ] at h
    split at h
    · simp only [Option.bind_eq_some, Option.some.injEq] at h
      obtain ⟨st, hst, res1, hres1, rfl⟩ := h
      obtain ⟨b1, b2⟩ := encBody_lt c s7 s9 n l r st hst hl hr
      exact ih _ _ _ res1 hres1 b1 b2
    · cases h; exact ⟨hl, hr⟩

theorem decLoop_lt (c : kasumi) (s7 s9 : List Nat) :
    ∀ (f : Nat) (n : Int) (l r : Nat) (res : Nat × Nat × Nat),
      decLoop c s7 s9 f n l r = some res → l < 4294967296 → r < 4294967296 →
      res.1 < 4294967296 ∧ res.2.1 < 4294967296 := by
  intro f
  induction f with
  | zero =>
    intro n l r res h hl hr
    rw [decLoop_zero] at h
    split at h
    · cases h
    · cases h; exact ⟨hl, hr⟩
  | succ f ih =>
    intro n l r res h hl hr
    rw [decLoop_succ] at h
    split at h
    · simp only [Option.bind_eq_some, Option.some.injEq] at h
      obtain ⟨st, hst, res1, hres1, rfl⟩ := h
      obtain ⟨b1, b2⟩ := decBody_lt c s7 s9 n l r st hst hl hr
      exact ih _ _ _ res1 hres1 b1 b2
    · cases h; exact ⟨hl, hr⟩

theorem encBody_total (c : kasumi) (s7 s9 : List Nat) (hc : c.WellSized)
    (ht : TablesInRange s7 s9) (j : Nat) (hj : j + 1 < 8) (l r : Nat) :
    ∃ l' r', encBody c s7 s9 (j : Int) l r = some ((j : Int) + 1 + 1, l', r') := by
  have u0 : uint32 (j : Int) = j := uint32_ofNat j (by omega)
  have u1 : uint32 ((j : Int) + 1) = j + 1 := by
    have := uint32_ofNat (j + 1) (by omega)
    simpa using this
  obtain ⟨t1, h1⟩ := _FL_total c hc l j (by omega)
  obtain ⟨t2, h2⟩ := _FO_total c s7 s9 hc ht t1 j (by omega)
  obtain ⟨t3, h3⟩ := _FO_total c s7 s9 hc ht (r ^^^ t2) (j + 1) hj
  obtain ⟨t4, h4⟩ := _FL_total c hc t3 (j + 1) hj
  exact ⟨l ^^^ t4, r ^^^ t2, (encBody_eq_some ..).2
    ⟨t1, t2, t3, t4, by rw [u0]; exact h1, by rw [u0]; exact h2, by rw [u1]; exact h3,
      by rw [u1]; exact h4, rfl⟩⟩

/-- Started at an even counter `2 * j ≤ 8`, with tables in range, the `Encrypt`
loop finishes after exactly `4 - j` iterations as soon as the bound allows it. -/
theorem encLoop_total (c : kasumi) (s7 s9 : List Nat) (hc : c.WellSized)
    (ht : TablesInRange s7 s9) :
    ∀ (f j : Nat) (l r : Nat), j ≤ 4 → 4 ≤ f + j →
      ∃ l' r', encLoop c s7 s9 f (2 * (j : Int)) l r = some (l', r', 4 - j) := by
  intro f
  induction f with
  | zero =>
    intro j l r hj hf
    have : j = 4 := by omega
    subst this
    exact ⟨l, r, by rw [encLoop_zero, if_neg (by norm_num)]⟩
  | succ f ih =>
    intro j l r hj hf
    rw [encLoop_succ]
    by_cases h4 : j = 4
    · subst h4
      exact ⟨l, r, by rw [if_neg (by norm_num)]⟩
    · have hj3 : j ≤ 3 := by omega
      rw [if_pos (by omega)]
      have e : (2 * (j : Int)) = ((2 * j : Nat) : Int) := by push_cast; ring
      obtain ⟨l1, r1, hb⟩ := encBody_total c s7 s9 hc ht (2 * j) (by omega) l r
      rw [e, hb]
      obtain ⟨l2, r2, hl⟩ := ih (j + 1) l1 r1 (by omega) (by omega)
      have e2 : ((2 * j : Nat) : Int) + 1 + 1 = 2 * ((j + 1 : Nat) : Int) := by push_cast; ring
      simp only [Option.some_bind, e2, hl]
      exact ⟨l2, r2, by congr 3; omega⟩


theorem decBody_total (c : kasumi) (s7 s9 : List Nat) (hc : c.WellSized)
    (ht : TablesInRange s7 s9) (j : Nat) (hj : j + 1 < 8) (l r : Nat) :
    ∃ l' r', decBody c s7 s9 ((j : Int) + 1) l r = some ((j : Int) + 1 - 1 - 1, l', r') := by
  have u1 : uint32 ((j : Int) + 1) = j + 1 := by
    have := uint32_ofNat (j + 1) (by omega)
    simpa using this
  have u0 : uint32 ((j : Int) + 1 - 1) = j := by
    have := uint32_ofNat j (by omega)
    simpa using this
  obtain ⟨t1, h1⟩ := _FO_total c s7 s9 hc ht r (j + 1) hj
  obtain ⟨t2, h2⟩ := _FL_total c hc t1 (j + 1) hj
  obtain ⟨t3, h3⟩ := _FL_total c hc (l ^^^ t2) j (by omega)
  obtain ⟨t4, h4⟩ := _FO_total c s7 s9 hc ht t3 j (by omega)
  exact ⟨l ^^^ t2, r ^^^ t4, (decBody_eq_some ..).2
    ⟨t1, t2, t3, t4, by rw [u1]; exact h1, by rw [u1]; exact h2, by rw [u0]; exact h3,
      by rw [u0]; exact h4, rfl⟩⟩

/-- Started at an odd counter `2 * j - 1 ≤ 7`, with tables in range, the
`Decrypt` loop finishes after exactly `j` iterations as soon as the bound
allows it. -/
theorem decLoop_total (c : kasumi) (s7 s9 : List Nat) (hc : c.WellSized)
    (ht : TablesInRange s7 s9) :
    ∀ (f j : Nat) (l r : Nat), j ≤ 4 → j ≤ f →
      ∃ l' r', decLoop c s7 s9 f (2 * (j : Int) - 1) l r = some (l', r', j) := by
  intro f
  induction f with
  | zero =>
    intro j l r hj hf
    have : j = 0 := by omega
    subst this
    exact ⟨l, r, by rw [decLoop_zero, if_neg (by norm_num)]⟩
  | succ f ih =>
    intro j l r hj hf
    rw [decLoop_succ]
    cases j with
    | zero => exact ⟨l, r, by rw [if_neg (by norm_num)]⟩
    | succ i =>
      rw [if_pos (by push_cast; omega)]
      have e : (2 * ((i + 1 : Nat) : Int) - 1) = ((2 * i : Nat) : Int) + 1 := by
        push_cast; ring
      obtain ⟨l1, r1, hb⟩ := decBody_total c s7 s9 hc ht (2 * i) (by omega) l r
      rw [e, hb]
      obtain ⟨l2, r2, hl⟩ := ih i l1 r1 (by omega) (by omega)
      have e2 : ((2 * i : Nat) : Int) + 1 - 1 - 1 = 2 * (i : Int) - 1 := by push_cast; ring
      simp only [Option.some_bind, e2, hl]
      exact ⟨l2, r2, rfl⟩

/-! ## The key schedule in closed form -/

theorem NewCipherWithRounds_eq (key : List Nat) (rounds : Int) (h : key.length = 16) :
    NewCipherWithRounds key rounds = some (Except.ok (scheduleOf key)) := by
  obtain ⟨a0, a1, a2, a3, a4, a5, a6, a7, a8, a9, a10, a11, a12, a13, a14, a15, rfl⟩ :=
    exists_sixteen key h
  rfl

theorem scheduleOf_wellSized (key : List Nat) : (scheduleOf key).WellSized := by
  simp [kasumi.WellSized, scheduleOf]

/-! ## Decrypt undoes Encrypt -/

/-- Started at an even counter `2 * j ≤ 8`, the `Encrypt` loop can only finish
after exactly `4 - j` iterations. -/
theorem encLoop_count (c : kasumi) (s7 s9 : List Nat) :
    ∀ (f j : Nat) (l r : Nat) (res : Nat × Nat × Nat), j ≤ 4 →
      encLoop c s7 s9 f (2 * (j : Int)) l r = some res → res.2.2 = 4 - j := by
  intro f
  induction f with
  | zero =>
    intro j l r res hj h
    rw [encLoop_zero] at h
    split at h
    · cases h
    · cases h
      show 0 = 4 - j
      omega
  | succ f ih =>
    intro j l r res hj h
    rw [encLoop_succ] at h
    split at h
    · rename_i hle
      simp only [Option.bind_eq_some, Option.some.injEq] at h
      obtain ⟨st, hst, res1, hres1, rfl⟩ := h
      obtain ⟨e1, _⟩ := decBody_encBody c s7 s9 _ l r st hst
      have e2 : st.1 = 2 * ((j + 1 : Nat) : Int) := by rw [e1]; push_cast; ring
      rw [e2] at hres1
      have := ih (j + 1) _ _ res1 (by omega) hres1
      show res1.2.2 + 1 = 4 - j
      omega
    · cases h
      show 0 = 4 - j
      omega

theorem decLoop_neg (c : kasumi) (s7 s9 : List Nat) (f : Nat) (n : Int) (hn : n < 0)
    (l r : Nat) : decLoop c s7 s9 f n l r = some (l, r, 0) := by
  cases f with
  | zero => rw [decLoop_zero, if_neg (by omega)]
  | succ f => rw [decLoop_succ, if_neg (by omega)]

theorem take_eq_self_of_length (b : List Nat) (n : Nat) (h : b.length = n) : b.take n = b := by
  subst h; exact List.take_length b

/-- For any cipher value and any tables: whenever `Encrypt` returns on an
8-byte block, `Decrypt` returns on its output and gives the block back. -/
theorem Decrypt_Encrypt (c : kasumi) (s7 s9 dst1 dst2 b d1 : List Nat)
    (hb : b.length = 8) (hbytes : IsBytes b) (h1 : dst1.length = 8) (h2 : dst2.length = 8)
    (he : c.Encrypt s7 s9 dst1 b = some d1) : c.Decrypt s7 s9 dst2 d1 = some b := by
  have hb8 : IsBytes (b.take 8) := by rw [take_eq_self_of_length b 8 hb]; exact hbytes
  rw [Encrypt_eq c s7 s9 dst1 b (by omega) (by omega) hb8] at he
  simp only [Option.map_eq_some'] at he
  obtain ⟨⟨l', r', k⟩, hloop, rfl⟩ := he
  have hd1 : dst1.drop 8 = [] := by
    apply List.eq_nil_of_length_eq_zero; simp [h1]
  have hd2 : dst2.drop 8 = [] := by
    apply List.eq_nil_of_length_eq_zero; simp [h2]
  obtain ⟨b0, b1, b2, b3, b4, b5, b6, b7, t, rfl⟩ := exists_eight_cons b (by omega)
  have ht : t = [] := by
    apply List.eq_nil_of_length_eq_zero
    simp only [List.length_cons] at hb
    omega
  subst ht
  have hL : word32 [b0, b1, b2, b3, b4, b5, b6, b7] < 4294967296 :=
    word32_lt _ (fun x hx => hbytes x (List.mem_of_mem_take hx)) (by simp)
  have hR : word32 (List.drop 4 [b0, b1, b2, b3, b4, b5, b6, b7]) < 4294967296 :=
    word32_lt _ (fun x hx => hbytes x (List.mem_of_mem_drop (List.mem_of_mem_take hx)))
      (by simp)
  obtain ⟨bl, br⟩ := encLoop_lt c s7 s9 _ _ _ _ _ hloop hL hR
  have hk : k = 4 := by
    have := encLoop_count c s7 s9 loopBound 0 _ _ _ (by omega) hloop
    simpa using this
  subst hk
  have hdec := decLoop_encLoop c s7 s9 loopBound 0 _ _ l' r' 4 (by norm_num) hloop 4 _
    (decLoop_neg c s7 s9 4 (0 - 1) (by norm_num) _ _)
  have e7 : (0 : Int) + 2 * ((4 : Nat) : Int) - 1 = 7 := by norm_num
  rw [e7] at hdec
  have hlen : (bytes32 l' ++ bytes32 r' ++ List.drop 8 dst1).length = 8 := by
    simp [bytes32, hd1]
  have hby : IsBytes ((bytes32 l' ++ bytes32 r' ++ List.drop 8 dst1).take 8) := by
    intro x hx
    have hx := List.mem_of_mem_take hx
    rw [hd1, List.append_nil, List.mem_append] at hx
    rcases hx with hx | hx
    · exact isBytes_bytes32 _ x hx
    · exact isBytes_bytes32 _ x hx
  rw [Decrypt_eq c s7 s9 dst2 _ (by omega) (by omega) hby]
  have w1 : word32 (bytes32 l' ++ bytes32 r' ++ List.drop 8 dst1) = l' := by
    rw [List.append_assoc]; exact word32_bytes32 l' _ bl
  have w2 : word32 (List.drop 4 (bytes32 l' ++ bytes32 r' ++ List.drop 8 dst1)) = r' := by
    have : List.drop 4 (bytes32 l' ++ bytes32 r' ++ List.drop 8 dst1)
        = bytes32 r' ++ List.drop 8 dst1 := by
      simp [bytes32]
    rw [this]; exact word32_bytes32 r' _ br
  have hfuel : loopBound = 4 + 4 := rfl
  rw [w1, w2, hfuel, hdec]
  have q1 := bytes32_word32 b0 b1 b2 b3 [b4, b5, b6, b7] (hbytes _ (by simp))
    (hbytes _ (by simp)) (hbytes _ (by simp)) (hbytes _ (by simp))
  have q2 := bytes32_word32 b4 b5 b6 b7 [] (hbytes _ (by simp))
    (hbytes _ (by simp)) (hbytes _ (by simp)) (hbytes _ (by simp))
  have e4 : List.drop 4 [b0, b1, b2, b3, b4, b5, b6, b7] = [b4, b5, b6, b7] := rfl
  simp only [Option.map_some', e4, q1, q2, hd2]
  rfl

/-- With tables in range and round-key arrays of eight entries, `Encrypt`
returns on every 8-byte block. -/
theorem Encrypt_total (c : kasumi) (s7 s9 dst src : List Nat) (hc : c.WellSized)
    (ht : TablesInRange s7 s9) (hd : 8 ≤ dst.length) (hs : 8 ≤ src.length)
    (hb : IsBytes (src.take 8)) : ∃ d, c.Encrypt s7 s9 dst src = some d := by
  rw [Encrypt_eq c s7 s9 dst src hd hs hb]
  obtain ⟨l', r', h⟩ := encLoop_total c s7 s9 hc ht loopBound 0 (word32 src)
    (word32 (src.drop 4)) (by omega) (by simp [loopBound])
  have e : (2 : Int) * ((0 : Nat) : Int) = 0 := by norm_num
  rw [e] at h
  rw [h]
  exact ⟨_, rfl⟩

/-- With tables in range and round-key arrays of eight entries, `Decrypt`
returns on every 8-byte block. -/
theorem Decrypt_total (c : kasumi) (s7 s9 dst src : List Nat) (hc : c.WellSized)
    (ht : TablesInRange s7 s9) (hd : 8 ≤ dst.length) (hs : 8 ≤ src.length)
    (hb : IsBytes (src.take 8)) : ∃ d, c.Decrypt s7 s9 dst src = some d := by
  rw [Decrypt_eq c s7 s9 dst src hd hs hb]
  obtain ⟨l', r', h⟩ := decLoop_total c s7 s9 hc ht loopBound 4 (word32 src)
    (word32 (src.drop 4)) (by omega) (by simp [loopBound])
  have e : (2 : Int) * ((4 : Nat) : Int) - 1 = 7 := by norm_num
  rw [e] at h
  rw [h]
  exact ⟨_, rfl⟩

/-! ## Claims C1 to C3 -/

/-- **C1** (round trip).  For every 16-byte key, every 8-byte block `b` and all
8-byte buffers `dst1`, `dst2`, `NewCipher key` returns a cipher `c` such that,
whatever the contents of the tables `s7` and `s9`, whenever `c.Encrypt dst1 b`
returns, `c.Decrypt dst2` of its output returns `b`; and when the tables have
128 and 512 entries below 128 and 512 (so that no look-up leaves a table)
both calls do return, and the second yields `b`. -/
theorem Decrypt_Encrypt_roundtrip (s7 s9 key b dst1 dst2 : List Nat)
    (hkey : key.length = 16) (hb : b.length = 8) (hbytes : IsBytes b)
    (h1 : dst1.length = 8) (h2 : dst2.length = 8) :
    ∃ c, NewCipher key = some (Except.ok c) ∧
      (∀ d1, c.Encrypt s7 s9 dst1 b = some d1 → c.Decrypt s7 s9 dst2 d1 = some b) ∧
      (TablesInRange s7 s9 →
        ∃ d1, c.Encrypt s7 s9 dst1 b = some d1 ∧ c.Decrypt s7 s9 dst2 d1 = some b) := by
  refine ⟨scheduleOf key, NewCipherWithRounds_eq key 8 hkey, ?_, ?_⟩
  · intro d1 he
    exact Decrypt_Encrypt _ s7 s9 dst1 dst2 b d1 hb hbytes h1 h2 he
  · intro ht
    have hb8 : IsBytes (b.take 8) := fun x hx => hbytes x (List.mem_of_mem_take hx)
    obtain ⟨d1, he⟩ := Encrypt_total (scheduleOf key) s7 s9 dst1 b (scheduleOf_wellSized key)
      ht (by omega) (by omega) hb8
    exact ⟨d1, he, Decrypt_Encrypt _ s7 s9 dst1 dst2 b d1 hb hbytes h1 h2 he⟩

set_option maxRecDepth 100000 in
/-- The round trip of **C1** at the key `20 00 … 00`, the block `01 02 … 08`
and the tables `S7`, `S9`. -/
theorem Decrypt_Encrypt_roundtrip_witness :
    ∃ c, NewCipher [0x20, 0, 0, 0, 0, 0, 0, 0, 0, 0, 0, 0, 0, 0, 0, 0] = some (Except.ok c) ∧
      (∀ d1, c.Encrypt S7 S9 [0, 0, 0, 0, 0, 0, 0, 0] [1, 2, 3, 4, 5, 6, 7, 8] = some d1 →
        c.Decrypt S7 S9 [0, 0, 0, 0, 0, 0, 0, 0] d1 = some [1, 2, 3, 4, 5, 6, 7, 8]) ∧
      (TablesInRange S7 S9 →
        ∃ d1, c.Encrypt S7 S9 [0, 0, 0, 0, 0, 0, 0, 0] [1, 2, 3, 4, 5, 6, 7, 8] = some d1 ∧
          c.Decrypt S7 S9 [0, 0, 0, 0, 0, 0, 0, 0] d1 = some [1, 2, 3, 4, 5, 6, 7, 8]) :=
  Decrypt_Encrypt_roundtrip S7 S9 [0x20, 0, 0, 0, 0, 0, 0, 0, 0, 0, 0, 0, 0, 0, 0, 0]
    [1, 2, 3, 4, 5, 6, 7, 8] [0, 0, 0, 0, 0, 0, 0, 0] [0, 0, 0, 0, 0, 0, 0, 0]
    (by decide) (by decide) (by decide) (by decide) (by decide)

/-- On 8-byte buffers the `dst` left by `Encrypt` does not depend on what
`dst` held before the call. -/
theorem Encrypt_dst_irrelevant (c : kasumi) (s7 s9 dst dst' src : List Nat)
    (hd : dst.length = 8) (hd' : dst'.length = 8) (hs : 8 ≤ src.length)
    (hb : IsBytes (src.take 8)) : c.Encrypt s7 s9 dst src = c.Encrypt s7 s9 dst' src := by
  have e : dst.drop 8 = [] := by
    apply List.eq_nil_of_length_eq_zero; simp [hd]
  have e' : dst'.drop 8 = [] := by
    apply List.eq_nil_of_length_eq_zero; simp [hd']
  rw [Encrypt_eq c s7 s9 dst src (by omega) hs hb, Encrypt_eq c s7 s9 dst' src (by omega) hs hb,
    e, e']

/-- On 8-byte buffers the `dst` left by `Decrypt` does not depend on what
`dst` held before the call. -/
theorem Decrypt_dst_irrelevant (c : kasumi) (s7 s9 dst dst' src : List Nat)
    (hd : dst.length = 8) (hd' : dst'.length = 8) (hs : 8 ≤ src.length)
    (hb : IsBytes (src.take 8)) : c.Decrypt s7 s9 dst src = c.Decrypt s7 s9 dst' src := by
  have e : dst.drop 8 = [] := by
    apply List.eq_nil_of_length_eq_zero; simp [hd]
  have e' : dst'.drop 8 = [] := by
    apply List.eq_nil_of_length_eq_zero; simp [hd']
  rw [Decrypt_eq c s7 s9 dst src (by omega) hs hb, Decrypt_eq c s7 s9 dst' src (by omega) hs hb,
    e, e']

set_option maxRecDepth 100000 in
/-- **C2** (known-answer vectors).  With the tables `S7`, `S9` and whatever an
8-byte `dst` holds before the call, the all-zero block encrypts to
`58C6762606AB2889` under the key `2000…00`, to `2FAE2B25507C89C3` under
`1000…00` and to `15D22DA80D43CFEF` under `0800…00`, and each ciphertext
decrypts to the all-zero block under its key: both methods overwrite all of
`dst` with the expected bytes. -/
theorem known_answer_vectors :
    (∃ c, NewCipher [0x20, 0, 0, 0, 0, 0, 0, 0, 0, 0, 0, 0, 0, 0, 0, 0] = some (Except.ok c) ∧
      ∀ dst : List Nat, dst.length = 8 →
        c.Encrypt S7 S9 dst [0, 0, 0, 0, 0, 0, 0, 0]
          = some [0x58, 0xC6, 0x76, 0x26, 0x06, 0xAB, 0x28, 0x89] ∧
        c.Decrypt S7 S9 dst [0x58, 0xC6, 0x76, 0x26, 0x06, 0xAB, 0x28, 0x89]
          = some [0, 0, 0, 0, 0, 0, 0, 0]) ∧
    (∃ c, NewCipher [0x10, 0, 0, 0, 0, 0, 0, 0, 0, 0, 0, 0, 0, 0, 0, 0] = some (Except.ok c) ∧
      ∀ dst : List Nat, dst.length = 8 →
        c.Encrypt S7 S9 dst [0, 0, 0, 0, 0, 0, 0, 0]
          = some [0x2F, 0xAE, 0x2B, 0x25, 0x50, 0x7C, 0x89, 0xC3] ∧
        c.Decrypt S7 S9 dst [0x2F, 0xAE, 0x2B, 0x25, 0x50, 0x7C, 0x89, 0xC3]
          = some [0, 0, 0, 0, 0, 0, 0, 0]) ∧
    (∃ c, NewCipher [0x08, 0, 0, 0, 0, 0, 0, 0, 0, 0, 0, 0, 0, 0, 0, 0] = some (Except.ok c) ∧
      ∀ dst : List Nat, dst.length = 8 →
        c.Encrypt S7 S9 dst [0, 0, 0, 0, 0, 0, 0, 0]
          = some [0x15, 0xD2, 0x2D, 0xA8, 0x0D, 0x43, 0xCF, 0xEF] ∧
        c.Decrypt S7 S9 dst [0x15, 0xD2, 0x2D, 0xA8, 0x0D, 0x43, 0xCF, 0xEF]
          = some [0, 0, 0, 0, 0, 0, 0, 0]) := by
  refine ⟨⟨scheduleOf [0x20, 0, 0, 0, 0, 0, 0, 0, 0, 0, 0, 0, 0, 0, 0, 0],
      NewCipherWithRounds_eq _ 8 (by decide), fun dst hd => ⟨?_, ?_⟩⟩,
    ⟨scheduleOf [0x10, 0, 0, 0, 0, 0, 0, 0, 0, 0, 0, 0, 0, 0, 0, 0],
      NewCipherWithRounds_eq _ 8 (by decide), fun dst hd => ⟨?_, ?_⟩⟩,
    ⟨scheduleOf [0x08, 0, 0, 0, 0, 0, 0, 0, 0, 0, 0, 0, 0, 0, 0, 0],
      NewCipherWithRounds_eq _ 8 (by decide), fun dst hd => ⟨?_, ?_⟩⟩⟩
  · rw [Encrypt_dst_irrelevant _ S7 S9 dst [0xA5, 0xA5, 0xA5, 0xA5, 0xA5, 0xA5, 0xA5, 0xA5] _
      hd (by decide) (by decide) (by decide)]
    decide
  · rw [Decrypt_dst_irrelevant _ S7 S9 dst [0xA5, 0xA5, 0xA5, 0xA5, 0xA5, 0xA5, 0xA5, 0xA5] _
      hd (by decide) (by decide) (by decide)]
    decide
  · rw [Encrypt_dst_irrelevant _ S7 S9 dst [0xA5, 0xA5, 0xA5, 0xA5, 0xA5, 0xA5, 0xA5, 0xA5] _
      hd (by decide) (by decide) (by decide)]
    decide
  · rw [Decrypt_dst_irrelevant _ S7 S9 dst [0xA5, 0xA5, 0xA5, 0xA5, 0xA5, 0xA5, 0xA5, 0xA5] _
      hd (by decide) (by decide) (by decide)]
    decide
  · rw [Encrypt_dst_irrelevant _ S7 S9 dst [0xA5, 0xA5, 0xA5, 0xA5, 0xA5, 0xA5, 0xA5, 0xA5] _
      hd (by decide) (by decide) (by decide)]
    decide
  · rw [Decrypt_dst_irrelevant _ S7 S9 dst [0xA5, 0xA5, 0xA5, 0xA5, 0xA5, 0xA5, 0xA5, 0xA5] _
      hd (by decide) (by decide) (by decide)]
    decide

/-- The vectors of **C2** for a `dst` that holds `01 02 … 08` before the call,
under the key `2000…00`. -/
theorem known_answer_vectors_witness :
    ∃ c, NewCipher [0x20, 0, 0, 0, 0, 0, 0, 0, 0, 0, 0, 0, 0, 0, 0, 0] = some (Except.ok c) ∧
      c.Encrypt S7 S9 [1, 2, 3, 4, 5, 6, 7, 8] [0, 0, 0, 0, 0, 0, 0, 0]
        = some [0x58, 0xC6, 0x76, 0x26, 0x06, 0xAB, 0x28, 0x89] ∧
      c.Decrypt S7 S9 [1, 2, 3, 4, 5, 6, 7, 8] [0x58, 0xC6, 0x76, 0x26, 0x06, 0xAB, 0x28, 0x89]
        = some [0, 0, 0, 0, 0, 0, 0, 0] := by
  obtain ⟨c, hc, h⟩ := known_answer_vectors.1
  exact ⟨c, hc, h [1, 2, 3, 4, 5, 6, 7, 8] (by decide)⟩

/-- **C3** (key-size check).  `NewCipher key` fails exactly when
`len(key) != 16`; the failure is the pair of a nil cipher and
`KeySizeError(len(key))`; a key of length 16 gives a cipher and a nil error. -/
theorem NewCipher_keySize (key : List Nat) :
    ((∃ e, NewCipher key = some (Except.error e)) ↔ key.length ≠ 16) ∧
    (key.length ≠ 16 → NewCipher key = some (Except.error (KeySizeError.mk key.length))) ∧
    (key.length = 16 → ∃ c, NewCipher key = some (Except.ok c)) := by
  have herr : key.length ≠ 16 →
      NewCipher key = some (Except.error (KeySizeError.mk key.length)) := by
    intro h
    unfold NewCipher NewCipherWithRounds
    simp only [KeySize]
    rw [if_pos h]
  have hok : key.length = 16 → ∃ c, NewCipher key = some (Except.ok c) :=
    fun h => ⟨scheduleOf key, NewCipherWithRounds_eq key 8 h⟩
  refine ⟨⟨?_, fun h => ⟨_, herr h⟩⟩, herr, hok⟩
  rintro ⟨e, he⟩ h16
  obtain ⟨c, hc⟩ := hok h16
  rw [hc] at he
  cases he

/-- The key-size check of **C3** at the lengths 0, 15 and 17. -/
theorem NewCipher_keySize_witness :
    NewCipher [] = some (Except.error (KeySizeError.mk 0)) ∧
    NewCipher (List.replicate 15 0) = some (Except.error (KeySizeError.mk 15)) ∧
    NewCipher (List.replicate 17 0) = some (Except.error (KeySizeError.mk 17)) :=
  ⟨(NewCipher_keySize []).2.1 (by decide),
   (NewCipher_keySize (List.replicate 15 0)).2.1 (by decide),
   (NewCipher_keySize (List.replicate 17 0)).2.1 (by decide)⟩

/-! ## The rotation -/

theorem rotl16_lt (x c : Nat) (hx : x < 65536) (hc : c ≤ 16) : rotl16 x c < 65536 := by
  unfold rotl16
  have h1 : x % 2 ^ (16 - c) < 2 ^ (16 - c) := Nat.mod_lt _ (by positivity)
  have hp : 2 ^ (16 - c) * 2 ^ c = 65536 := by
    rw [← Nat.pow_add, Nat.sub_add_cancel hc]
  have h2 : x / 2 ^ (16 - c) < 2 ^ c := by
    rw [Nat.div_lt_iff_lt_mul (by positivity), Nat.mul_comm, hp]; exact hx
  calc x % 2 ^ (16 - c) * 2 ^ c + x / 2 ^ (16 - c)
      < x % 2 ^ (16 - c) * 2 ^ c + 2 ^ c := by omega
    _ = (x % 2 ^ (16 - c) + 1) * 2 ^ c := by ring
    _ ≤ 2 ^ (16 - c) * 2 ^ c := Nat.mul_le_mul_right _ h1
    _ = 65536 := hp

/-- Bit `i` of `rotl16 x c` is bit `i - c` (modulo 16) of `x`: `rotl16` is the
rotation of the sixteen bits of `x`. -/
theorem rotl16_testBit (x c i : Nat) (hx : x < 65536) (hc : c ≤ 16) (hi : i < 16) :
    (rotl16 x c).testBit i = x.testBit ((i + 16 - c) % 16) := by
  unfold rotl16
  have hp : 2 ^ (16 - c) * 2 ^ c = 65536 := by
    rw [← Nat.pow_add, Nat.sub_add_cancel hc]
  have h2 : x / 2 ^ (16 - c) < 2 ^ c := by
    rw [Nat.div_lt_iff_lt_mul (by positivity), Nat.mul_comm, hp]; exact hx
  rw [Nat.mul_comm, Nat.testBit_mul_pow_two_add _ h2]
  by_cases h : i < c
  · rw [if_pos h, ← Nat.shiftRight_eq_div_pow, Nat.testBit_shiftRight]
    congr 1; omega
  · rw [if_neg h, Nat.testBit_mod_two_pow]
    have e : (i + 16 - c) % 16 = i - c := by omega
    rw [e]
    by_cases hc0 : c = 0
    · subst hc0
      have : x.testBit i = false ∨ True := Or.inr trivial
      simp
      intro hh
      omega
    · have : i - c < 16 - c := by omega
      simp [this]

/-- For a 16-bit value and a count of at most 16, `_ROL16` is the rotation. -/
theorem _ROL16_eq_rotl16 (x c : Nat) (hx : x < 65536) (hc : c ≤ 16) :
    _ROL16 x c = rotl16 x c := by
  unfold _ROL16 rotl16
  have hp : 2 ^ (16 - c) * 2 ^ c = 65536 := by
    rw [← Nat.pow_add, Nat.sub_add_cancel hc]
  have h2 : x / 2 ^ (16 - c) < 2 ^ c := by
    rw [Nat.div_lt_iff_lt_mul (by positivity), Nat.mul_comm, hp]; exact hx
  have e1 : (16 + 256 - c) % 256 = 16 - c := by omega
  have e2 : (x <<< c) % 65536 = 2 ^ c * (x % 2 ^ (16 - c)) := by
    rw [Nat.shiftLeft_eq, ← hp, Nat.mul_mod_mul_right, Nat.mul_comm]
  rw [e1, e2, Nat.shiftRight_eq_div_pow, ← Nat.mul_add_lt_is_or h2, Nat.mul_comm]

/-! ## Claim C4: the key schedule -/

theorem getD_lt_of_isBytes (key : List Nat) (h : IsBytes key) (i : Nat) :
    key.getD i 0 < 256 := by
  rw [List.getD_eq_getElem?_getD]
  cases hv : key[i]? with
  | none => simp
  | some v => exact h v (List.getElem?_mem hv)

theorem spec_ukey_lt (key : List Nat) (h : IsBytes key) (i : Nat) : spec_ukey key i < 65536 := by
  have h0 := getD_lt_of_isBytes key h (2 * i)
  have h1 := getD_lt_of_isBytes key h (2 * i + 1)
  unfold spec_ukey
  omega

theorem ukeyOf_eq_spec (key : List Nat) (h : IsBytes key) (i : Nat) :
    ukeyOf key i = spec_ukey key i := by
  have h0 := getD_lt_of_isBytes key h (2 * i)
  have h1 := getD_lt_of_isBytes key h (2 * i + 1)
  unfold ukeyOf spec_ukey
  rewrite [shiftLeft_mod_of_lt _ 8 256 65536 (by norm_num) (by omega),
    or_shiftLeft_eq_add _ _ 8 256 (by norm_num) h1]
  omega

theorem kprimeOf_eq_spec (key : List Nat) (h : IsBytes key) (i : Nat) :
    kprimeOf key i = spec_kprime key i := by
  unfold kprimeOf spec_kprime
  rw [ukeyOf_eq_spec key h i]
  rfl

theorem getElem?_map_range (f : Nat → Nat) (n : Nat) (hn : n < 8) :
    ((List.range 8).map f)[n]? = some (f n) := by
  rw [List.getElem?_map, List.getElem?_range hn]
  rfl

/-- **C4** (key schedule).  For every 16-byte key, the cipher built by
`NewCipher` holds, for every round `n` in `0..7`, `kli1[n] = rotl16(ukey[n],1)`,
`kli2[n] = kprime[(n+2)%8]`, `koi1[n] = rotl16(ukey[(n+1)%8],5)`,
`koi2[n] = rotl16(ukey[(n+5)%8],8)`, `koi3[n] = rotl16(ukey[(n+6)%8],13)`,
`kii1[n] = kprime[(n+4)%8]`, `kii2[n] = kprime[(n+3)%8]` and
`kii3[n] = kprime[(n+7)%8]`, with `ukey`, `kprime` the words of the spec and
`rotl16` the rotation of sixteen bits. -/
theorem NewCipher_schedule (key : List Nat) (hkey : key.length = 16) (hbytes : IsBytes key) :
    ∃ c, NewCipher key = some (Except.ok c) ∧ ∀ n, n < 8 →
      c.kli1[n]? = some (rotl16 (spec_ukey key n) 1) ∧
      c.kli2[n]? = some (spec_kprime key ((n + 2) % 8)) ∧
      c.koi1[n]? = some (rotl16 (spec_ukey key ((n + 1) % 8)) 5) ∧
      c.koi2[n]? = some (rotl16 (spec_ukey key ((n + 5) % 8)) 8) ∧
      c.koi3[n]? = some (rotl16 (spec_ukey key ((n + 6) % 8)) 13) ∧
      c.kii1[n]? = some (spec_kprime key ((n + 4) % 8)) ∧
      c.kii2[n]? = some (spec_kprime key ((n + 3) % 8)) ∧
      c.kii3[n]? = some (spec_kprime key ((n + 7) % 8)) := by
  refine ⟨scheduleOf key, NewCipherWithRounds_eq key 8 hkey, ?_⟩
  intro n hn
  have rot : ∀ i c, c ≤ 16 → _ROL16 (ukeyOf key i) c = rotl16 (spec_ukey key i) c := by
    intro i c hc
    rw [ukeyOf_eq_spec key hbytes i]
    exact _ROL16_eq_rotl16 _ c (spec_ukey_lt key hbytes i) hc
  have kp := kprimeOf_eq_spec key hbytes
  simp only [scheduleOf]
  refine ⟨?_, ?_, ?_, ?_, ?_, ?_, ?_, ?_⟩
  · rw [getElem?_map_range _ n hn, rot _ 1 (by norm_num)]
  · rw [getElem?_map_range _ n hn, kp]
  · rw [getElem?_map_range _ n hn, rot _ 5 (by norm_num)]
  · rw [getElem?_map_range _ n hn, rot _ 8 (by norm_num)]
  · rw [getElem?_map_range _ n hn, rot _ 13 (by norm_num)]
  · rw [getElem?_map_range _ n hn, kp]
  · rw [getElem?_map_range _ n hn, kp]
  · rw [getElem?_map_range _ n hn, kp]

/-- The schedule of **C4** at the key `01 23 45 67 89 AB CD EF FE DC BA 98 76 54 32 10`. -/
theorem NewCipher_schedule_witness :
    ∃ c, NewCipher [0x01, 0x23, 0x45, 0x67, 0x89, 0xAB, 0xCD, 0xEF,
        0xFE, 0xDC, 0xBA, 0x98, 0x76, 0x54, 0x32, 0x10] = some (Except.ok c) ∧ ∀ n, n < 8 →
      c.kli1[n]? = some (rotl16 (spec_ukey [0x01, 0x23, 0x45, 0x67, 0x89, 0xAB, 0xCD, 0xEF,
        0xFE, 0xDC, 0xBA, 0x98, 0x76, 0x54, 0x32, 0x10] n) 1) ∧
      c.kli2[n]? = some (spec_kprime [0x01, 0x23, 0x45, 0x67, 0x89, 0xAB, 0xCD, 0xEF,
        0xFE, 0xDC, 0xBA, 0x98, 0x76, 0x54, 0x32, 0x10] ((n + 2) % 8)) ∧
      c.koi1[n]? = some (rotl16 (spec_ukey [0x01, 0x23, 0x45, 0x67, 0x89, 0xAB, 0xCD, 0xEF,
        0xFE, 0xDC, 0xBA, 0x98, 0x76, 0x54, 0x32, 0x10] ((n + 1) % 8)) 5) ∧
      c.koi2[n]? = some (rotl16 (spec_ukey [0x01, 0x23, 0x45, 0x67, 0x89, 0xAB, 0xCD, 0xEF,
        0xFE, 0xDC, 0xBA, 0x98, 0x76, 0x54, 0x32, 0x10] ((n + 5) % 8)) 8) ∧
      c.koi3[n]? = some (rotl16 (spec_ukey [0x01, 0x23, 0x45, 0x67, 0x89, 0xAB, 0xCD, 0xEF,
        0xFE, 0xDC, 0xBA, 0x98, 0x76, 0x54, 0x32, 0x10] ((n + 6) % 8)) 13) ∧
      c.kii1[n]? = some (spec_kprime [0x01, 0x23, 0x45, 0x67, 0x89, 0xAB, 0xCD, 0xEF,
        0xFE, 0xDC, 0xBA, 0x98, 0x76, 0x54, 0x32, 0x10] ((n + 4) % 8)) ∧
      c.kii2[n]? = some (spec_kprime [0x01, 0x23, 0x45, 0x67, 0x89, 0xAB, 0xCD, 0xEF,
        0xFE, 0xDC, 0xBA, 0x98, 0x76, 0x54, 0x32, 0x10] ((n + 3) % 8)) ∧
      c.kii3[n]? = some (spec_kprime [0x01, 0x23, 0x45, 0x67, 0x89, 0xAB, 0xCD, 0xEF,
        0xFE, 0xDC, 0xBA, 0x98, 0x76, 0x54, 0x32, 0x10] ((n + 7) % 8)) :=
  NewCipher_schedule [0x01, 0x23, 0x45, 0x67, 0x89, 0xAB, 0xCD, 0xEF,
    0xFE, 0xDC, 0xBA, 0x98, 0x76, 0x54, 0x32, 0x10] (by decide) (by decide)

/-- The schedule of the key `01 23 … 32 10`, whose words equal the constants
`S`: every `kprime` word is zero and the `kli1`, `koi1` words are rotations of
the key words. -/
theorem scheduleOf_example :
    (scheduleOf [0x01, 0x23, 0x45, 0x67, 0x89, 0xAB, 0xCD, 0xEF,
        0xFE, 0xDC, 0xBA, 0x98, 0x76, 0x54, 0x32, 0x10]).kli1
      = [0x0246, 0x8ACE, 0x1357, 0x9BDF, 0xFDB9, 0x7531, 0xECA8, 0x6420] ∧
    (scheduleOf [0x01, 0x23, 0x45, 0x67, 0x89, 0xAB, 0xCD, 0xEF,
        0xFE, 0xDC, 0xBA, 0x98, 0x76, 0x54, 0x32, 0x10]).koi1
      = [0xACE8, 0x3571, 0xBDF9, 0xDB9F, 0x5317, 0xCA8E, 0x4206, 0x2460] ∧
    (scheduleOf [0x01, 0x23, 0x45, 0x67, 0x89, 0xAB, 0xCD, 0xEF,
        0xFE, 0xDC, 0xBA, 0x98, 0x76, 0x54, 0x32, 0x10]).kii1
      = [0, 0, 0, 0, 0, 0, 0, 0] := by
  decide

/-! ## Claims C5 and C6: lengths and the rounds argument -/

theorem Encrypt_short (c : kasumi) (s7 s9 dst src : List Nat)
    (h : dst.length < 8 ∨ src.length < 8) : c.Encrypt s7 s9 dst src = some dst := by
  unfold kasumi.Encrypt
  rw [if_pos (by simpa [BlockSize] using h)]

theorem Decrypt_short (c : kasumi) (s7 s9 dst src : List Nat)
    (h : dst.length < 8 ∨ src.length < 8) : c.Decrypt s7 s9 dst src = some dst := by
  unfold kasumi.Decrypt
  rw [if_pos (by simpa [BlockSize] using h)]

theorem Encrypt_length (c : kasumi) (s7 s9 dst src d : List Nat) (hd : 8 ≤ dst.length)
    (hs : 8 ≤ src.length) (hb : IsBytes (src.take 8)) (h : c.Encrypt s7 s9 dst src = some d) :
    d.length = dst.length := by
  rw [Encrypt_eq c s7 s9 dst src hd hs hb] at h
  simp only [Option.map_eq_some'] at h
  obtain ⟨res, _, rfl⟩ := h
  simp [bytes32]
  omega

theorem Decrypt_length (c : kasumi) (s7 s9 dst src d : List Nat) (hd : 8 ≤ dst.length)
    (hs : 8 ≤ src.length) (hb : IsBytes (src.take 8)) (h : c.Decrypt s7 s9 dst src = some d) :
    d.length = dst.length := by
  rw [Decrypt_eq c s7 s9 dst src hd hs hb] at h
  simp only [Option.map_eq_some'] at h
  obtain ⟨res, _, rfl⟩ := h
  simp [bytes32]
  omega

set_option maxRecDepth 100000 in
/-- Counterexample to **C5**.  Under the key `20 00 … 00`, `Encrypt` and
`Decrypt` called with a 7-byte `dst` return normally and leave `dst` as it was
(no failure, the write is skipped); called with 9-byte buffers they return
normally too, with the first eight bytes of `dst` overwritten. -/
theorem Encrypt_bad_length_no_failure :
    ∃ c, NewCipher [0x20, 0, 0, 0, 0, 0, 0, 0, 0, 0, 0, 0, 0, 0, 0, 0] = some (Except.ok c) ∧
      c.Encrypt S7 S9 [9, 9, 9, 9, 9, 9, 9] [0, 0, 0, 0, 0, 0, 0, 0]
        = some [9, 9, 9, 9, 9, 9, 9] ∧
      c.Decrypt S7 S9 [9, 9, 9, 9, 9, 9, 9] [0, 0, 0, 0, 0, 0, 0, 0]
        = some [9, 9, 9, 9, 9, 9, 9] ∧
      c.Encrypt S7 S9 [] [] = some [] ∧
      c.Encrypt S7 S9 [9, 9, 9, 9, 9, 9, 9, 9, 9] [0, 0, 0, 0, 0, 0, 0, 0, 0]
        = some [0x58, 0xC6, 0x76, 0x26, 0x06, 0xAB, 0x28, 0x89, 9] ∧
      c.Decrypt S7 S9 [9, 9, 9, 9, 9, 9, 9, 9, 9]
          [0x58, 0xC6, 0x76, 0x26, 0x06, 0xAB, 0x28, 0x89, 0]
        = some [0, 0, 0, 0, 0, 0, 0, 0, 9] :=
  ⟨scheduleOf [0x20, 0, 0, 0, 0, 0, 0, 0, 0, 0, 0, 0, 0, 0, 0, 0],
    NewCipherWithRounds_eq _ 8 (by decide), by decide, by decide, by decide, by decide,
    by decide⟩

/-- **C5**, amended.  `Encrypt` and `Decrypt` never signal a block-length
failure.  For the cipher of any 16-byte key: when `dst` or `src` is shorter
than 8 bytes both return normally and leave `dst` unchanged; when both have at
least 8 bytes (more than 8 included) and the tables are in range both return
normally, and the `dst` they return has the length it had. -/
theorem Encrypt_Decrypt_lengths (s7 s9 key dst src : List Nat) (hkey : key.length = 16) :
    ∃ c, NewCipher key = some (Except.ok c) ∧
      ((dst.length < 8 ∨ src.length < 8) →
        c.Encrypt s7 s9 dst src = some dst ∧ c.Decrypt s7 s9 dst src = some dst) ∧
      (8 ≤ dst.length → 8 ≤ src.length → IsBytes (src.take 8) → TablesInRange s7 s9 →
        ∃ d1 d2, c.Encrypt s7 s9 dst src = some d1 ∧ c.Decrypt s7 s9 dst src = some d2 ∧
          d1.length = dst.length ∧ d2.length = dst.length) := by
  refine ⟨scheduleOf key, NewCipherWithRounds_eq key 8 hkey, ?_, ?_⟩
  · intro h
    exact ⟨Encrypt_short _ s7 s9 dst src h, Decrypt_short _ s7 s9 dst src h⟩
  · intro hd hs hb ht
    obtain ⟨d1, h1⟩ := Encrypt_total _ s7 s9 dst src (scheduleOf_wellSized key) ht hd hs hb
    obtain ⟨d2, h2⟩ := Decrypt_total _ s7 s9 dst src (scheduleOf_wellSized key) ht hd hs hb
    exact ⟨d1, d2, h1, h2, Encrypt_length _ s7 s9 dst src d1 hd hs hb h1,
      Decrypt_length _ s7 s9 dst src d2 hd hs hb h2⟩

set_option maxRecDepth 100000 in
/-- The amended **C5** at the key `20 00 … 00`, a 7-byte `dst`, an 8-byte `src`
and the tables `S7`, `S9`. -/
theorem Encrypt_Decrypt_lengths_witness :
    ∃ c, NewCipher [0x20, 0, 0, 0, 0, 0, 0, 0, 0, 0, 0, 0, 0, 0, 0, 0] = some (Except.ok c) ∧
      c.Encrypt S7 S9 [9, 9, 9, 9, 9, 9, 9] [0, 0, 0, 0, 0, 0, 0, 0]
        = some [9, 9, 9, 9, 9, 9, 9] ∧
      c.Decrypt S7 S9 [9, 9, 9, 9, 9, 9, 9] [0, 0, 0, 0, 0, 0, 0, 0]
        = some [9, 9, 9, 9, 9, 9, 9] := by
  obtain ⟨c, hc, hshort, _⟩ := Encrypt_Decrypt_lengths S7 S9
    [0x20, 0, 0, 0, 0, 0, 0, 0, 0, 0, 0, 0, 0, 0, 0, 0] [9, 9, 9, 9, 9, 9, 9]
    [0, 0, 0, 0, 0, 0, 0, 0] (by decide)
  exact ⟨c, hc, hshort (by decide)⟩

/-- Counterexample to **C6**.  With the key `20 00 … 00` and `rounds = 7`,
`NewCipherWithRounds` returns a cipher and a nil error, the same cipher as
`NewCipher`. -/
theorem NewCipherWithRounds_seven_accepted :
    ∃ c, NewCipherWithRounds [0x20, 0, 0, 0, 0, 0, 0, 0, 0, 0, 0, 0, 0, 0, 0, 0] 7
        = some (Except.ok c) ∧
      NewCipher [0x20, 0, 0, 0, 0, 0, 0, 0, 0, 0, 0, 0, 0, 0, 0, 0] = some (Except.ok c) :=
  ⟨scheduleOf [0x20, 0, 0, 0, 0, 0, 0, 0, 0, 0, 0, 0, 0, 0, 0, 0],
    NewCipherWithRounds_eq _ 7 (by decide), NewCipherWithRounds_eq _ 8 (by decide)⟩

/-- **C6**, amended.  For every 16-byte key and every value of `rounds`, 8 or
not, `NewCipherWithRounds key rounds` returns a nil error and the cipher that
`NewCipher key` returns: the argument is ignored, never rejected. -/
theorem NewCipherWithRounds_accepts (key : List Nat) (rounds : Int) (hkey : key.length = 16) :
    ∃ c, NewCipherWithRounds key rounds = some (Except.ok c) ∧
      NewCipher key = some (Except.ok c) :=
  ⟨scheduleOf key, NewCipherWithRounds_eq key rounds hkey, NewCipherWithRounds_eq key 8 hkey⟩

/-- The amended **C6** at the key `20 00 … 00` and `rounds = -3`. -/
theorem NewCipherWithRounds_accepts_witness :
    ∃ c, NewCipherWithRounds [0x20, 0, 0, 0, 0, 0, 0, 0, 0, 0, 0, 0, 0, 0, 0, 0] (-3)
        = some (Except.ok c) ∧
      NewCipher [0x20, 0, 0, 0, 0, 0, 0, 0, 0, 0, 0, 0, 0, 0, 0, 0] = some (Except.ok c) :=
  NewCipherWithRounds_accepts [0x20, 0, 0, 0, 0, 0, 0, 0, 0, 0, 0, 0, 0, 0, 0, 0] (-3)
    (by decide)

/-! ## Claims C7 and C9 -/

/-- **C7** (injectivity).  For every 16-byte key, `Encrypt` under the cipher of
that key never maps two different 8-byte blocks to the same output: whenever
both calls return, the outputs differ (for any tables), and with tables in
range both calls do return. -/
theorem Encrypt_injective (s7 s9 key b1 b2 dst1 dst2 : List Nat) (hkey : key.length = 16)
    (hb1 : b1.length = 8) (hbytes1 : IsBytes b1) (hb2 : b2.length = 8) (hbytes2 : IsBytes b2)
    (hd1 : dst1.length = 8) (hd2 : dst2.length = 8) (hne : b1 ≠ b2) :
    ∃ c, NewCipher key = some (Except.ok c) ∧
      (∀ c1 c2, c.Encrypt s7 s9 dst1 b1 = some c1 → c.Encrypt s7 s9 dst2 b2 = some c2 →
        c1 ≠ c2) ∧
      (TablesInRange s7 s9 → ∃ c1 c2, c.Encrypt s7 s9 dst1 b1 = some c1 ∧
        c.Encrypt s7 s9 dst2 b2 = some c2 ∧ c1 ≠ c2) := by
  have key_fact : ∀ c1 c2, (scheduleOf key).Encrypt s7 s9 dst1 b1 = some c1 →
      (scheduleOf key).Encrypt s7 s9 dst2 b2 = some c2 → c1 ≠ c2 := by
    intro c1 c2 h1 h2 heq
    have r1 := Decrypt_Encrypt _ s7 s9 dst1 dst1 b1 c1 hb1 hbytes1 hd1 hd1 h1
    have r2 := Decrypt_Encrypt _ s7 s9 dst2 dst1 b2 c2 hb2 hbytes2 hd2 hd1 h2
    rw [heq, r2] at r1
    exact hne (Option.some.inj r1).symm
  refine ⟨scheduleOf key, NewCipherWithRounds_eq key 8 hkey, key_fact, ?_⟩
  intro ht
  obtain ⟨c1, h1⟩ := Encrypt_total (scheduleOf key) s7 s9 dst1 b1 (scheduleOf_wellSized key)
    ht (by omega) (by omega) (fun x hx => hbytes1 x (List.mem_of_mem_take hx))
  obtain ⟨c2, h2⟩ := Encrypt_total (scheduleOf key) s7 s9 dst2 b2 (scheduleOf_wellSized key)
    ht (by omega) (by omega) (fun x hx => hbytes2 x (List.mem_of_mem_take hx))
  exact ⟨c1, c2, h1, h2, key_fact c1 c2 h1 h2⟩

set_option maxRecDepth 100000 in
/-- The injectivity of **C7** at the key `20 00 … 00`, the blocks `00 … 00` and
`00 … 01`, and the tables `S7`, `S9`. -/
theorem Encrypt_injective_witness :
    ∃ c1 c2 : List Nat,
      (scheduleOf [0x20, 0, 0, 0, 0, 0, 0, 0, 0, 0, 0, 0, 0, 0, 0, 0]).Encrypt S7 S9
        [0, 0, 0, 0, 0, 0, 0, 0] [0, 0, 0, 0, 0, 0, 0, 0] = some c1 ∧
      (scheduleOf [0x20, 0, 0, 0, 0, 0, 0, 0, 0, 0, 0, 0, 0, 0, 0, 0]).Encrypt S7 S9
        [0, 0, 0, 0, 0, 0, 0, 0] [0, 0, 0, 0, 0, 0, 0, 1] = some c2 ∧ c1 ≠ c2 := by
  obtain ⟨c, hc, _, h⟩ := Encrypt_injective S7 S9
    [0x20, 0, 0, 0, 0, 0, 0, 0, 0, 0, 0, 0, 0, 0, 0, 0] [0, 0, 0, 0, 0, 0, 0, 0]
    [0, 0, 0, 0, 0, 0, 0, 1] [0, 0, 0, 0, 0, 0, 0, 0] [0, 0, 0, 0, 0, 0, 0, 0]
    (by decide) (by decide) (by decide) (by decide) (by decide) (by decide) (by decide)
    (by decide)
  unfold NewCipher at hc
  rw [NewCipherWithRounds_eq _ 8 (by decide)] at hc
  cases hc
  exact h (by decide)

/-- **C9** (the ciphertext depends on key and block alone).  For every key and
any two `rounds` arguments, `NewCipherWithRounds` returns the same result, which
is also the result of `NewCipher`; for a 16-byte key that result is a cipher,
so the two ciphers hold the same eight round-key arrays and `Encrypt` and
`Decrypt` give the same output on every pair of buffers, for any tables. -/
theorem NewCipherWithRounds_rounds_irrelevant (key : List Nat) (r1 r2 : Int) :
    NewCipherWithRounds key r1 = NewCipherWithRounds key r2 ∧
    NewCipher key = NewCipherWithRounds key r1 ∧
    (key.length = 16 → ∃ c1 c2, NewCipherWithRounds key r1 = some (Except.ok c1) ∧
      NewCipherWithRounds key r2 = some (Except.ok c2) ∧
      c1.kli1 = c2.kli1 ∧ c1.kli2 = c2.kli2 ∧ c1.koi1 = c2.koi1 ∧ c1.koi2 = c2.koi2 ∧
      c1.koi3 = c2.koi3 ∧ c1.kii1 = c2.kii1 ∧ c1.kii2 = c2.kii2 ∧ c1.kii3 = c2.kii3 ∧
      ∀ s7 s9 dst src, c1.Encrypt s7 s9 dst src = c2.Encrypt s7 s9 dst src ∧
        c1.Decrypt s7 s9 dst src = c2.Decrypt s7 s9 dst src) := by
  refine ⟨rfl, rfl, ?_⟩
  intro hkey
  exact ⟨scheduleOf key, scheduleOf key, NewCipherWithRounds_eq key r1 hkey,
    NewCipherWithRounds_eq key r2 hkey, rfl, rfl, rfl, rfl, rfl, rfl, rfl, rfl,
    fun _ _ _ _ => ⟨rfl, rfl⟩⟩

/-- The statement of **C9** at the key `20 00 … 00` and the `rounds` arguments
`8` and `1`. -/
theorem NewCipherWithRounds_rounds_irrelevant_witness :
    ∃ c1 c2, NewCipherWithRounds [0x20, 0, 0, 0, 0, 0, 0, 0, 0, 0, 0, 0, 0, 0, 0, 0] 8
        = some (Except.ok c1) ∧
      NewCipherWithRounds [0x20, 0, 0, 0, 0, 0, 0, 0, 0, 0, 0, 0, 0, 0, 0, 0] 1
        = some (Except.ok c2) ∧
      c1.kli1 = c2.kli1 ∧ c1.kli2 = c2.kli2 ∧ c1.koi1 = c2.koi1 ∧ c1.koi2 = c2.koi2 ∧
      c1.koi3 = c2.koi3 ∧ c1.kii1 = c2.kii1 ∧ c1.kii2 = c2.kii2 ∧ c1.kii3 = c2.kii3 ∧
      ∀ s7 s9 dst src, c1.Encrypt s7 s9 dst src = c2.Encrypt s7 s9 dst src ∧
        c1.Decrypt s7 s9 dst src = c2.Decrypt s7 s9 dst src :=
  (NewCipherWithRounds_rounds_irrelevant [0x20, 0, 0, 0, 0, 0, 0, 0, 0, 0, 0, 0, 0, 0, 0, 0]
    8 1).2.2 (by decide)

/-! ## Claim C8: Encrypt refines the Feistel core of the spec -/

theorem encBody_eq_spec (c : kasumi) (s7 s9 : List Nat) (j : Nat) (hj : j + 1 < 4294967296)
    (l r : Nat) :
    encBody c s7 s9 (j : Int) l r =
      (spec_encIter c s7 s9 (l, r) j).map fun p => ((j : Int) + 1 + 1, p.1, p.2) := by
  have u0 : uint32 (j : Int) = j := uint32_ofNat j (by omega)
  have u1 : uint32 ((j : Int) + 1) = j + 1 := by
    have := uint32_ofNat (j + 1) (by omega)
    simpa using this
  simp only [encBody, spec_encIter, u0, u1, Option.bind_eq_bind, Option.pure_def]
  cases c._FL l j with
  | none => rfl
  | some t1 =>
    simp only [Option.some_bind]
    cases c._FO s7 s9 t1 j with
    | none => rfl
    | some t2 =>
      simp only [Option.some_bind]
      cases c._FO s7 s9 (r ^^^ t2) (j + 1) with
      | none => rfl
      | some t3 =>
        simp only [Option.some_bind]
        cases c._FL t3 (j + 1) with
        | none => rfl
        | some t4 => rfl

theorem encLoop_step (c : kasumi) (s7 s9 : List Nat) (f j : Nat) (hj : j ≤ 3) (l r : Nat) :
    encLoop c s7 s9 (f + 1) (2 * (j : Int)) l r =
      (spec_encIter c s7 s9 (l, r) (2 * j)).bind fun p =>
        (encLoop c s7 s9 f (2 * ((j + 1 : Nat) : Int)) p.1 p.2).map fun res =>
          (res.1, res.2.1, res.2.2 + 1) := by
  rw [encLoop_succ, if_pos (by omega)]
  have e : (2 * (j : Int)) = ((2 * j : Nat) : Int) := by push_cast; ring
  rw [e, encBody_eq_spec c s7 s9 (2 * j) (by omega)]
  cases spec_encIter c s7 s9 (l, r) (2 * j) with
  | none => rfl
  | some p =>
    have e2 : ((2 * j : Nat) : Int) + 1 + 1 = 2 * ((j + 1 : Nat) : Int) := by push_cast; ring
    simp only [Option.map_some', Option.some_bind, e2]
    cases encLoop c s7 s9 f (2 * ((j + 1 : Nat) : Int)) p.1 p.2 with
    | none => rfl
    | some res => rfl

/-- The loop of `Encrypt` is the iteration of the spec over `n = 0, 2, 4, 6`,
and it makes four iterations. -/
theorem encLoop_eq_spec (c : kasumi) (s7 s9 : List Nat) (l r : Nat) :
    encLoop c s7 s9 loopBound 0 l r =
      ([0, 2, 4, 6].foldlM (spec_encIter c s7 s9) (l, r)).map fun p => (p.1, p.2, 4) := by
  have s0 := encLoop_step c s7 s9 7 0 (by omega) l r
  have hb : loopBound = 7 + 1 := rfl
  have z : (2 : Int) * ((0 : Nat) : Int) = 0 := by norm_num
  rw [z] at s0
  rw [hb, s0]
  simp only [List.foldlM, Option.bind_eq_bind, Nat.mul_zero]
  cases spec_encIter c s7 s9 (l, r) 0 with
  | none => rfl
  | some p0 =>
    simp only [Option.some_bind]
    rw [encLoop_step c s7 s9 6 1 (by omega)]
    cases spec_encIter c s7 s9 p0 (2 * 1) with
    | none => rfl
    | some p1 =>
      simp only [Option.some_bind]
      rw [encLoop_step c s7 s9 5 2 (by omega)]
      cases spec_encIter c s7 s9 p1 (2 * 2) with
      | none => rfl
      | some p2 =>
        simp only [Option.some_bind]
        rw [encLoop_step c s7 s9 4 3 (by omega)]
        cases spec_encIter c s7 s9 p2 (2 * 3) with
        | none => rfl
        | some p3 =>
          simp only [Option.some_bind]
          have e8 : (2 : Int) * ((3 + 1 : Nat) : Int) = 8 := by norm_num
          rw [e8, encLoop_succ, if_neg (by norm_num)]
          rfl

/-- **C8** (the Feistel core).  For every 16-byte key, every 8-byte block and
every 8-byte `dst`, the output of `Encrypt` is the output of the spec's
reference `spec_Encrypt`: big-endian halves, the iteration
`right ^= FO(FL(left,n),n); left ^= FL(FO(right,n+1),n+1)` for `n = 0, 2, 4, 6`
in that order, big-endian output.  The loop can only finish after four
iterations, and with tables in range it does finish. -/
theorem Encrypt_eq_spec (s7 s9 key b dst : List Nat) (hkey : key.length = 16)
    (hb : b.length = 8) (hbytes : IsBytes b) (hd : dst.length = 8) :
    ∃ c, NewCipher key = some (Except.ok c) ∧
      c.Encrypt s7 s9 dst b = spec_Encrypt c s7 s9 b ∧
      (∀ res, encLoop c s7 s9 loopBound 0 (word32 b) (word32 (b.drop 4)) = some res →
        res.2.2 = 4) ∧
      (TablesInRange s7 s9 →
        (∃ l r, encLoop c s7 s9 loopBound 0 (word32 b) (word32 (b.drop 4)) = some (l, r, 4)) ∧
        ∃ out, c.Encrypt s7 s9 dst b = some out) := by
  have hb8 : IsBytes (b.take 8) := fun x hx => hbytes x (List.mem_of_mem_take hx)
  refine ⟨scheduleOf key, NewCipherWithRounds_eq key 8 hkey, ?_, ?_, ?_⟩
  · rw [Encrypt_eq _ s7 s9 dst b (by omega) (by omega) hb8, encLoop_eq_spec]
    have hd0 : dst.drop 8 = [] := by
      apply List.eq_nil_of_length_eq_zero; simp [hd]
    simp only [spec_Encrypt, hd0, Option.bind_eq_bind, Option.pure_def]
    generalize [0, 2, 4, 6].foldlM (spec_encIter (scheduleOf key) s7 s9)
        (word32 b, word32 (b.drop 4)) = o
    cases o with
    | none => rfl
    | some p => simp
  · intro res h
    have := encLoop_count (scheduleOf key) s7 s9 loopBound 0 _ _ res (by omega) h
    simpa using this
  · intro ht
    constructor
    · obtain ⟨l, r, h⟩ := encLoop_total (scheduleOf key) s7 s9 (scheduleOf_wellSized key) ht
        loopBound 0 (word32 b) (word32 (b.drop 4)) (by omega) (by simp [loopBound])
      exact ⟨l, r, by simpa using h⟩
    · exact Encrypt_total _ s7 s9 dst b (scheduleOf_wellSized key) ht (by omega) (by omega) hb8

set_option maxRecDepth 100000 in
/-- The refinement of **C8** at the key `20 00 … 00`, the block `01 02 … 08` and
the tables `S7`, `S9`. -/
theorem Encrypt_eq_spec_witness :
    ∃ c, NewCipher [0x20, 0, 0, 0, 0, 0, 0, 0, 0, 0, 0, 0, 0, 0, 0, 0] = some (Except.ok c) ∧
      c.Encrypt S7 S9 [0, 0, 0, 0, 0, 0, 0, 0] [1, 2, 3, 4, 5, 6, 7, 8]
        = spec_Encrypt c S7 S9 [1, 2, 3, 4, 5, 6, 7, 8] ∧
      (∀ res, encLoop c S7 S9 loopBound 0 (word32 [1, 2, 3, 4, 5, 6, 7, 8])
          (word32 (List.drop 4 [1, 2, 3, 4, 5, 6, 7, 8])) = some res → res.2.2 = 4) ∧
      (TablesInRange S7 S9 →
        (∃ l r, encLoop c S7 S9 loopBound 0 (word32 [1, 2, 3, 4, 5, 6, 7, 8])
          (word32 (List.drop 4 [1, 2, 3, 4, 5, 6, 7, 8])) = some (l, r, 4)) ∧
        ∃ out, c.Encrypt S7 S9 [0, 0, 0, 0, 0, 0, 0, 0] [1, 2, 3, 4, 5, 6, 7, 8] = some out) :=
  Encrypt_eq_spec S7 S9 [0x20, 0, 0, 0, 0, 0, 0, 0, 0, 0, 0, 0, 0, 0, 0, 0]
    [1, 2, 3, 4, 5, 6, 7, 8] [0, 0, 0, 0, 0, 0, 0, 0] (by decide) (by decide) (by decide)
    (by decide)

/-! ## Claim C10: FI refines the spec -/

theorem getD_of_getElem? (t : List Nat) (i v : Nat) (h : t[i]? = some v) : t.getD i 0 = v := by
  rw [List.getD_eq_getElem?_getD, h]; rfl

theorem getD_lt (t : List Nat) (B : Nat) (hB : ∀ x ∈ t, x < B) (hpos : 0 < B) (i : Nat) :
    t.getD i 0 < B := by
  rw [List.getD_eq_getElem?_getD]
  cases hv : t[i]? with
  | none => exact hpos
  | some v => exact hB v (List.getElem?_mem hv)

theorem _FI_eq_spec (s7 s9 : List Nat) (x k r : Nat) (h : _FI s7 s9 x k = some r) :
    r = spec_FI s7 s9 x k % 65536 := by
  simp only [_FI, Option.bind_eq_bind, Option.bind_eq_some, Option.pure_def,
    Option.some.injEq] at h
  obtain ⟨a, ha, b, hb, c, hc, d, hd, rfl⟩ := h
  simp only [spec_FI, spec_FI_parts, getD_of_getElem? _ _ _ ha, getD_of_getElem? _ _ _ hb,
    getD_of_getElem? _ _ _ hc, getD_of_getElem? _ _ _ hd]
  exact Nat.mod_add_mod _ _ _

theorem spec_FI_parts_lt (s7 s9 : List Nat) (ht : TablesInRange s7 s9) (x k : Nat)
    (hk : k < 65536) :
    (spec_FI_parts s7 s9 x k).1 < 128 ∧ (spec_FI_parts s7 s9 x k).2 < 512 := by
  obtain ⟨_, _, b7, b9⟩ := ht
  have p7 : (128 : Nat) = 2 ^ 7 := by norm_num
  have p9 : (512 : Nat) = 2 ^ 9 := by norm_num
  have g7 : ∀ i, s7.getD i 0 < 2 ^ 7 := fun i => by
    rw [← p7]; exact getD_lt s7 128 b7 (by norm_num) i
  have g9 : ∀ i, s9.getD i 0 < 2 ^ 9 := fun i => by
    rw [← p9]; exact getD_lt s9 512 b9 (by norm_num) i
  have m7 : ∀ y : Nat, y &&& 0x7F < 2 ^ 7 := fun y => Nat.and_lt_two_pow _ (by norm_num)
  have m9 : ∀ y : Nat, y &&& 0x1FF < 2 ^ 9 := fun y => Nat.and_lt_two_pow _ (by norm_num)
  have w : ∀ y : Nat, y < 2 ^ 7 → y < 2 ^ 9 := fun y hy => lt_of_lt_of_le hy (by norm_num)
  have k9 : k >>> 9 < 2 ^ 7 := by
    rw [Nat.shiftRight_eq_div_pow]
    have : (2 : Nat) ^ 9 = 512 := by norm_num
    have : (2 : Nat) ^ 7 = 128 := by norm_num
    omega
  simp only [spec_FI_parts]
  rw [p7, p9]
  have s2 := Nat.xor_lt_two_pow (Nat.xor_lt_two_pow (g7 (x &&& 0x7F))
    (m7 (s9.getD ((x >>> 7) &&& 0x1FF) 0 ^^^ (x &&& 0x7F)))) k9
  exact ⟨Nat.xor_lt_two_pow (g7 _) (m7 _), Nat.xor_lt_two_pow (g9 _) (w _ s2)⟩

/-- **C10** (FI).  Whenever `_FI` returns, its result is the spec's reference
`(seven<<9) + nine` reduced to 16 bits.  When every `s7` entry is below 128 and
every `s9` entry below 512 (tables of 128 and 512 entries), `_FI` returns on
every input and 16-bit subkey, the sum neither carries nor wraps, and the
result is the reference exactly: its top 7 bits are the final `seven` and its
low 9 bits the final `nine`. -/
theorem _FI_refines_spec (s7 s9 : List Nat) (input subkey : Nat) (hk : subkey < 65536) :
    (∀ r, _FI s7 s9 input subkey = some r → r = spec_FI s7 s9 input subkey % 65536) ∧
    (TablesInRange s7 s9 →
      _FI s7 s9 input subkey = some (spec_FI s7 s9 input subkey) ∧
      (spec_FI_parts s7 s9 input subkey).1 < 128 ∧
      (spec_FI_parts s7 s9 input subkey).2 < 512 ∧
      spec_FI s7 s9 input subkey < 65536 ∧
      spec_FI s7 s9 input subkey
        = (spec_FI_parts s7 s9 input subkey).1 * 512 + (spec_FI_parts s7 s9 input subkey).2 ∧
      spec_FI s7 s9 input subkey >>> 9 = (spec_FI_parts s7 s9 input subkey).1 ∧
      spec_FI s7 s9 input subkey &&& 0x1FF = (spec_FI_parts s7 s9 input subkey).2) := by
  refine ⟨fun r h => _FI_eq_spec s7 s9 input subkey r h, ?_⟩
  intro ht
  obtain ⟨h7, h9⟩ := spec_FI_parts_lt s7 s9 ht input subkey hk
  have hval : spec_FI s7 s9 input subkey
      = (spec_FI_parts s7 s9 input subkey).1 * 512 + (spec_FI_parts s7 s9 input subkey).2 := by
    unfold spec_FI
    rw [Nat.shiftLeft_eq]
  have hlt : spec_FI s7 s9 input subkey < 65536 := by omega
  obtain ⟨r, hr⟩ := _FI_total s7 s9 ht input subkey hk
  have hreq := _FI_eq_spec s7 s9 input subkey r hr
  rw [Nat.mod_eq_of_lt hlt] at hreq
  subst hreq
  refine ⟨hr, h7, h9, hlt, hval, ?_, ?_⟩
  · rw [Nat.shiftRight_eq_div_pow]
    have : (2 : Nat) ^ 9 = 512 := by norm_num
    omega
  · have e : (0x1FF : Nat) = 2 ^ 9 - 1 := by norm_num
    rw [e, Nat.and_pow_two_sub_one_eq_mod]
    have : (2 : Nat) ^ 9 = 512 := by norm_num
    omega

set_option maxRecDepth 100000 in
/-- The statement of **C10** at the tables `S7`, `S9`, the input `0x1234` and
the subkey `0xABCD`. -/
theorem _FI_refines_spec_witness :
    _FI S7 S9 0x1234 0xABCD = some (spec_FI S7 S9 0x1234 0xABCD) ∧
      (spec_FI_parts S7 S9 0x1234 0xABCD).1 < 128 ∧
      (spec_FI_parts S7 S9 0x1234 0xABCD).2 < 512 ∧
      spec_FI S7 S9 0x1234 0xABCD < 65536 ∧
      spec_FI S7 S9 0x1234 0xABCD
        = (spec_FI_parts S7 S9 0x1234 0xABCD).1 * 512 + (spec_FI_parts S7 S9 0x1234 0xABCD).2 ∧
      spec_FI S7 S9 0x1234 0xABCD >>> 9 = (spec_FI_parts S7 S9 0x1234 0xABCD).1 ∧
      spec_FI S7 S9 0x1234 0xABCD &&& 0x1FF = (spec_FI_parts S7 S9 0x1234 0xABCD).2 :=
  (_FI_refines_spec S7 S9 0x1234 0xABCD (by decide)).2 (by decide)

/-! ## Claims C13 and C19: short buffers and the frame of the writes -/

/-- **C13** (silent no-op).  For every cipher and any tables, whenever
`len(dst) < 8` or `len(src) < 8`, `Encrypt` and `Decrypt` return normally and
the `dst` they leave is the `dst` they were given, byte for byte: nothing is
written and no failure is signalled. -/
theorem Encrypt_Decrypt_short_noop (c : kasumi) (s7 s9 dst src : List Nat)
    (h : dst.length < 8 ∨ src.length < 8) :
    c.Encrypt s7 s9 dst src = some dst ∧ c.Decrypt s7 s9 dst src = some dst :=
  ⟨Encrypt_short c s7 s9 dst src h, Decrypt_short c s7 s9 dst src h⟩

/-- The no-op of **C13** for a 9-byte `dst` and a 7-byte `src`. -/
theorem Encrypt_Decrypt_short_noop_witness :
    (scheduleOf (List.replicate 16 0)).Encrypt S7 S9 [1, 2, 3, 4, 5, 6, 7, 8, 9]
        [0, 0, 0, 0, 0, 0, 0] = some [1, 2, 3, 4, 5, 6, 7, 8, 9] ∧
    (scheduleOf (List.replicate 16 0)).Decrypt S7 S9 [1, 2, 3, 4, 5, 6, 7, 8, 9]
        [0, 0, 0, 0, 0, 0, 0] = some [1, 2, 3, 4, 5, 6, 7, 8, 9] :=
  Encrypt_Decrypt_short_noop (scheduleOf (List.replicate 16 0)) S7 S9
    [1, 2, 3, 4, 5, 6, 7, 8, 9] [0, 0, 0, 0, 0, 0, 0] (by decide)

theorem word32_take (src : List Nat) (hs : 8 ≤ src.length) :
    word32 (src.take 8) = word32 src ∧ word32 ((src.take 8).drop 4) = word32 (src.drop 4) := by
  obtain ⟨b0, b1, b2, b3, b4, b5, b6, b7, t, rfl⟩ := exists_eight_cons src hs
  exact ⟨rfl, rfl⟩

theorem take_take_eight (src : List Nat) : (src.take 8).take 8 = src.take 8 := by
  rw [List.take_take]; simp

theorem Encrypt_frame (c : kasumi) (s7 s9 dst src : List Nat) (hd : 8 ≤ dst.length)
    (hs : 8 ≤ src.length) (hb : IsBytes (src.take 8)) :
    c.Encrypt s7 s9 dst src =
      (c.Encrypt s7 s9 (dst.take 8) (src.take 8)).map fun d => d ++ dst.drop 8 := by
  have hb' : IsBytes ((src.take 8).take 8) := by rw [take_take_eight]; exact hb
  obtain ⟨w1, w2⟩ := word32_take src hs
  rw [Encrypt_eq c s7 s9 dst src hd hs hb,
    Encrypt_eq c s7 s9 (dst.take 8) (src.take 8) (by simp; omega) (by simp; omega) hb', w1, w2]
  have e : (dst.take 8).drop 8 = [] := by
    apply List.eq_nil_of_length_eq_zero; simp
  rw [e]
  cases encLoop c s7 s9 loopBound 0 (word32 src) (word32 (List.drop 4 src)) with
  | none => rfl
  | some res => simp

theorem Decrypt_frame (c : kasumi) (s7 s9 dst src : List Nat) (hd : 8 ≤ dst.length)
    (hs : 8 ≤ src.length) (hb : IsBytes (src.take 8)) :
    c.Decrypt s7 s9 dst src =
      (c.Decrypt s7 s9 (dst.take 8) (src.take 8)).map fun d => d ++ dst.drop 8 := by
  have hb' : IsBytes ((src.take 8).take 8) := by rw [take_take_eight]; exact hb
  obtain ⟨w1, w2⟩ := word32_take src hs
  rw [Decrypt_eq c s7 s9 dst src hd hs hb,
    Decrypt_eq c s7 s9 (dst.take 8) (src.take 8) (by simp; omega) (by simp; omega) hb', w1, w2]
  have e : (dst.take 8).drop 8 = [] := by
    apply List.eq_nil_of_length_eq_zero; simp
  rw [e]
  cases decLoop c s7 s9 loopBound 7 (word32 src) (word32 (List.drop 4 src)) with
  | none => rfl
  | some res => simp

theorem Encrypt_drop (c : kasumi) (s7 s9 dst src d : List Nat) (hd : 8 ≤ dst.length)
    (hs : 8 ≤ src.length) (hb : IsBytes (src.take 8)) (h : c.Encrypt s7 s9 dst src = some d) :
    d.drop 8 = dst.drop 8 := by
  rw [Encrypt_eq c s7 s9 dst src hd hs hb] at h
  simp only [Option.map_eq_some'] at h
  obtain ⟨res, _, rfl⟩ := h
  simp [bytes32]

theorem Decrypt_drop (c : kasumi) (s7 s9 dst src d : List Nat) (hd : 8 ≤ dst.length)
    (hs : 8 ≤ src.length) (hb : IsBytes (src.take 8)) (h : c.Decrypt s7 s9 dst src = some d) :
    d.drop 8 = dst.drop 8 := by
  rw [Decrypt_eq c s7 s9 dst src hd hs hb] at h
  simp only [Option.map_eq_some'] at h
  obtain ⟨res, _, rfl⟩ := h
  simp [bytes32]

theorem getElem?_of_drop_eq (d dst : List Nat) (h : d.drop 8 = dst.drop 8) (i : Nat)
    (hi : 8 ≤ i) : d[i]? = dst[i]? := by
  have e : i = 8 + (i - 8) := by omega
  rw [e, ← List.getElem?_drop, ← List.getElem?_drop, h]

/-- **C19** (frame).  For every cipher, any tables and all buffers with
`len(dst) >= 8` and `len(src) >= 8`: the `dst` left by `Encrypt` (by `Decrypt`)
is the result for the 8-byte buffers `dst[0..8)`, `src[0..8)` followed by the
bytes of `dst` from index 8 on, so it depends on `src` only through its first
8 bytes, it has the length of `dst`, and every byte at index 8 or above is
unchanged.  With round-key arrays of eight entries and tables in range both
calls return: an over-long buffer is processed, not rejected. -/
theorem Encrypt_Decrypt_frame (c : kasumi) (s7 s9 dst src : List Nat) (hd : 8 ≤ dst.length)
    (hs : 8 ≤ src.length) (hb : IsBytes (src.take 8)) :
    c.Encrypt s7 s9 dst src
      = ((c.Encrypt s7 s9 (dst.take 8) (src.take 8)).map fun d => d ++ dst.drop 8) ∧
    c.Decrypt s7 s9 dst src
      = ((c.Decrypt s7 s9 (dst.take 8) (src.take 8)).map fun d => d ++ dst.drop 8) ∧
    (∀ src2, 8 ≤ src2.length → src2.take 8 = src.take 8 →
      c.Encrypt s7 s9 dst src2 = c.Encrypt s7 s9 dst src ∧
      c.Decrypt s7 s9 dst src2 = c.Decrypt s7 s9 dst src) ∧
    (∀ d, c.Encrypt s7 s9 dst src = some d ∨ c.Decrypt s7 s9 dst src = some d →
      d.length = dst.length ∧ ∀ i, 8 ≤ i → d[i]? = dst[i]?) ∧
    (c.WellSized → TablesInRange s7 s9 →
      ∃ d1 d2, c.Encrypt s7 s9 dst src = some d1 ∧ c.Decrypt s7 s9 dst src = some d2) := by
  refine ⟨Encrypt_frame c s7 s9 dst src hd hs hb, Decrypt_frame c s7 s9 dst src hd hs hb,
    ?_, ?_, ?_⟩
  · intro src2 hs2 ht
    have hb2 : IsBytes (src2.take 8) := by rw [ht]; exact hb
    rw [Encrypt_frame c s7 s9 dst src2 hd hs2 hb2, Decrypt_frame c s7 s9 dst src2 hd hs2 hb2,
      ht, ← Encrypt_frame c s7 s9 dst src hd hs hb, ← Decrypt_frame c s7 s9 dst src hd hs hb]
    exact ⟨rfl, rfl⟩
  · intro d h
    rcases h with h | h
    · exact ⟨Encrypt_length c s7 s9 dst src d hd hs hb h,
        getElem?_of_drop_eq d dst (Encrypt_drop c s7 s9 dst src d hd hs hb h)⟩
    · exact ⟨Decrypt_length c s7 s9 dst src d hd hs hb h,
        getElem?_of_drop_eq d dst (Decrypt_drop c s7 s9 dst src d hd hs hb h)⟩
  · intro hc ht
    obtain ⟨d1, h1⟩ := Encrypt_total c s7 s9 dst src hc ht hd hs hb
    obtain ⟨d2, h2⟩ := Decrypt_total c s7 s9 dst src hc ht hd hs hb
    exact ⟨d1, d2, h1, h2⟩

set_option maxRecDepth 100000 in
/-- The frame of **C19** for 9-byte buffers under the key `20 00 … 00`: both
calls return, the ninth byte of `dst` stays `9`. -/
theorem Encrypt_Decrypt_frame_witness :
    (scheduleOf [0x20, 0, 0, 0, 0, 0, 0, 0, 0, 0, 0, 0, 0, 0, 0, 0]).Encrypt S7 S9
        [9, 9, 9, 9, 9, 9, 9, 9, 9] [0, 0, 0, 0, 0, 0, 0, 0, 7]
      = some [0x58, 0xC6, 0x76, 0x26, 0x06, 0xAB, 0x28, 0x89, 9] ∧
    ∃ d1 d2,
      (scheduleOf [0x20, 0, 0, 0, 0, 0, 0, 0, 0, 0, 0, 0, 0, 0, 0, 0]).Encrypt S7 S9
        [9, 9, 9, 9, 9, 9, 9, 9, 9] [0, 0, 0, 0, 0, 0, 0, 0, 7] = some d1 ∧
      (scheduleOf [0x20, 0, 0, 0, 0, 0, 0, 0, 0, 0, 0, 0, 0, 0, 0, 0]).Decrypt S7 S9
        [9, 9, 9, 9, 9, 9, 9, 9, 9] [0, 0, 0, 0, 0, 0, 0, 0, 7] = some d2 :=
  ⟨by decide,
    (Encrypt_Decrypt_frame (scheduleOf [0x20, 0, 0, 0, 0, 0, 0, 0, 0, 0, 0, 0, 0, 0, 0, 0])
      S7 S9 [9, 9, 9, 9, 9, 9, 9, 9, 9] [0, 0, 0, 0, 0, 0, 0, 0, 7] (by decide) (by decide)
      (by decide)).2.2.2.2 (by decide) (by decide)⟩

/-! ## Claim C15: Encrypt undoes Decrypt -/

/-- Running the `Encrypt` loop on the result of the `Decrypt` loop first undoes
the `k` iterations the `Decrypt` loop made. -/
theorem encLoop_decLoop (c : kasumi) (s7 s9 : List Nat) :
    ∀ (f : Nat) (n : Int) (l r l' r' k : Nat), n ≤ 8 →
      decLoop c s7 s9 f n l r = some (l', r', k) →
      ∀ (g : Nat) (res : Nat × Nat × Nat), encLoop c s7 s9 g (n + 1) l r = some res →
        encLoop c s7 s9 (g + k) (n - 2 * k + 1) l' r' = some (res.1, res.2.1, res.2.2 + k) := by
  intro f
  induction f with
  | zero =>
    intro n l r l' r' k _ h g res hd
    rw [decLoop_zero] at h
    split at h
    · cases h
    · cases h
      simpa using hd
  | succ f ih =>
    intro n l r l' r' k hn h g res hd
    rw [decLoop_succ] at h
    split at h
    · simp only [Option.bind_eq_some, Option.some.injEq] at h
      obtain ⟨st, hst, res1, hres1, heq⟩ := h
      obtain ⟨e1, hdb⟩ := encBody_decBody c s7 s9 n l r st hst
      obtain ⟨l1, r1, k1⟩ := res1
      simp only [Prod.mk.injEq] at heq
      obtain ⟨rfl, rfl, rfl⟩ := heq
      rw [e1] at hres1
      have hd1 : encLoop c s7 s9 (g + 1) (n - 2 + 1) st.2.1 st.2.2
          = some (res.1, res.2.1, res.2.2 + 1) := by
        rw [encLoop_succ, if_pos (by omega)]
        have : n - 2 + 1 = n - 1 := by ring
        rw [this, hdb]
        simp [hd]
      have := ih (n - 2) st.2.1 st.2.2 l1 r1 k1 (by omega) hres1 (g + 1) _ hd1
      have e2 : n - 2 - 2 * (k1 : Int) + 1 = n - 2 * ((k1 + 1 : Nat) : Int) + 1 := by
        push_cast; ring
      rw [e2] at this
      have e3 : g + 1 + k1 = g + (k1 + 1) := by ring
      rw [e3] at this
      simpa [Nat.add_assoc, Nat.add_comm 1 k1] using this
    · cases h
      simpa using hd

/-- Started at an odd counter `2 * j - 1`, the `Decrypt` loop can only finish
after exactly `j` iterations. -/
theorem decLoop_count (c : kasumi) (s7 s9 : List Nat) :
    ∀ (f j : Nat) (l r : Nat) (res : Nat × Nat × Nat),
      decLoop c s7 s9 f (2 * (j : Int) - 1) l r = some res → res.2.2 = j := by
  intro f
  induction f with
  | zero =>
    intro j l r res h
    rw [decLoop_zero] at h
    split at h
    · cases h
    · cases h
      show 0 = j
      omega
  | succ f ih =>
    intro j l r res h
    rw [decLoop_succ] at h
    split at h
    · rename_i hge
      simp only [Option.bind_eq_some, Option.some.injEq] at h
      obtain ⟨st, hst, res1, hres1, rfl⟩ := h
      obtain ⟨e1, _⟩ := encBody_decBody c s7 s9 _ l r st hst
      have hj : 1 ≤ j := by omega
      have e2 : st.1 = 2 * ((j - 1 : Nat) : Int) - 1 := by
        rw [e1]; push_cast [hj]; ring
      rw [e2] at hres1
      have := ih (j - 1) _ _ res1 hres1
      show res1.2.2 + 1 = j
      omega
    · cases h
      show 0 = j
      omega

theorem encLoop_big (c : kasumi) (s7 s9 : List Nat) (f : Nat) (n : Int) (hn : 7 < n)
    (l r : Nat) : encLoop c s7 s9 f n l r = some (l, r, 0) := by
  cases f with
  | zero => rw [encLoop_zero, if_neg (by omega)]
  | succ f => rw [encLoop_succ, if_neg (by omega)]

/-- For any cipher value and any tables: whenever `Decrypt` returns on an
8-byte block, `Encrypt` returns on its output and gives the block back. -/
theorem Encrypt_Decrypt (c : kasumi) (s7 s9 dst1 dst2 b d1 : List Nat)
    (hb : b.length = 8) (hbytes : IsBytes b) (h1 : dst1.length = 8) (h2 : dst2.length = 8)
    (he : c.Decrypt s7 s9 dst1 b = some d1) : c.Encrypt s7 s9 dst2 d1 = some b := by
  have hb8 : IsBytes (b.take 8) := by rw [take_eq_self_of_length b 8 hb]; exact hbytes
  rw [Decrypt_eq c s7 s9 dst1 b (by omega) (by omega) hb8] at he
  simp only [Option.map_eq_some'] at he
  obtain ⟨⟨l', r', k⟩, hloop, rfl⟩ := he
  have hd1 : dst1.drop 8 = [] := by
    apply List.eq_nil_of_length_eq_zero; simp [h1]
  have hd2 : dst2.drop 8 = [] := by
    apply List.eq_nil_of_length_eq_zero; simp [h2]
  obtain ⟨b0, b1, b2, b3, b4, b5, b6, b7, t, rfl⟩ := exists_eight_cons b (by omega)
  have ht : t = [] := by
    apply List.eq_nil_of_length_eq_zero
    simp only [List.length_cons] at hb
    omega
  subst ht
  have hL : word32 [b0, b1, b2, b3, b4, b5, b6, b7] < 4294967296 :=
    word32_lt _ (fun x hx => hbytes x (List.mem_of_mem_take hx)) (by simp)
  have hR : word32 (List.drop 4 [b0, b1, b2, b3, b4, b5, b6, b7]) < 4294967296 :=
    word32_lt _ (fun x hx => hbytes x (List.mem_of_mem_drop (List.mem_of_mem_take hx)))
      (by simp)
  obtain ⟨bl, br⟩ := decLoop_lt c s7 s9 _ _ _ _ _ hloop hL hR
  have hk : k = 4 := by
    have e7 : (7 : Int) = 2 * ((4 : Nat) : Int) - 1 := by norm_num
    rw [e7] at hloop
    exact decLoop_count c s7 s9 loopBound 4 _ _ _ hloop
  subst hk
  have henc := encLoop_decLoop c s7 s9 loopBound 7 _ _ l' r' 4 (by norm_num) hloop 4 _
    (encLoop_big c s7 s9 4 (7 + 1) (by norm_num) _ _)
  have e0 : (7 : Int) - 2 * ((4 : Nat) : Int) + 1 = 0 := by norm_num
  rw [e0] at henc
  have hby : IsBytes ((bytes32 l' ++ bytes32 r' ++ List.drop 8 dst1).take 8) := by
    intro x hx
    have hx := List.mem_of_mem_take hx
    rw [hd1, List.append_nil, List.mem_append] at hx
    rcases hx with hx | hx
    · exact isBytes_bytes32 _ x hx
    · exact isBytes_bytes32 _ x hx
  have hlen : (bytes32 l' ++ bytes32 r' ++ List.drop 8 dst1).length = 8 := by
    simp [bytes32, hd1]
  rw [Encrypt_eq c s7 s9 dst2 _ (by omega) (by omega) hby]
  have w1 : word32 (bytes32 l' ++ bytes32 r' ++ List.drop 8 dst1) = l' := by
    rw [List.append_assoc]; exact word32_bytes32 l' _ bl
  have w2 : word32 (List.drop 4 (bytes32 l' ++ bytes32 r' ++ List.drop 8 dst1)) = r' := by
    have : List.drop 4 (bytes32 l' ++ bytes32 r' ++ List.drop 8 dst1)
        = bytes32 r' ++ List.drop 8 dst1 := by
      simp [bytes32]
    rw [this]; exact word32_bytes32 r' _ br
  have hfuel : loopBound = 4 + 4 := rfl
  rw [w1, w2, hfuel, henc]
  have q1 := bytes32_word32 b0 b1 b2 b3 [b4, b5, b6, b7] (hbytes _ (by simp))
    (hbytes _ (by simp)) (hbytes _ (by simp)) (hbytes _ (by simp))
  have q2 := bytes32_word32 b4 b5 b6 b7 [] (hbytes _ (by simp))
    (hbytes _ (by simp)) (hbytes _ (by simp)) (hbytes _ (by simp))
  have e4 : List.drop 4 [b0, b1, b2, b3, b4, b5, b6, b7] = [b4, b5, b6, b7] := rfl
  simp only [Option.map_some', e4, q1, q2, hd2]
  rfl

/-- The output of `Encrypt` on 8-byte buffers is an 8-byte slice. -/
theorem Encrypt_isBlock (c : kasumi) (s7 s9 dst b d : List Nat) (hb : b.length = 8)
    (hbytes : IsBytes b) (hd : dst.length = 8) (h : c.Encrypt s7 s9 dst b = some d) :
    d.length = 8 ∧ IsBytes d := by
  have hb8 : IsBytes (b.take 8) := fun x hx => hbytes x (List.mem_of_mem_take hx)
  rw [Encrypt_eq c s7 s9 dst b (by omega) (by omega) hb8] at h
  simp only [Option.map_eq_some'] at h
  obtain ⟨res, _, rfl⟩ := h
  have hd0 : dst.drop 8 = [] := by
    apply List.eq_nil_of_length_eq_zero; simp [hd]
  rw [hd0, List.append_nil]
  refine ⟨by simp [bytes32], ?_⟩
  intro x hx
  rcases List.mem_append.1 hx with hx | hx
  · exact isBytes_bytes32 _ x hx
  · exact isBytes_bytes32 _ x hx

/-- The output of `Decrypt` on 8-byte buffers is an 8-byte slice. -/
theorem Decrypt_isBlock (c : kasumi) (s7 s9 dst b d : List Nat) (hb : b.length = 8)
    (hbytes : IsBytes b) (hd : dst.length = 8) (h : c.Decrypt s7 s9 dst b = some d) :
    d.length = 8 ∧ IsBytes d := by
  have hb8 : IsBytes (b.take 8) := fun x hx => hbytes x (List.mem_of_mem_take hx)
  rw [Decrypt_eq c s7 s9 dst b (by omega) (by omega) hb8] at h
  simp only [Option.map_eq_some'] at h
  obtain ⟨res, _, rfl⟩ := h
  have hd0 : dst.drop 8 = [] := by
    apply List.eq_nil_of_length_eq_zero; simp [hd]
  rw [hd0, List.append_nil]
  refine ⟨by simp [bytes32], ?_⟩
  intro x hx
  rcases List.mem_append.1 hx with hx | hx
  · exact isBytes_bytes32 _ x hx
  · exact isBytes_bytes32 _ x hx

/-- **C15** (Encrypt after Decrypt).  For every 16-byte key, every 8-byte block
`b` and 8-byte buffers, under the cipher of that key: whenever `Decrypt`
returns on `b`, `Encrypt` of its output returns `b`, and whenever `Encrypt`
returns on `b`, `Decrypt` of its output returns `b` (any tables).  With tables
in range both calls return on every 8-byte block and their outputs are 8-byte
blocks, so `Encrypt` and `Decrypt` are mutually inverse bijections of the
8-byte blocks. -/
theorem Encrypt_Decrypt_roundtrip (s7 s9 key b dst1 dst2 : List Nat)
    (hkey : key.length = 16) (hb : b.length = 8) (hbytes : IsBytes b)
    (h1 : dst1.length = 8) (h2 : dst2.length = 8) :
    ∃ c, NewCipher key = some (Except.ok c) ∧
      (∀ d1, c.Decrypt s7 s9 dst1 b = some d1 → c.Encrypt s7 s9 dst2 d1 = some b) ∧
      (∀ e1, c.Encrypt s7 s9 dst1 b = some e1 → c.Decrypt s7 s9 dst2 e1 = some b) ∧
      (TablesInRange s7 s9 →
        ∃ d1 e1, c.Decrypt s7 s9 dst1 b = some d1 ∧ d1.length = 8 ∧ IsBytes d1 ∧
          c.Encrypt s7 s9 dst2 d1 = some b ∧
          c.Encrypt s7 s9 dst1 b = some e1 ∧ e1.length = 8 ∧ IsBytes e1 ∧
          c.Decrypt s7 s9 dst2 e1 = some b) := by
  have hb8 : IsBytes (b.take 8) := fun x hx => hbytes x (List.mem_of_mem_take hx)
  refine ⟨scheduleOf key, NewCipherWithRounds_eq key 8 hkey,
    fun d1 h => Encrypt_Decrypt _ s7 s9 dst1 dst2 b d1 hb hbytes h1 h2 h,
    fun e1 h => Decrypt_Encrypt _ s7 s9 dst1 dst2 b e1 hb hbytes h1 h2 h, ?_⟩
  intro ht
  obtain ⟨d1, hd⟩ := Decrypt_total (scheduleOf key) s7 s9 dst1 b (scheduleOf_wellSized key)
    ht (by omega) (by omega) hb8
  obtain ⟨e1, he⟩ := Encrypt_total (scheduleOf key) s7 s9 dst1 b (scheduleOf_wellSized key)
    ht (by omega) (by omega) hb8
  obtain ⟨dl, db⟩ := Decrypt_isBlock _ s7 s9 dst1 b d1 hb hbytes h1 hd
  obtain ⟨el, eb⟩ := Encrypt_isBlock _ s7 s9 dst1 b e1 hb hbytes h1 he
  exact ⟨d1, e1, hd, dl, db, Encrypt_Decrypt _ s7 s9 dst1 dst2 b d1 hb hbytes h1 h2 hd,
    he, el, eb, Decrypt_Encrypt _ s7 s9 dst1 dst2 b e1 hb hbytes h1 h2 he⟩

set_option maxRecDepth 100000 in
/-- The round trip of **C15** at the key `20 00 … 00`, the block `01 02 … 08`
and the tables `S7`, `S9`. -/
theorem Encrypt_Decrypt_roundtrip_witness :
    ∃ c, NewCipher [0x20, 0, 0, 0, 0, 0, 0, 0, 0, 0, 0, 0, 0, 0, 0, 0] = some (Except.ok c) ∧
      ∃ d1, c.Decrypt S7 S9 [0, 0, 0, 0, 0, 0, 0, 0] [1, 2, 3, 4, 5, 6, 7, 8] = some d1 ∧
        c.Encrypt S7 S9 [0, 0, 0, 0, 0, 0, 0, 0] d1 = some [1, 2, 3, 4, 5, 6, 7, 8] := by
  obtain ⟨c, hc, _, _, h⟩ := Encrypt_Decrypt_roundtrip S7 S9
    [0x20, 0, 0, 0, 0, 0, 0, 0, 0, 0, 0, 0, 0, 0, 0, 0] [1, 2, 3, 4, 5, 6, 7, 8]
    [0, 0, 0, 0, 0, 0, 0, 0] [0, 0, 0, 0, 0, 0, 0, 0]
    (by decide) (by decide) (by decide) (by decide) (by decide)
  obtain ⟨d1, _, hd, _, _, he, _⟩ := h (by decide)
  exact ⟨c, hc, d1, hd, he⟩

/-! ## Claim C16: both loops make four iterations with round numbers 0 to 7 -/

theorem decBody_eq_spec (c : kasumi) (s7 s9 : List Nat) (j : Nat) (hj : j + 1 < 4294967296)
    (l r : Nat) :
    decBody c s7 s9 ((j : Int) + 1) l r =
      (spec_decIter c s7 s9 (l, r) (j + 1)).map fun p => ((j : Int) + 1 - 1 - 1, p.1, p.2) := by
  have u1 : uint32 ((j : Int) + 1) = j + 1 := by
    have := uint32_ofNat (j + 1) (by omega)
    simpa using this
  have u0 : uint32 ((j : Int) + 1 - 1) = j := by
    have := uint32_ofNat j (by omega)
    simpa using this
  simp only [decBody, spec_decIter, u0, u1, Option.bind_eq_bind, Option.pure_def,
    Nat.add_sub_cancel]
  cases c._FO s7 s9 r (j + 1) with
  | none => rfl
  | some t1 =>
    simp only [Option.some_bind]
    cases c._FL t1 (j + 1) with
    | none => rfl
    | some t2 =>
      simp only [Option.some_bind]
      cases c._FL (l ^^^ t2) j with
      | none => rfl
      | some t3 =>
        simp only [Option.some_bind]
        cases c._FO s7 s9 t3 j with
        | none => rfl
        | some t4 => rfl

theorem decLoop_step (c : kasumi) (s7 s9 : List Nat) (f j : Nat) (hj : j ≤ 3) (l r : Nat) :
    decLoop c s7 s9 (f + 1) (2 * (j : Int) + 1) l r =
      (spec_decIter c s7 s9 (l, r) (2 * j + 1)).bind fun p =>
        (decLoop c s7 s9 f (2 * (j : Int) - 1) p.1 p.2).map fun res =>
          (res.1, res.2.1, res.2.2 + 1) := by
  rw [decLoop_succ, if_pos (by omega)]
  have e : (2 * (j : Int) + 1) = ((2 * j : Nat) : Int) + 1 := by push_cast; ring
  rw [e, decBody_eq_spec c s7 s9 (2 * j) (by omega)]
  cases spec_decIter c s7 s9 (l, r) (2 * j + 1) with
  | none => rfl
  | some p =>
    have e2 : ((2 * j : Nat) : Int) + 1 - 1 - 1 = 2 * (j : Int) - 1 := by push_cast; ring
    simp only [Option.map_some', Option.some_bind, e2]
    cases decLoop c s7 s9 f (2 * (j : Int) - 1) p.1 p.2 with
    | none => rfl
    | some res => rfl

/-- For every iteration bound from 4 on, the loop of `Encrypt` is the iteration
of the spec over `n = 0, 2, 4, 6`, and it makes four iterations. -/
theorem encLoop_eq_spec_of_le (c : kasumi) (s7 s9 : List Nat) (f : Nat) (hf : 4 ≤ f)
    (l r : Nat) :
    encLoop c s7 s9 f 0 l r =
      ([0, 2, 4, 6].foldlM (spec_encIter c s7 s9) (l, r)).map fun p => (p.1, p.2, 4) := by
  obtain ⟨g, rfl⟩ : ∃ g, f = g + 3 + 1 := ⟨f - 4, by omega⟩
  have s0 := encLoop_step c s7 s9 (g + 3) 0 (by omega) l r
  have z : (2 : Int) * ((0 : Nat) : Int) = 0 := by norm_num
  rw [z] at s0
  rw [s0]
  simp only [List.foldlM, Option.bind_eq_bind, Nat.mul_zero]
  cases spec_encIter c s7 s9 (l, r) 0 with
  | none => rfl
  | some p0 =>
    simp only [Option.some_bind]
    rw [encLoop_step c s7 s9 (g + 2) 1 (by omega)]
    cases spec_encIter c s7 s9 p0 (2 * 1) with
    | none => rfl
    | some p1 =>
      simp only [Option.some_bind]
      rw [encLoop_step c s7 s9 (g + 1) 2 (by omega)]
      cases spec_encIter c s7 s9 p1 (2 * 2) with
      | none => rfl
      | some p2 =>
        simp only [Option.some_bind]
        rw [encLoop_step c s7 s9 g 3 (by omega)]
        cases spec_encIter c s7 s9 p2 (2 * 3) with
        | none => rfl
        | some p3 =>
          simp only [Option.some_bind]
          have e8 : (2 : Int) * ((3 + 1 : Nat) : Int) = 8 := by norm_num
          rw [e8, encLoop_big c s7 s9 g 8 (by norm_num)]
          rfl

/-- For every iteration bound from 4 on, the loop of `Decrypt` is the iteration
of the spec over `n = 7, 5, 3, 1`, and it makes four iterations. -/
theorem decLoop_eq_spec_of_le (c : kasumi) (s7 s9 : List Nat) (f : Nat) (hf : 4 ≤ f)
    (l r : Nat) :
    decLoop c s7 s9 f 7 l r =
      ([7, 5, 3, 1].foldlM (spec_decIter c s7 s9) (l, r)).map fun p => (p.1, p.2, 4) := by
  obtain ⟨g, rfl⟩ : ∃ g, f = g + 3 + 1 := ⟨f - 4, by omega⟩
  have s0 := decLoop_step c s7 s9 (g + 3) 3 (by omega) l r
  have z : (2 : Int) * ((3 : Nat) : Int) + 1 = 7 := by norm_num
  rw [z] at s0
  rw [s0]
  simp only [List.foldlM, Option.bind_eq_bind]
  cases spec_decIter c s7 s9 (l, r) (2 * 3 + 1) with
  | none => rfl
  | some p0 =>
    simp only [Option.some_bind]
    have z2 : (2 : Int) * ((3 : Nat) : Int) - 1 = 2 * ((2 : Nat) : Int) + 1 := by norm_num
    rw [z2, decLoop_step c s7 s9 (g + 2) 2 (by omega)]
    cases spec_decIter c s7 s9 p0 (2 * 2 + 1) with
    | none => rfl
    | some p1 =>
      simp only [Option.some_bind]
      have z1 : (2 : Int) * ((2 : Nat) : Int) - 1 = 2 * ((1 : Nat) : Int) + 1 := by norm_num
      rw [z1, decLoop_step c s7 s9 (g + 1) 1 (by omega)]
      cases spec_decIter c s7 s9 p1 (2 * 1 + 1) with
      | none => rfl
      | some p2 =>
        simp only [Option.some_bind]
        have z0 : (2 : Int) * ((1 : Nat) : Int) - 1 = 2 * ((0 : Nat) : Int) + 1 := by norm_num
        rw [z0, decLoop_step c s7 s9 g 0 (by omega)]
        cases spec_decIter c s7 s9 p2 (2 * 0 + 1) with
        | none => rfl
        | some p3 =>
          simp only [Option.some_bind]
          rw [decLoop_neg c s7 s9 g _ (by norm_num)]
          rfl

/-- **C16** (termination and round numbers).  For every cipher, any tables and
every iteration bound from 4 on, the loop of `Encrypt` started at `n = 0` is
the four iterations of the spec at `n = 0, 2, 4, 6`, which pass the round
numbers `n` and `n + 1`, and the loop of `Decrypt` started at `n = 7` is the
four iterations at `n = 7, 5, 3, 1`, which pass `n` and `n - 1`: every round
number passed to `_FL` and `_FO` is in `0..7` and the counter of `Decrypt` is
converted to `uint32` only while it is at least 0.  A loop that finishes has
made exactly 4 iterations.  When the round-key arrays have eight entries and
the tables are in range both loops finish, so no array is indexed out of
bounds, and `Encrypt` and `Decrypt` return on all buffers of at least 8 bytes. -/
theorem loops_four_iterations (c : kasumi) (s7 s9 : List Nat) (f : Nat) (hf : 4 ≤ f)
    (l r : Nat) :
    encLoop c s7 s9 f 0 l r =
      (([0, 2, 4, 6].foldlM (spec_encIter c s7 s9) (l, r)).map fun p => (p.1, p.2, 4)) ∧
    decLoop c s7 s9 f 7 l r =
      (([7, 5, 3, 1].foldlM (spec_decIter c s7 s9) (l, r)).map fun p => (p.1, p.2, 4)) ∧
    (∀ res, encLoop c s7 s9 f 0 l r = some res ∨ decLoop c s7 s9 f 7 l r = some res →
      res.2.2 = 4) ∧
    (c.WellSized → TablesInRange s7 s9 →
      (∃ le re, encLoop c s7 s9 f 0 l r = some (le, re, 4)) ∧
      (∃ ld rd, decLoop c s7 s9 f 7 l r = some (ld, rd, 4)) ∧
      ∀ dst src : List Nat, 8 ≤ dst.length → 8 ≤ src.length → IsBytes (src.take 8) →
        ∃ d1 d2, c.Encrypt s7 s9 dst src = some d1 ∧ c.Decrypt s7 s9 dst src = some d2) := by
  have he := encLoop_eq_spec_of_le c s7 s9 f hf l r
  have hd := decLoop_eq_spec_of_le c s7 s9 f hf l r
  refine ⟨he, hd, ?_, ?_⟩
  · intro res h
    rcases h with h | h
    · rw [he] at h
      simp only [Option.map_eq_some'] at h
      obtain ⟨p, _, rfl⟩ := h
      rfl
    · rw [hd] at h
      simp only [Option.map_eq_some'] at h
      obtain ⟨p, _, rfl⟩ := h
      rfl
  · intro hc ht
    refine ⟨?_, ?_, ?_⟩
    · obtain ⟨le, re, h⟩ := encLoop_total c s7 s9 hc ht f 0 l r (by omega) (by omega)
      exact ⟨le, re, by simpa using h⟩
    · obtain ⟨ld, rd, h⟩ := decLoop_total c s7 s9 hc ht f 4 l r (by omega) hf
      have e : (2 : Int) * ((4 : Nat) : Int) - 1 = 7 := by norm_num
      rw [e] at h
      exact ⟨ld, rd, h⟩
    · intro dst src h1 h2 hb
      obtain ⟨d1, e1⟩ := Encrypt_total c s7 s9 dst src hc ht h1 h2 hb
      obtain ⟨d2, e2⟩ := Decrypt_total c s7 s9 dst src hc ht h1 h2 hb
      exact ⟨d1, d2, e1, e2⟩

set_option maxRecDepth 100000 in
/-- The statement of **C16** for the cipher of the key `20 00 … 00`, the tables
`S7`, `S9` and the iteration bound 4: both loops finish after 4 iterations. -/
theorem loops_four_iterations_witness :
    (∃ le re, encLoop (scheduleOf [0x20, 0, 0, 0, 0, 0, 0, 0, 0, 0, 0, 0, 0, 0, 0, 0]) S7 S9
        4 0 0 0 = some (le, re, 4)) ∧
    (∃ ld rd, decLoop (scheduleOf [0x20, 0, 0, 0, 0, 0, 0, 0, 0, 0, 0, 0, 0, 0, 0, 0]) S7 S9
        4 7 0 0 = some (ld, rd, 4)) := by
  obtain ⟨h1, h2, _⟩ := (loops_four_iterations
    (scheduleOf [0x20, 0, 0, 0, 0, 0, 0, 0, 0, 0, 0, 0, 0, 0, 0, 0]) S7 S9 4 (by decide)
    0 0).2.2.2 (by decide) (by decide)
  exact ⟨h1, h2⟩

/-! ## Claim C17: the look-ups of FI stay inside the tables -/

/-- **C17** (table look-ups of FI).  When `s7` has 128 entries below 128 and
`s9` has 512 entries below 512, then for every input and every 16-bit subkey
the four look-ups of `_FI` are in range: the first index into `s9` is below
512 and the first index into `s7` below 128, and so are the two indices used
after the subkey is mixed in; all four look-ups succeed and `_FI` returns. -/
theorem _FI_lookups_in_range (s7 s9 : List Nat) (input subkey : Nat)
    (ht : TablesInRange s7 s9) (hk : subkey < 65536) :
    ∃ a b c d,
      (input >>> 7) &&& 0x1FF < 512 ∧ s9[(input >>> 7) &&& 0x1FF]? = some a ∧
      input &&& 0x7F < 128 ∧ s7[input &&& 0x7F]? = some b ∧
      (a ^^^ (input &&& 0x7F)) ^^^ (subkey &&& 0x1FF) < 512 ∧
      s9[(a ^^^ (input &&& 0x7F)) ^^^ (subkey &&& 0x1FF)]? = some c ∧
      (b ^^^ ((a ^^^ (input &&& 0x7F)) &&& 0x7F)) ^^^ (subkey >>> 9) < 128 ∧
      s7[(b ^^^ ((a ^^^ (input &&& 0x7F)) &&& 0x7F)) ^^^ (subkey >>> 9)]? = some d ∧
      _FI s7 s9 input subkey = some
        ((((d ^^^ ((c ^^^ ((b ^^^ ((a ^^^ (input &&& 0x7F)) &&& 0x7F)) ^^^ (subkey >>> 9)))
            &&& 0x7F)) <<< 9) % 65536
          + (c ^^^ ((b ^^^ ((a ^^^ (input &&& 0x7F)) &&& 0x7F)) ^^^ (subkey >>> 9))))
          % 65536) := by
  obtain ⟨h7, h9, b7, b9⟩ := ht
  have i1 : (input >>> 7) &&& 0x1FF < 2 ^ 9 := Nat.and_lt_two_pow _ (by norm_num)
  obtain ⟨a, ha, la⟩ := lookup_some s9 512 (2 ^ 9) h9 b9 _ i1
  have i2 : input &&& 0x7F < 2 ^ 7 := Nat.and_lt_two_pow _ (by norm_num)
  obtain ⟨b, hb, lb⟩ := lookup_some s7 128 (2 ^ 7) h7 b7 _ i2
  have n1 : a ^^^ (input &&& 0x7F) < 2 ^ 9 :=
    Nat.xor_lt_two_pow la (lt_of_lt_of_le i2 (by norm_num))
  have s1 : b ^^^ ((a ^^^ (input &&& 0x7F)) &&& 0x7F) < 2 ^ 7 :=
    Nat.xor_lt_two_pow lb (Nat.and_lt_two_pow _ (by norm_num))
  have k9 : subkey >>> 9 < 2 ^ 7 := by
    rw [Nat.shiftRight_eq_div_pow]; norm_num; omega
  have s2 : b ^^^ ((a ^^^ (input &&& 0x7F)) &&& 0x7F) ^^^ (subkey >>> 9) < 2 ^ 7 :=
    Nat.xor_lt_two_pow s1 k9
  have n2 : a ^^^ (input &&& 0x7F) ^^^ (subkey &&& 0x1FF) < 2 ^ 9 :=
    Nat.xor_lt_two_pow n1 (Nat.and_lt_two_pow _ (by norm_num))
  obtain ⟨c, hc, _⟩ := lookup_some s9 512 (2 ^ 9) h9 b9 _ n2
  obtain ⟨d, hd, _⟩ := lookup_some s7 128 (2 ^ 7) h7 b7 _ s2
  refine ⟨a, b, c, d, i1, ha, i2, hb, n2, hc, s2, hd, ?_⟩
  simp only [_FI, Option.bind_eq_bind, ha, hb, hc, hd, Option.some_bind, Option.pure_def]

set_option maxRecDepth 100000 in
/-- The look-ups of **C17** for the tables `S7`, `S9`, the input `0xFFFF` and
the subkey `0xFFFF`: `_FI` returns. -/
theorem _FI_lookups_in_range_witness : ∃ r, _FI S7 S9 0xFFFF 0xFFFF = some r := by
  obtain ⟨a, b, c, d, _, _, _, _, _, _, _, _, h⟩ :=
    _FI_lookups_in_range S7 S9 0xFFFF 0xFFFF (by decide) (by decide)
  exact ⟨_, h⟩

/-! ## Claim C14: the round keys are 16-bit values and are never written -/

theorem _ROL16_lt (x c : Nat) (hx : x < 65536) (hc : c ≤ 16) : _ROL16 x c < 65536 := by
  rw [_ROL16_eq_rotl16 x c hx hc]; exact rotl16_lt x c hx hc

theorem ukeyOf_lt (key : List Nat) (h : IsBytes key) (i : Nat) : ukeyOf key i < 65536 := by
  rw [ukeyOf_eq_spec key h i]; exact spec_ukey_lt key h i

theorem kprimeOf_lt (key : List Nat) (h : IsBytes key) (i : Nat) : kprimeOf key i < 65536 := by
  unfold kprimeOf
  have p : (65536 : Nat) = 2 ^ 16 := by norm_num
  have hu := ukeyOf_lt key h i
  have hs : [0x0123, 0x4567, 0x89AB, 0xCDEF, 0xFEDC, 0xBA98, 0x7654, 0x3210].getD i 0
      < 65536 := getD_lt _ 65536 (by decide) (by norm_num) i
  rw [p] at hu hs ⊢
  exact Nat.xor_lt_two_pow hu hs

/-- Every round key of the cipher of a 16-byte key fits in 16 bits. -/
theorem scheduleOf_lt (key : List Nat) (h : IsBytes key) (x : Nat)
    (hx : x ∈ (scheduleOf key).kli1 ∨ x ∈ (scheduleOf key).kli2 ∨ x ∈ (scheduleOf key).koi1 ∨
      x ∈ (scheduleOf key).koi2 ∨ x ∈ (scheduleOf key).koi3 ∨ x ∈ (scheduleOf key).kii1 ∨
      x ∈ (scheduleOf key).kii2 ∨ x ∈ (scheduleOf key).kii3) : x < 65536 := by
  have hu := ukeyOf_lt key h
  have hp := kprimeOf_lt key h
  simp only [scheduleOf, List.mem_map] at hx
  rcases hx with ⟨n, _, rfl⟩ | ⟨n, _, rfl⟩ | ⟨n, _, rfl⟩ | ⟨n, _, rfl⟩ | ⟨n, _, rfl⟩ |
    ⟨n, _, rfl⟩ | ⟨n, _, rfl⟩ | ⟨n, _, rfl⟩
  · exact _ROL16_lt _ 1 (hu _) (by norm_num)
  · exact hp _
  · exact _ROL16_lt _ 5 (hu _) (by norm_num)
  · exact _ROL16_lt _ 8 (hu _) (by norm_num)
  · exact _ROL16_lt _ 13 (hu _) (by norm_num)
  · exact hp _
  · exact hp _
  · exact hp _

/-- **C14** (round keys are 16-bit and never written).  For every 16-byte key,
each of the eight round-key arrays of the cipher built by `NewCipher` has
eight entries, every entry is below `2^16`, so the conversion `uint16` applied
to it in `_FO` and `_FL` returns it unchanged; and a call of `Encrypt` or
`Decrypt` leaves the cipher, hence all eight arrays, as it was. -/
theorem roundKeys_16bit (key : List Nat) (hkey : key.length = 16) (hbytes : IsBytes key) :
    ∃ c, NewCipher key = some (Except.ok c) ∧ c.WellSized ∧
      (∀ x, (x ∈ c.kli1 ∨ x ∈ c.kli2 ∨ x ∈ c.koi1 ∨ x ∈ c.koi2 ∨ x ∈ c.koi3 ∨
          x ∈ c.kii1 ∨ x ∈ c.kii2 ∨ x ∈ c.kii3) → x < 2 ^ 16 ∧ uint16 x = x) ∧
      (∀ s7 s9 dst src st, (c.EncryptCall s7 s9 dst src = some st ∨
          c.DecryptCall s7 s9 dst src = some st) →
        st.1.kli1 = c.kli1 ∧ st.1.kli2 = c.kli2 ∧ st.1.koi1 = c.koi1 ∧ st.1.koi2 = c.koi2 ∧
        st.1.koi3 = c.koi3 ∧ st.1.kii1 = c.kii1 ∧ st.1.kii2 = c.kii2 ∧
        st.1.kii3 = c.kii3) := by
  refine ⟨scheduleOf key, NewCipherWithRounds_eq key 8 hkey, scheduleOf_wellSized key, ?_, ?_⟩
  · intro x hx
    have h := scheduleOf_lt key hbytes x hx
    exact ⟨h, Nat.mod_eq_of_lt h⟩
  · intro s7 s9 dst src st h
    rcases h with h | h
    · simp only [kasumi.EncryptCall, Option.map_eq_some'] at h
      obtain ⟨d, _, rfl⟩ := h
      exact ⟨rfl, rfl, rfl, rfl, rfl, rfl, rfl, rfl⟩
    · simp only [kasumi.DecryptCall, Option.map_eq_some'] at h
      obtain ⟨d, _, rfl⟩ := h
      exact ⟨rfl, rfl, rfl, rfl, rfl, rfl, rfl, rfl⟩

/-- The statement of **C14** at the key `FF FF … FF`. -/
theorem roundKeys_16bit_witness :
    ∃ c, NewCipher (List.replicate 16 0xFF) = some (Except.ok c) ∧ c.WellSized ∧
      (∀ x, (x ∈ c.kli1 ∨ x ∈ c.kli2 ∨ x ∈ c.koi1 ∨ x ∈ c.koi2 ∨ x ∈ c.koi3 ∨
          x ∈ c.kii1 ∨ x ∈ c.kii2 ∨ x ∈ c.kii3) → x < 2 ^ 16 ∧ uint16 x = x) ∧
      (∀ s7 s9 dst src st, (c.EncryptCall s7 s9 dst src = some st ∨
          c.DecryptCall s7 s9 dst src = some st) →
        st.1.kli1 = c.kli1 ∧ st.1.kli2 = c.kli2 ∧ st.1.koi1 = c.koi1 ∧ st.1.koi2 = c.koi2 ∧
        st.1.koi3 = c.koi3 ∧ st.1.kii1 = c.kii1 ∧ st.1.kii2 = c.kii2 ∧
        st.1.kii3 = c.kii3) :=
  roundKeys_16bit (List.replicate 16 0xFF) (by decide) (by decide)

/-! ## Claim C11: FO refines the spec -/

theorem _FI_lt (s7 s9 : List Nat) (x k r : Nat) (h : _FI s7 s9 x k = some r) : r < 65536 := by
  simp only [_FI, Option.bind_eq_bind, Option.bind_eq_some, Option.pure_def,
    Option.some.injEq] at h
  obtain ⟨_, _, _, _, _, _, _, _, rfl⟩ := h
  exact Nat.mod_lt _ (by norm_num)

theorem xor_lt_16 (a b : Nat) (ha : a < 65536) (hb : b < 65536) : a ^^^ b < 65536 := by
  have h : (65536 : Nat) = 2 ^ 16 := by norm_num
  rw [h] at ha hb ⊢
  exact Nat.xor_lt_two_pow ha hb

/-- Two 16-bit halves combined by the code's shift and `+` in `uint32`, by
`|`, and by arithmetic, all agree. -/
theorem combine32 (hi lo : Nat) (hhi : hi < 65536) (hlo : lo < 65536) :
    ((hi <<< 16) % 4294967296 + lo) % 4294967296 = hi <<< 16 ||| lo ∧
    hi <<< 16 ||| lo = hi * 65536 + lo := by
  have e : hi <<< 16 ||| lo = hi * 65536 + lo := by
    rw [Nat.lor_comm, or_shiftLeft_eq_add lo hi 16 65536 (by norm_num) hlo, Nat.add_comm]
  have m : (hi <<< 16) % 4294967296 = hi * 65536 := by
    rw [shiftLeft_mod_of_lt hi 16 65536 4294967296 (by norm_num) (by omega), Nat.shiftLeft_eq]
  refine ⟨?_, e⟩
  rw [e, m]
  exact Nat.mod_eq_of_lt (by omega)

theorem and_ffff (x : Nat) : x &&& 0xFFFF = x % 65536 := by
  have e : (0xFFFF : Nat) = 2 ^ 16 - 1 := by norm_num
  rw [e, Nat.and_pow_two_sub_one_eq_mod]

theorem hi16_lt (x : Nat) (hx : x < 4294967296) : x >>> 16 < 65536 := by
  rw [Nat.shiftRight_eq_div_pow]
  have : (2 : Nat) ^ 16 = 65536 := by norm_num
  omega

theorem key_entry (c : kasumi) (hk : c.Keys16) (t : List Nat) (hlen : t.length = 8)
    (hmem : ∀ x, x ∈ t → x ∈ c.kli1 ∨ x ∈ c.kli2 ∨ x ∈ c.koi1 ∨ x ∈ c.koi2 ∨ x ∈ c.koi3 ∨
      x ∈ c.kii1 ∨ x ∈ c.kii2 ∨ x ∈ c.kii3) (n : Nat) (hn : n < 8) :
    t[n]? = some (t.getD n 0) ∧ uint16 (t.getD n 0) = t.getD n 0 ∧ t.getD n 0 < 65536 := by
  obtain ⟨v, hv⟩ := idx_some t hlen n hn
  have hlt : v < 65536 := hk v (hmem v (List.getElem?_mem hv))
  rw [getD_of_getElem? t n v hv]
  exact ⟨hv, Nat.mod_eq_of_lt hlt, hlt⟩

theorem _FO_eq_spec (c : kasumi) (s7 s9 : List Nat) (hc : c.WellSized) (hk : c.Keys16)
    (x n : Nat) (hx : x < 4294967296) (hn : n < 8) :
    c._FO s7 s9 x n = spec_FO c s7 s9 x n := by
  obtain ⟨_, o1, i1, _, o2, i2, o3, i3⟩ := hc
  obtain ⟨a1, u1, _⟩ := key_entry c hk c.koi1 o1
    (fun x h => Or.inr (Or.inr (Or.inl h))) n hn
  obtain ⟨b1, v1, _⟩ := key_entry c hk c.kii1 i1
    (fun x h => Or.inr (Or.inr (Or.inr (Or.inr (Or.inr (Or.inl h)))))) n hn
  obtain ⟨a2, u2, _⟩ := key_entry c hk c.koi2 o2
    (fun x h => Or.inr (Or.inr (Or.inr (Or.inl h)))) n hn
  obtain ⟨b2, v2, _⟩ := key_entry c hk c.kii2 i2
    (fun x h => Or.inr (Or.inr (Or.inr (Or.inr (Or.inr (Or.inr (Or.inl h))))))) n hn
  obtain ⟨a3, u3, _⟩ := key_entry c hk c.koi3 o3
    (fun x h => Or.inr (Or.inr (Or.inr (Or.inr (Or.inl h))))) n hn
  obtain ⟨b3, v3, _⟩ := key_entry c hk c.kii3 i3
    (fun x h => Or.inr (Or.inr (Or.inr (Or.inr (Or.inr (Or.inr (Or.inr h))))))) n hn
  have hhi : uint16 (x >>> 16) = x >>> 16 := Nat.mod_eq_of_lt (hi16_lt x hx)
  have hlo : x &&& 0xFFFF < 65536 := by rw [and_ffff]; exact Nat.mod_lt _ (by norm_num)
  have hlo' : uint16 (x &&& 0xFFFF) = x &&& 0xFFFF := Nat.mod_eq_of_lt hlo
  simp only [kasumi._FO, spec_FO, spec_FO_parts, Option.bind_eq_bind, Option.pure_def,
    a1, b1, a2, b2, a3, b3, u1, v1, u2, v2, u3, v3, hhi, hlo', Option.some_bind]
  cases h1 : _FI s7 s9 (x >>> 16 ^^^ c.koi1.getD n 0) (c.kii1.getD n 0) with
  | none => rfl
  | some t1 =>
    simp only [Option.some_bind]
    cases h2 : _FI s7 s9 (x &&& 0xFFFF ^^^ c.koi2.getD n 0) (c.kii2.getD n 0) with
    | none => rfl
    | some t2 =>
      simp only [Option.some_bind]
      cases h3 : _FI s7 s9 (t1 ^^^ (x &&& 0xFFFF) ^^^ c.koi3.getD n 0) (c.kii3.getD n 0) with
      | none => rfl
      | some t3 =>
        simp only [Option.some_bind, Option.map_some', Option.some.injEq]
        have l1 := xor_lt_16 _ _ (_FI_lt _ _ _ _ _ h1) hlo
        have r2 := xor_lt_16 _ _ (_FI_lt _ _ _ _ _ h2) l1
        have l3 := xor_lt_16 _ _ (_FI_lt _ _ _ _ _ h3) r2
        exact (combine32 _ _ r2 l3).1

theorem scheduleOf_keys16 (key : List Nat) (h : IsBytes key) : (scheduleOf key).Keys16 :=
  fun x hx => scheduleOf_lt key h x hx

theorem spec_FO_parts_lt (c : kasumi) (s7 s9 : List Nat) (x n : Nat) (p : Nat × Nat)
    (h : spec_FO_parts c s7 s9 x n = some p) : p.1 < 65536 ∧ p.2 < 65536 := by
  simp only [spec_FO_parts, Option.bind_eq_bind, Option.bind_eq_some, Option.pure_def,
    Option.some.injEq] at h
  obtain ⟨t1, h1, t2, h2, t3, h3, rfl⟩ := h
  have hlo : x &&& 0xFFFF < 65536 := by rw [and_ffff]; exact Nat.mod_lt _ (by norm_num)
  have l1 := xor_lt_16 _ _ (_FI_lt _ _ _ _ _ h1) hlo
  have r2 := xor_lt_16 _ _ (_FI_lt _ _ _ _ _ h2) l1
  exact ⟨xor_lt_16 _ _ (_FI_lt _ _ _ _ _ h3) r2, r2⟩

theorem spec_FO_parts_total (c : kasumi) (s7 s9 : List Nat) (hk : c.Keys16) (hc : c.WellSized)
    (ht : TablesInRange s7 s9) (x n : Nat) (hn : n < 8) :
    ∃ p, spec_FO_parts c s7 s9 x n = some p := by
  obtain ⟨_, o1, i1, _, o2, i2, o3, i3⟩ := hc
  obtain ⟨_, _, k1⟩ := key_entry c hk c.kii1 i1
    (fun x h => Or.inr (Or.inr (Or.inr (Or.inr (Or.inr (Or.inl h)))))) n hn
  obtain ⟨_, _, k2⟩ := key_entry c hk c.kii2 i2
    (fun x h => Or.inr (Or.inr (Or.inr (Or.inr (Or.inr (Or.inr (Or.inl h))))))) n hn
  obtain ⟨_, _, k3⟩ := key_entry c hk c.kii3 i3
    (fun x h => Or.inr (Or.inr (Or.inr (Or.inr (Or.inr (Or.inr (Or.inr h))))))) n hn
  simp only [spec_FO_parts, Option.bind_eq_bind, Option.pure_def]
  obtain ⟨t1, h1⟩ := _FI_total s7 s9 ht (x >>> 16 ^^^ c.koi1.getD n 0) _ k1
  simp only [h1, Option.some_bind]
  obtain ⟨t2, h2⟩ := _FI_total s7 s9 ht (x &&& 0xFFFF ^^^ c.koi2.getD n 0) _ k2
  simp only [h2, Option.some_bind]
  obtain ⟨t3, h3⟩ := _FI_total s7 s9 ht (t1 ^^^ (x &&& 0xFFFF) ^^^ c.koi3.getD n 0) _ k3
  simp only [h3, Option.some_bind]
  exact ⟨_, rfl⟩

/-- **C11** (FO).  For every 16-byte key, every 32-bit input and every round
`n` in `0..7`, `_FO` under the cipher of that key is the spec's reference:
`left`, `right` the high and low 16 bits, the three FI stages through
`KO1/KI1`, `KO2/KI2`, `KO3/KI3`, and the result `(right<<16) | left`.  The
final halves are 16-bit values, so the code's `+` agrees with `|`: the final
`right` is the high half of the result and the final `left` the low half.
With tables in range `_FO` returns. -/
theorem _FO_refines_spec (s7 s9 key : List Nat) (input n : Nat) (hkey : key.length = 16)
    (hbytes : IsBytes key) (hin : input < 2 ^ 32) (hn : n < 8) :
    ∃ c, NewCipher key = some (Except.ok c) ∧
      c._FO s7 s9 input n = spec_FO c s7 s9 input n ∧
      (∀ p, spec_FO_parts c s7 s9 input n = some p →
        p.1 < 2 ^ 16 ∧ p.2 < 2 ^ 16 ∧
        c._FO s7 s9 input n = some ((p.2 <<< 16) ||| p.1) ∧
        (p.2 <<< 16) ||| p.1 = (p.2 <<< 16) + p.1 ∧
        ((p.2 <<< 16) ||| p.1) >>> 16 = p.2 ∧ ((p.2 <<< 16) ||| p.1) &&& 0xFFFF = p.1) ∧
      (TablesInRange s7 s9 → ∃ p, spec_FO_parts c s7 s9 input n = some p) := by
  have heq := _FO_eq_spec (scheduleOf key) s7 s9 (scheduleOf_wellSized key)
    (scheduleOf_keys16 key hbytes) input n hin hn
  refine ⟨scheduleOf key, NewCipherWithRounds_eq key 8 hkey, heq, ?_, ?_⟩
  · intro p hp
    obtain ⟨h1, h2⟩ := spec_FO_parts_lt _ s7 s9 input n p hp
    obtain ⟨_, e⟩ := combine32 p.2 p.1 h2 h1
    have hs : p.2 <<< 16 = p.2 * 65536 := by rw [Nat.shiftLeft_eq]
    refine ⟨h1, h2, ?_, ?_, ?_, ?_⟩
    · rw [heq]; simp only [spec_FO, hp, Option.map_some']
    · rw [e, hs]
    · rw [e, Nat.shiftRight_eq_div_pow]
      have : (2 : Nat) ^ 16 = 65536 := by norm_num
      omega
    · rw [e, and_ffff]
      omega
  · intro ht
    exact spec_FO_parts_total _ s7 s9 (scheduleOf_keys16 key hbytes) (scheduleOf_wellSized key)
      ht input n hn

set_option maxRecDepth 100000 in
/-- The statement of **C11** at the key `20 00 … 00`, the input `0x12345678`,
round 3 and the tables `S7`, `S9`. -/
theorem _FO_refines_spec_witness :
    ∃ c, NewCipher [0x20, 0, 0, 0, 0, 0, 0, 0, 0, 0, 0, 0, 0, 0, 0, 0] = some (Except.ok c) ∧
      c._FO S7 S9 0x12345678 3 = spec_FO c S7 S9 0x12345678 3 ∧
      ∃ p, spec_FO_parts c S7 S9 0x12345678 3 = some p := by
  obtain ⟨c, hc, he, _, ht⟩ := _FO_refines_spec S7 S9
    [0x20, 0, 0, 0, 0, 0, 0, 0, 0, 0, 0, 0, 0, 0, 0, 0] 0x12345678 3
    (by decide) (by decide) (by norm_num) (by decide)
  exact ⟨c, hc, he, ht (by decide)⟩

/-! ## Claims C12 and C18: FL refines the spec and is a bijection -/

theorem and_lt_16 (a b : Nat) (ha : a < 65536) : a &&& b < 65536 :=
  lt_of_le_of_lt Nat.and_le_left ha

theorem or_lt_16 (a b : Nat) (ha : a < 65536) (hb : b < 65536) : a ||| b < 65536 := by
  have h : (65536 : Nat) = 2 ^ 16 := by norm_num
  rw [h] at ha hb ⊢
  exact Nat.or_lt_two_pow ha hb

theorem lo16_lt (x : Nat) : x &&& 0xFFFF < 65536 := by
  rw [and_ffff]; exact Nat.mod_lt _ (by norm_num)

/-- The halves of the combination of two 16-bit values are those values. -/
theorem halves_combine (hi lo : Nat) (hhi : hi < 65536) (hlo : lo < 65536) :
    (hi <<< 16 ||| lo) >>> 16 = hi ∧ (hi <<< 16 ||| lo) &&& 0xFFFF = lo ∧
    hi <<< 16 ||| lo < 4294967296 := by
  obtain ⟨_, e⟩ := combine32 hi lo hhi hlo
  rw [e, and_ffff, Nat.shiftRight_eq_div_pow]
  have : (2 : Nat) ^ 16 = 65536 := by norm_num
  omega

/-- A 32-bit value is the combination of its halves. -/
theorem combine_halves (x : Nat) (hx : x < 4294967296) :
    (x >>> 16) <<< 16 ||| (x &&& 0xFFFF) = x := by
  obtain ⟨_, e⟩ := combine32 (x >>> 16) (x &&& 0xFFFF) (hi16_lt x hx) (lo16_lt x)
  rw [e, and_ffff, Nat.shiftRight_eq_div_pow]
  have : (2 : Nat) ^ 16 = 65536 := by norm_num
  omega

theorem spec_FL_parts_lt (c : kasumi) (x n : Nat) (hx : x < 4294967296)
    (h2 : c.kli2.getD n 0 < 65536) :
    (spec_FL_parts c x n).1 < 65536 ∧ (spec_FL_parts c x n).2 < 65536 := by
  have hl := hi16_lt x hx
  have hr := lo16_lt x
  have r1 : (x &&& 0xFFFF) ^^^ rotl16 (x >>> 16 &&& c.kli1.getD n 0) 1 < 65536 :=
    xor_lt_16 _ _ hr (rotl16_lt _ 1 (and_lt_16 _ _ hl) (by norm_num))
  exact ⟨xor_lt_16 _ _ hl (rotl16_lt _ 1 (or_lt_16 _ _ r1 h2) (by norm_num)), r1⟩

theorem _FL_eq_spec (c : kasumi) (hc : c.WellSized) (hk : c.Keys16) (x n : Nat)
    (hx : x < 4294967296) (hn : n < 8) : c._FL x n = some (spec_FL c x n) := by
  obtain ⟨l1, _, _, l2, _, _, _, _⟩ := hc
  obtain ⟨a1, u1, _⟩ := key_entry c hk c.kli1 l1 (fun x h => Or.inl h) n hn
  obtain ⟨a2, u2, k2⟩ := key_entry c hk c.kli2 l2 (fun x h => Or.inr (Or.inl h)) n hn
  have hl := hi16_lt x hx
  have hr := lo16_lt x
  have hhi : uint16 (x >>> 16) = x >>> 16 := Nat.mod_eq_of_lt hl
  have hlo : uint16 x &&& 0xFFFF = x &&& 0xFFFF := by
    rw [and_ffff, and_ffff]; exact Nat.mod_mod _ _
  have ra : _ROL16 (x >>> 16 &&& c.kli1.getD n 0) 1
      = rotl16 (x >>> 16 &&& c.kli1.getD n 0) 1 :=
    _ROL16_eq_rotl16 _ 1 (and_lt_16 _ _ hl) (by norm_num)
  have r1 : (x &&& 0xFFFF) ^^^ rotl16 (x >>> 16 &&& c.kli1.getD n 0) 1 < 65536 :=
    xor_lt_16 _ _ hr (rotl16_lt _ 1 (and_lt_16 _ _ hl) (by norm_num))
  have rb : _ROL16 ((x &&& 0xFFFF) ^^^ rotl16 (x >>> 16 &&& c.kli1.getD n 0) 1
      ||| c.kli2.getD n 0) 1
      = rotl16 ((x &&& 0xFFFF) ^^^ rotl16 (x >>> 16 &&& c.kli1.getD n 0) 1
        ||| c.kli2.getD n 0) 1 :=
    _ROL16_eq_rotl16 _ 1 (or_lt_16 _ _ r1 k2) (by norm_num)
  obtain ⟨p1, p2⟩ := spec_FL_parts_lt c x n hx k2
  simp only [kasumi._FL, Option.bind_eq_bind, Option.pure_def, a1, a2, u1, u2, hhi, hlo,
    Option.some_bind, ra, rb, Option.some.injEq]
  exact (combine32 _ _ p1 p2).1

/-- FL has the inverse `spec_FL_inv` on 32-bit values, on both sides. -/
theorem spec_FL_inv_FL (c : kasumi) (x n : Nat) (hx : x < 4294967296)
    (h2 : c.kli2.getD n 0 < 65536) : spec_FL_inv c (spec_FL c x n) n = x := by
  obtain ⟨p1, p2⟩ := spec_FL_parts_lt c x n hx h2
  obtain ⟨e1, e2, _⟩ := halves_combine _ _ p1 p2
  unfold spec_FL_inv spec_FL
  simp only [e1, e2]
  simp only [spec_FL_parts, Nat.xor_cancel_right]
  exact combine_halves x hx

theorem spec_FL_inv_lt (c : kasumi) (y n : Nat) (hy : y < 4294967296)
    (h2 : c.kli2.getD n 0 < 65536) :
    (y >>> 16) ^^^ rotl16 ((y &&& 0xFFFF) ||| c.kli2.getD n 0) 1 < 65536 ∧
    (y &&& 0xFFFF) ^^^ rotl16 (((y >>> 16) ^^^ rotl16 ((y &&& 0xFFFF) ||| c.kli2.getD n 0) 1)
      &&& c.kli1.getD n 0) 1 < 65536 := by
  have hl := hi16_lt y hy
  have hr := lo16_lt y
  have l1 : (y >>> 16) ^^^ rotl16 ((y &&& 0xFFFF) ||| c.kli2.getD n 0) 1 < 65536 :=
    xor_lt_16 _ _ hl (rotl16_lt _ 1 (or_lt_16 _ _ hr h2) (by norm_num))
  exact ⟨l1, xor_lt_16 _ _ hr (rotl16_lt _ 1 (and_lt_16 _ _ l1) (by norm_num))⟩

theorem spec_FL_FL_inv (c : kasumi) (y n : Nat) (hy : y < 4294967296)
    (h2 : c.kli2.getD n 0 < 65536) :
    spec_FL_inv c y n < 4294967296 ∧ spec_FL c (spec_FL_inv c y n) n = y := by
  obtain ⟨q1, q2⟩ := spec_FL_inv_lt c y n hy h2
  obtain ⟨e1, e2, e3⟩ := halves_combine _ _ q1 q2
  refine ⟨e3, ?_⟩
  unfold spec_FL spec_FL_parts spec_FL_inv
  simp only [e1, e2, Nat.xor_cancel_right]
  exact combine_halves y hy

theorem scheduleOf_kli2_lt (key : List Nat) (h : IsBytes key) (n : Nat) :
    (scheduleOf key).kli2.getD n 0 < 65536 :=
  getD_lt _ 65536 (fun x hx => scheduleOf_lt key h x (Or.inr (Or.inl hx))) (by norm_num) n

/-- **C12** (FL).  For every 16-byte key, every 32-bit input and every round `n`
in `0..7`, `_FL` under the cipher of that key returns the spec's reference:
with `l`, `r` the high and low 16 bits, `r' = r ^ rotl16(l & KL1[n], 1)`,
`l' = l ^ rotl16(r' | KL2[n], 1)`, and the result `(l'<<16) | r'`, whose high and
low halves are `l'` and `r'`. -/
theorem _FL_refines_spec (key : List Nat) (input n : Nat) (hkey : key.length = 16)
    (hbytes : IsBytes key) (hin : input < 2 ^ 32) (hn : n < 8) :
    ∃ c, NewCipher key = some (Except.ok c) ∧
      c._FL input n = some (spec_FL c input n) ∧
      (spec_FL_parts c input n).1 < 2 ^ 16 ∧ (spec_FL_parts c input n).2 < 2 ^ 16 ∧
      spec_FL c input n
        = ((spec_FL_parts c input n).1 <<< 16) + (spec_FL_parts c input n).2 ∧
      spec_FL c input n >>> 16 = (spec_FL_parts c input n).1 ∧
      spec_FL c input n &&& 0xFFFF = (spec_FL_parts c input n).2 := by
  have h2 := scheduleOf_kli2_lt key hbytes n
  obtain ⟨p1, p2⟩ := spec_FL_parts_lt (scheduleOf key) input n hin h2
  obtain ⟨e1, e2, _⟩ := halves_combine _ _ p1 p2
  obtain ⟨_, e⟩ := combine32 _ _ p1 p2
  refine ⟨scheduleOf key, NewCipherWithRounds_eq key 8 hkey,
    _FL_eq_spec _ (scheduleOf_wellSized key) (scheduleOf_keys16 key hbytes) input n hin hn,
    p1, p2, ?_, e1, e2⟩
  unfold spec_FL
  rw [e, Nat.shiftLeft_eq]

/-- The statement of **C12** at the key `01 23 … 32 10`, the input `0x12345678`
and round 5. -/
theorem _FL_refines_spec_witness :
    ∃ c, NewCipher [0x01, 0x23, 0x45, 0x67, 0x89, 0xAB, 0xCD, 0xEF,
        0xFE, 0xDC, 0xBA, 0x98, 0x76, 0x54, 0x32, 0x10] = some (Except.ok c) ∧
      c._FL 0x12345678 5 = some (spec_FL c 0x12345678 5) := by
  obtain ⟨c, hc, h, _⟩ := _FL_refines_spec [0x01, 0x23, 0x45, 0x67, 0x89, 0xAB, 0xCD, 0xEF,
    0xFE, 0xDC, 0xBA, 0x98, 0x76, 0x54, 0x32, 0x10] 0x12345678 5
    (by decide) (by decide) (by norm_num) (by decide)
  exact ⟨c, hc, h⟩

/-- **C18** (FL is a bijection).  For every 16-byte key and every round `n` in
`0..7`, under the cipher of that key `_FL(., n)` maps 32-bit values to 32-bit
values and `spec_FL_inv`, which recovers `l = l' ^ rotl16(r' | KL2[n], 1)` and
`r = r' ^ rotl16(l & KL1[n], 1)` from an output `(l', r')`, is its inverse on both
sides; two different inputs never give the same output. -/
theorem _FL_bijective (key : List Nat) (n : Nat) (hkey : key.length = 16)
    (hbytes : IsBytes key) (hn : n < 8) :
    ∃ c, NewCipher key = some (Except.ok c) ∧
      (∀ x, x < 2 ^ 32 → ∃ y, c._FL x n = some y ∧ y < 2 ^ 32 ∧ spec_FL_inv c y n = x) ∧
      (∀ y, y < 2 ^ 32 → spec_FL_inv c y n < 2 ^ 32 ∧ c._FL (spec_FL_inv c y n) n = some y) ∧
      (∀ x1 x2 y1 y2, x1 < 2 ^ 32 → x2 < 2 ^ 32 → x1 ≠ x2 →
        c._FL x1 n = some y1 → c._FL x2 n = some y2 → y1 ≠ y2) := by
  have h2 := scheduleOf_kli2_lt key hbytes n
  have hfl := fun x hx => _FL_eq_spec (scheduleOf key) (scheduleOf_wellSized key)
    (scheduleOf_keys16 key hbytes) x n hx hn
  refine ⟨scheduleOf key, NewCipherWithRounds_eq key 8 hkey, ?_, ?_, ?_⟩
  · intro x hx
    exact ⟨_, hfl x hx, _FL_lt _ _ _ _ (hfl x hx), spec_FL_inv_FL _ x n hx h2⟩
  · intro y hy
    obtain ⟨b, e⟩ := spec_FL_FL_inv (scheduleOf key) y n hy h2
    refine ⟨b, ?_⟩
    rw [hfl _ b, e]
  · intro x1 x2 y1 y2 hx1 hx2 hne e1 e2 heq
    rw [hfl x1 hx1] at e1
    rw [hfl x2 hx2] at e2
    have i1 := spec_FL_inv_FL (scheduleOf key) x1 n hx1 h2
    have i2 := spec_FL_inv_FL (scheduleOf key) x2 n hx2 h2
    rw [Option.some.inj e1] at i1
    rw [Option.some.inj e2] at i2
    rw [heq, i2] at i1
    exact hne i1.symm

/-- The statement of **C18** at the key `01 23 … 32 10` and round 5: `_FL`
returns on `0x12345678` and `spec_FL_inv` gives the input back. -/
theorem _FL_bijective_witness :
    ∃ c, NewCipher [0x01, 0x23, 0x45, 0x67, 0x89, 0xAB, 0xCD, 0xEF,
        0xFE, 0xDC, 0xBA, 0x98, 0x76, 0x54, 0x32, 0x10] = some (Except.ok c) ∧
      ∃ y, c._FL 0x12345678 5 = some y ∧ y < 2 ^ 32 ∧ spec_FL_inv c y 5 = 0x12345678 := by
  obtain ⟨c, hc, h, _⟩ := _FL_bijective [0x01, 0x23, 0x45, 0x67, 0x89, 0xAB, 0xCD, 0xEF,
    0xFE, 0xDC, 0xBA, 0x98, 0x76, 0x54, 0x32, 0x10] 5 (by decide) (by decide) (by decide)
  exact ⟨c, hc, h 0x12345678 (by norm_num)⟩

/-! ## Claim C20: the rotation helpers -/

theorem testBit_eq_false_of_lt_16 (x i : Nat) (hx : x < 65536) (hi : 16 ≤ i) :
    x.testBit i = false := by
  apply Nat.testBit_lt_two_pow
  calc x < 2 ^ 16 := by norm_num; exact hx
    _ ≤ 2 ^ i := Nat.pow_le_pow_right (by norm_num) hi

theorem rotl16_rotl16 (n c : Nat) (hn : n < 65536) (hc : c ≤ 16) :
    rotl16 (rotl16 n c) (16 - c) = n := by
  have hm := rotl16_lt n c hn hc
  have hm2 := rotl16_lt (rotl16 n c) (16 - c) hm (by omega)
  apply Nat.eq_of_testBit_eq
  intro i
  by_cases hi : i < 16
  · rw [rotl16_testBit _ _ i hm (by omega) hi,
      rotl16_testBit n c _ hn hc (Nat.mod_lt _ (by norm_num))]
    congr 1
    omega
  · rw [testBit_eq_false_of_lt_16 _ i hm2 (by omega),
      testBit_eq_false_of_lt_16 _ i hn (by omega)]

theorem _ROR16_eq_ROL16 (m c : Nat) (hc : c ≤ 16) : _ROR16 m c = _ROL16 m (16 - c) := by
  unfold _ROR16 _ROL16
  have e1 : (16 + 256 - c) % 256 = 16 - c := by omega
  have e2 : (16 + 256 - (16 - c)) % 256 = c := by omega
  rw [e1, e2, Nat.lor_comm]

theorem rotl16_zero (n : Nat) (hn : n < 65536) : rotl16 n 0 = n := by
  unfold rotl16
  have : (2 : Nat) ^ (16 - 0) = 65536 := by norm_num
  rw [this]
  simp only [Nat.pow_zero, Nat.mul_one]
  omega

theorem rotl16_sixteen (n : Nat) : rotl16 n 16 = n := by
  unfold rotl16
  simp [Nat.mod_one]

/-- **C20** (rotations).  For every 16-bit `n` and every count `c` with
`0 <= c <= 16`, `_ROL16 n c` is the left rotation of `n` by `c mod 16` places
(bit `i` of the result is bit `i - c` modulo 16 of `n`) and `_ROR16` undoes it.
For a count above 16 this fails: at `c = 17` the `uint8` expression `16 - c`
wraps to 255, both shifts give 0 and `_ROL16 1 17 = 0`, so the helpers are
rotations only on `0..16`; the key schedule and `_FL` use the counts 1, 5, 8
and 13. -/
theorem _ROL16_rotation (n c : Nat) (hn : n < 2 ^ 16) (hc : c ≤ 16) :
    _ROL16 n c = rotl16 n (c % 16) ∧ _ROL16 n c < 2 ^ 16 ∧
    (∀ i, i < 16 → (_ROL16 n c).testBit i = n.testBit ((i + 16 - c % 16) % 16)) ∧
    _ROR16 (_ROL16 n c) c = n ∧
    (_ROL16 1 17 = 0 ∧ rotl16 1 (17 % 16) = 2 ∧ _ROR16 (_ROL16 1 17) 17 = 0) := by
  have hn' : n < 65536 := by norm_num at hn; exact hn
  have h1 := _ROL16_eq_rotl16 n c hn' hc
  have hlt := rotl16_lt n c hn' hc
  have hmod : rotl16 n c = rotl16 n (c % 16) := by
    by_cases h16 : c = 16
    · subst h16
      rw [rotl16_sixteen]
      exact (rotl16_zero n hn').symm
    · have : c % 16 = c := Nat.mod_eq_of_lt (by omega)
      rw [this]
  refine ⟨by rw [h1, hmod], by rw [h1]; norm_num; exact hlt, ?_, ?_, by decide⟩
  · intro i hi
    rw [h1, hmod, rotl16_testBit n (c % 16) i hn' (by omega) hi]
  · rw [h1, _ROR16_eq_ROL16 _ c hc, _ROL16_eq_rotl16 _ (16 - c) hlt (by omega)]
    exact rotl16_rotl16 n c hn' hc

/-- The statement of **C20** at `n = 0x8001` and `c = 13`. -/
theorem _ROL16_rotation_witness :
    _ROL16 0x8001 13 = rotl16 0x8001 (13 % 16) ∧ _ROR16 (_ROL16 0x8001 13) 13 = 0x8001 := by
  obtain ⟨h1, _, _, h2, _⟩ := _ROL16_rotation 0x8001 13 (by norm_num) (by decide)
  exact ⟨h1, h2⟩

end Kasumi
